import Mathlib

/-!
# Verification of the priority-queue / shortest-path / LCA core

Shallow embedding of the repository's core algorithms:

* `MinHeap` with `push`/`pop` (binary sift-up / sift-down), from `src/dijkstra.ts`;
* `dijkstra` (lazy-deletion Dijkstra over a weighted adjacency list), from `src/dijkstra.ts`;
* `astarGrid` (A* on a 4-connected unit-cost grid with Manhattan heuristic), from `src/LCA.ts`;
* the binary-lifting `LCA` structure (`mkLCA` construction and `lcaQuery`), from `src/LCA.ts`.

Modelling conventions, used throughout:

* The source is TypeScript.  Node ids are dense natural numbers; edge weights and
  path costs are natural numbers (the specification restricts attention to
  non-negative weights); tentative distances are `ℕ∞` with `⊤` playing the role
  of JavaScript's `Infinity`.
* Mutation is rendered as explicit state passing: each loop takes and returns a
  state record, and the read-only inputs (`adj`, `grid`) are threaded through the
  state so that the frame properties are actual statements about the embedding.
* `while` loops and recursion are given a step budget ("fuel") so that every
  definition is structurally recursive and kernel-computable.  Running out of
  fuel is a distinguished result constructor, never a silent default, and for
  each algorithm the fuel supplied by the wrapper is proved sufficient.
* A JavaScript read of a missing array index yields `undefined`, and every
  comparison with `undefined` is false; reads are therefore translated with
  `List.getElem?` and an explicit `match`, taking the branch the source takes
  when the value is `undefined`.  Reads the source guards to be in bounds are
  translated with `List.getD`.
* JavaScript `Map` preserves insertion order and `Map.set` keeps the original
  position of an overwritten key; the `Map`s of the A* pathfinder are embedded
  as association lists with exactly these semantics.  The string keys `"x,y"`
  of the source are in bijection with coordinate pairs, and are embedded as the
  pairs themselves.  Grid coordinates are integers (`ℤ`), since the neighbour
  offsets `[-1,0,1]` may leave ℕ.
* `Math.ceil(Math.log2 n)` is embedded as the least `k` with `n ≤ 2^k`, which is
  the value the float computation produces for every feasible table size.
-/

/-- Least `k` with `n ≤ 2 ^ k`: the value of `Math.ceil(Math.log2 n)`. -/
def clog2 (n : ℕ) : ℕ := ((List.range (n + 1)).find? (fun k => n ≤ 2 ^ k)).getD 0

/-! ## The binary min-heap (`MinHeap` in `src/dijkstra.ts`) -/

/-- `class MinHeap<T> { data: { key: number; val: T }[] }` (dijkstra.ts:2-3).
Entries are (key, value) pairs kept in a flat array. -/
structure MinHeap (K V : Type) where
  data : List (K × V)
deriving DecidableEq

namespace MinHeap

variable {K V : Type} [LinearOrder K]

/-- Swap the entries at positions `i` and `j`; out-of-range indices leave the
list unchanged (the source only swaps in-range indices). -/
def lswap (l : List (K × V)) (i j : ℕ) : List (K × V) :=
  match l[i]?, l[j]? with
  | some a, some b => (l.set i b).set j a
  | _, _ => l

/-- `size() { return this.data.length; }` (dijkstra.ts:4). -/
def size (h : MinHeap K V) : ℕ := h.data.length

/-- The sift-up loop of `push` (dijkstra.ts:7-13): while `i > 0`, compare with
the parent `(i-1) >> 1` and swap while the parent's key is larger.  `fuel`
bounds the number of iterations; the caller supplies more fuel than the loop
can consume, since `i` strictly decreases. -/
def siftUp : ℕ → List (K × V) → ℕ → List (K × V)
  | 0, l, _ => l
  | fuel + 1, l, i =>
    if i = 0 then l
    else
      match l[(i - 1) / 2]?, l[i]? with
      | some a, some b =>
        if a.1 ≤ b.1 then l else siftUp fuel (lswap l ((i - 1) / 2) i) ((i - 1) / 2)
      | _, _ => l

/-- `push(key, val)` (dijkstra.ts:5-14): append and sift up from the last index. -/
def push (h : MinHeap K V) (k : K) (v : V) : MinHeap K V :=
  let l := h.data ++ [(k, v)]
  ⟨siftUp l.length l (l.length - 1)⟩

/-- One comparison of the sift-down loop:
`if (c < len && data[c].key < data[s].key) smallest = c` (dijkstra.ts:25-26).
The candidate `c` only competes while in range (`l[c]?` is `some`). -/
def pickSmaller (l : List (K × V)) (c s : ℕ) : ℕ :=
  match l[c]?, l[s]? with
  | some a, some b => if a.1 < b.1 then c else s
  | _, _ => s

/-- The sift-down loop of `pop` (dijkstra.ts:21-30): pick the smallest of
`i`, `2i+1`, `2i+2` by the two comparisons of the source and swap downwards
until `i` is smallest.  `i` strictly increases, so `fuel` iterations suffice
whenever `fuel ≥ l.length`. -/
def siftDown : ℕ → List (K × V) → ℕ → List (K × V)
  | 0, l, _ => l
  | fuel + 1, l, i =>
    let s2 := pickSmaller l (i * 2 + 2) (pickSmaller l (i * 2 + 1) i)
    if s2 = i then l else siftDown fuel (lswap l i s2) s2

/-- `pop()` (dijkstra.ts:15-33): return `null` when empty; otherwise remove the
root, move the last entry to the root (when entries remain) and sift it down. -/
def pop (h : MinHeap K V) : Option (K × V) × MinHeap K V :=
  match h.data with
  | [] => (none, ⟨[]⟩)
  | [e] => (some e, ⟨[]⟩)
  | res :: rest =>
    let l0 := rest.getLastD res :: rest.dropLast
    (some res, ⟨siftDown rest.length l0 0⟩)

end MinHeap

/-! ## Dijkstra (`dijkstra` in `src/dijkstra.ts`) -/

/-- The mutable state of a `dijkstra` run.  The adjacency list is part of the
state so that its preservation is a statement about the embedding. -/
structure DState where
  adj : List (List (ℕ × ℕ))
  dist : List ℕ∞
  pq : MinHeap ℕ∞ ℕ
deriving DecidableEq

/-- Result of a `dijkstra` run.  `typeError` is the JavaScript `TypeError`
raised by `for (const [v, w] of adj[u])` when `u` is out of range
(`adj[u]` is `undefined`). -/
inductive DRes where
  | outOfFuel
  | typeError
  | ok (s : DState)
deriving DecidableEq

/-- One relaxation `if (dist[v] > dist[u] + w) { dist[v] = dist[u] + w;
pq.push(dist[v], v); }` (dijkstra.ts:47-50).  When either read is out of range
the JavaScript comparison against `undefined` is false and nothing happens. -/
def relaxStep (u : ℕ) (s : DState) (e : ℕ × ℕ) : DState :=
  match s.dist[u]?, s.dist[e.1]? with
  | some du, some dv =>
    if du + (e.2 : ℕ∞) < dv then
      { s with dist := s.dist.set e.1 (du + (e.2 : ℕ∞)),
               pq := s.pq.push (du + (e.2 : ℕ∞)) e.1 }
    else s
  | _, _ => s

/-- The `while (pq.size())` loop of `dijkstra` (dijkstra.ts:41-52): pop an
entry `(d, u)`; skip it when stale (`d > dist[u]`); otherwise relax every
outgoing edge of `u`.  When `u` is out of range, iterating `adj[u]` throws. -/
def dijkstraLoop : ℕ → DState → DRes
  | fuel, s =>
    if s.pq.size = 0 then .ok s
    else
      match fuel with
      | 0 => .outOfFuel
      | fuel + 1 =>
        match s.pq.pop with
        | (none, pq1) => .ok { s with pq := pq1 }
        | (some (d, u), pq1) =>
          let s1 : DState := { s with pq := pq1 }
          let stale : Bool := match s1.dist[u]? with
            | some du => decide (d > du)
            | none => false
          if stale then dijkstraLoop fuel s1
          else
            match s1.adj[u]? with
            | none => .typeError
            | some edges => dijkstraLoop fuel (edges.foldl (relaxStep u) s1)

/-- Largest edge weight of the adjacency structure (used only for the fuel
budget). -/
def maxWeight (adj : List (List (ℕ × ℕ))) : ℕ :=
  (adj.map (fun l => (l.map Prod.snd).foldr max 0)).foldr max 0

/-- A step budget sufficient for every run on in-range inputs (proved below):
every finite tentative distance is at most `(n-1)·maxWeight`, every push
strictly decreases a tentative distance, and every iteration pops one entry. -/
def dijkstraFuel (adj : List (List (ℕ × ℕ))) : ℕ :=
  adj.length * ((adj.length - 1) * maxWeight adj + 1) + 2

/-- `dijkstra(adj, src)` (dijkstra.ts:35-54): distances start at `Infinity`
except `dist[src] = 0`, and the queue starts holding `(0, src)`. -/
def dijkstra (adj : List (List (ℕ × ℕ))) (src : ℕ) : DRes :=
  let n := adj.length
  let dist0 := (List.replicate n (⊤ : ℕ∞)).set src 0
  let pq0 := MinHeap.push ⟨[]⟩ (0 : ℕ∞) src
  dijkstraLoop (dijkstraFuel adj) ⟨adj, dist0, pq0⟩

/-- Walks of the weighted graph: `DWalk adj src v c` holds when there is a
directed walk from `src` to `v` of total weight `c`.  The shortest-path
distance is the infimum of `c` over all walks (for the non-negative weights, the
infimum over walks and over simple paths agree). -/
inductive DWalk (adj : List (List (ℕ × ℕ))) (src : ℕ) : ℕ → ℕ → Prop
  | nil : DWalk adj src src 0
  | cons {u c v w} : DWalk adj src u c → (v, w) ∈ adj.getD u [] →
      DWalk adj src v (c + w)

/-- `d` is the true shortest-path distance from `src` to `v`: a lower bound on
the cost of every walk, and attained by a walk unless it is `⊤` (so `⊤` exactly
for unreachable `v`).  For non-negative weights this is the usual graph
distance: the infimum over walks agrees with the infimum over simple paths. -/
def IsShortestDist (adj : List (List (ℕ × ℕ))) (src v : ℕ) (d : ℕ∞) : Prop :=
  (∀ c : ℕ, DWalk adj src v c → d ≤ c) ∧ (d ≠ ⊤ → ∃ c : ℕ, DWalk adj src v c ∧ d = c)

/-! ## A* on a grid (`astarGrid` in `src/LCA.ts`) -/

/-- A grid coordinate.  The source keys its maps by the string `"x,y"`; the
key function is a bijection onto coordinate pairs and is embedded as the pair
itself.  Coordinates are integers because the neighbour offsets are `±1`. -/
abbrev Cell := ℤ × ℤ

/-- `Map.get`: first (and, by construction, only) binding of `k`. -/
def aget {β : Type} (m : List (Cell × β)) (k : Cell) : Option β :=
  (m.find? (fun p => p.1 == k)).map Prod.snd

/-- `Map.set`: overwrite in place (JavaScript `Map` keeps the insertion
position of an overwritten key), else append. -/
def aset {β : Type} : List (Cell × β) → Cell → β → List (Cell × β)
  | [], k, v => [(k, v)]
  | (k', v') :: t, k, v =>
    if k' == k then (k, v) :: t else (k', v') :: aset t k v

/-- `Map.delete`. -/
def adel {β : Type} (m : List (Cell × β)) (k : Cell) : List (Cell × β) :=
  m.filter (fun p => !(p.1 == k))

/-- The linear scan `for (const [k, f] of open) if (f < curF) { … }`
(LCA.ts:59-61): first entry with the (strictly) smallest `f`. -/
def selectMin (m : List (Cell × ℕ)) : Option (Cell × ℕ) :=
  m.foldl (fun acc p =>
    match acc with
    | none => some p
    | some q => if p.2 < q.2 then some p else some q) none

/-- The Manhattan heuristic `h` (LCA.ts:49). -/
def manhattan (a b : Cell) : ℕ := (a.1 - b.1).natAbs + (a.2 - b.2).natAbs

/-- The mutable state of an `astarGrid` run (`open`, `gScore`, `parent`,
LCA.ts:50-52), with the read-only grid threaded through. -/
structure AState where
  grid : List (List ℕ)
  frontier : List (Cell × ℕ)
  gScore : List (Cell × ℕ)
  parent : List (Cell × Option Cell)
deriving DecidableEq

/-- Result of an `astarGrid` run.  `typeError` is the JavaScript `TypeError`
raised by `grid[0].length` on an empty grid. -/
inductive ARes where
  | outOfFuel
  | typeError
  | ok (path : Option (List Cell)) (s : AState)
deriving DecidableEq

/-- Path reconstruction `while (p) { path.push(p); p = parent.get(p) ?? null; }`
(LCA.ts:66-72), producing the goal-to-start list (reversed by the caller).
A missing binding or a `null` binding both stop the walk. -/
def astarRecon : ℕ → List (Cell × Option Cell) → Cell → Option (List Cell)
  | 0, _, _ => none
  | fuel + 1, par, p =>
    match aget par p with
    | none => some [p]
    | some none => some [p]
    | some (some q) => (astarRecon fuel par q).map (fun l => p :: l)

/-- `const dirs = [[1,0],[-1,0],[0,1],[0,-1]]` (LCA.ts:57). -/
def dirs : List (ℤ × ℤ) := [(1, 0), (-1, 0), (0, 1), (0, -1)]

/-- The neighbour-expansion `for (const [dx, dy] of dirs)` body (LCA.ts:77-87):
skip out-of-bounds or blocked cells; on a strict `g` improvement record the
predecessor, the new `g`, and re-insert into the open set with `f = g + h`. -/
def expandStep (goal : Cell) (R C : ℕ) (cur : Cell) (gCur : ℕ)
    (st : AState) (d : ℤ × ℤ) : AState :=
  let nx := cur.1 + d.1
  let ny := cur.2 + d.2
  if 0 ≤ nx ∧ 0 ≤ ny ∧ nx < (R : ℤ) ∧ ny < (C : ℤ) then
    if (st.grid.getD nx.toNat []).getD ny.toNat 0 = 1 then st
    else
      let tg := gCur + 1
      let better : Bool := match aget st.gScore (nx, ny) with
        | none => true
        | some g => decide (tg < g)
      if better then
        { st with parent := aset st.parent (nx, ny) (some cur),
                  gScore := aset st.gScore (nx, ny) tg,
                  frontier := aset st.frontier (nx, ny) (tg + manhattan (nx, ny) goal) }
      else st
  else st

/-- The `while (open.size)` loop of `astarGrid` (LCA.ts:58-88): select the
open entry with minimal `f`, remove it, return the reconstructed path if it is
the goal, and otherwise expand its four neighbours. -/
def astarLoop (goal : Cell) (R C : ℕ) : ℕ → AState → ARes
  | fuel, s =>
    if s.frontier = [] then .ok none s
    else
      match fuel with
      | 0 => .outOfFuel
      | fuel + 1 =>
        match selectMin s.frontier with
        | none => .ok none s
        | some (cur, _) =>
          let s1 : AState := { s with frontier := adel s.frontier cur }
          if cur = goal then
            match astarRecon (R * C + 1) s1.parent cur with
            | none => .outOfFuel
            | some l => .ok (some l.reverse) s1
          else
            let gCur := (aget s1.gScore cur).getD 0
            astarLoop goal R C fuel (dirs.foldl (expandStep goal R C cur gCur) s1)

/-- A step budget sufficient for every run from an in-bounds start (proved
below): every recorded `g` is below `R*C`, every open-set insertion strictly
decreases a recorded `g`, and every iteration removes one open entry. -/
def astarFuel (R C : ℕ) : ℕ := (R * C + 1) * (R * C + 1) * (R * C) + 2

/-- `astarGrid(start, goal, grid)` (LCA.ts:46-90). -/
def astarGrid (start goal : Cell) (grid : List (List ℕ)) : ARes :=
  match grid with
  | [] => .typeError
  | g0 :: _ =>
    let R := grid.length
    let C := g0.length
    let s0 : AState := ⟨grid, [(start, manhattan start goal)], [(start, 0)], [(start, none)]⟩
    astarLoop goal R C (astarFuel R C) s0

/-- In-bounds test for a cell of an `R × C` grid. -/
def inBounds (R C : ℕ) (c : Cell) : Prop :=
  0 ≤ c.1 ∧ 0 ≤ c.2 ∧ c.1 < (R : ℤ) ∧ c.2 < (C : ℤ)

instance (R C : ℕ) (c : Cell) : Decidable (inBounds R C c) := by
  unfold inBounds; infer_instance

/-- The cell is marked free (anything other than `1`; the source tests
`grid[x][y] === 1`). -/
def freeCell (grid : List (List ℕ)) (c : Cell) : Prop :=
  (grid.getD c.1.toNat []).getD c.2.toNat 0 ≠ 1

instance (grid : List (List ℕ)) (c : Cell) : Decidable (freeCell grid c) := by
  unfold freeCell; infer_instance

/-- Two cells are one cardinal unit step apart. -/
def cellAdj (a b : Cell) : Prop :=
  (a.1 - b.1).natAbs + (a.2 - b.2).natAbs = 1

instance (a b : Cell) : Decidable (cellAdj a b) := by
  unfold cellAdj; infer_instance

/-- A valid grid path from `s` to `t`: nonempty, listed from `s` to `t`,
every cell free and in bounds, consecutive cells one cardinal step apart.
Its number of moves is `p.length - 1`. -/
def IsGridPath (grid : List (List ℕ)) (R C : ℕ) (s t : Cell) (p : List Cell) : Prop :=
  p ≠ [] ∧ p.head? = some s ∧ p.getLast? = some t ∧
    (∀ c ∈ p, inBounds R C c ∧ freeCell grid c) ∧ p.Chain' cellAdj

/-! ## Binary-lifting LCA (`class LCA` in `src/LCA.ts`) -/

/-- The fields of `class LCA` (LCA.ts:2-7). `up` holds node ids or the
sentinel `-1`, as in the source. -/
structure LCAStruct where
  n : ℕ
  LOG : ℕ
  up : List (List ℤ)
  depth : List ℕ
  adj : List (List ℕ)
deriving DecidableEq

/-- The recursive `dfs(u, p)` of the constructor (LCA.ts:22-28), realised with
an explicit frame stack (a frame is `(u, p, remaining children)`) and a step
budget.  Entering a node sets `up[0][u] = p`; expanding an edge to a child `v`
first sets `depth[v] = depth[u] + 1`, exactly as in the source.  Exhausting the
budget models the stack overflow that unbounded recursion (a cyclic input)
produces in the source; the budget chosen by `mkLCA` is proved sufficient for
every rooted tree. -/
def lcaDfs (adj : List (List ℕ)) :
    ℕ → List (ℕ × ℕ × List ℕ) → List ℤ × List ℕ → Option (List ℤ × List ℕ)
  | _, [], st => some st
  | 0, _ :: _, _ => none
  | fuel + 1, (u, p, cs) :: stk, st =>
    match cs with
    | [] => lcaDfs adj fuel stk st
    | v :: vs =>
      if v ≠ p then
        let st1 := (st.1.set v (u : ℤ), st.2.set v (st.2.getD u 0 + 1))
        lcaDfs adj fuel ((v, u, adj.getD v []) :: (u, p, vs) :: stk) st1
      else lcaDfs adj fuel ((u, p, vs) :: stk) st

/-- One doubling row: `up[k][v] = mid === -1 ? -1 : up[k-1][mid]`
(LCA.ts:17-18). -/
def upRow (n : ℕ) (prev : List ℤ) : List ℤ :=
  (List.range n).map (fun v =>
    let mid := prev.getD v (-1)
    if mid = -1 then -1 else prev.getD mid.toNat (-1))

/-- Rows `up[0] … up[LOG-1]` of the ancestor table, starting from the DFS row. -/
def upRows (n : ℕ) : ℕ → List ℤ → List (List ℤ)
  | 0, _ => []
  | k + 1, row => row :: upRows n k (upRow n row)

/-- Step budget for the DFS: `dfsBudget n d` bounds the steps needed to
process any frame whose node has at most `d` tree levels below it, on a graph
with `n` nodes (each frame spends one step per listed edge plus one step to
pop, and a node has at most `n` listed edges).  Proved sufficient below. -/
def dfsBudget (n : ℕ) : ℕ → ℕ
  | 0 => 1
  | d + 1 => 1 + n * (1 + dfsBudget n d)

/-- The `LCA` constructor (LCA.ts:8-21): `n = adj.length`,
`LOG = ceil(log2(max(2, n)))`, `up` filled by `dfs(root, root)` and the
doubling loop, `depth` zero-initialised.  `none` models the stack overflow of
the DFS on a cyclic input (the budget is proved sufficient for every rooted
tree, so only non-tree inputs can exhaust it). -/
def mkLCA (adj : List (List ℕ)) (root : ℕ) : Option LCAStruct :=
  let n := adj.length
  let LOG := clog2 (max 2 n)
  let st0 := ((List.replicate n (-1 : ℤ)).set root (root : ℤ), List.replicate n 0)
  match lcaDfs adj (dfsBudget n n) [(root, root, adj.getD root [])] st0 with
  | none => none
  | some (row0, dep) => some ⟨n, LOG, upRows n LOG row0, dep, adj⟩

/-- Read `up[k][z]` (out-of-range reads yield the sentinel). -/
def upAt (s : LCAStruct) (k : ℕ) (z : ℤ) : ℤ := (s.up.getD k []).getD z.toNat (-1)

/-- Read `depth[z]`. -/
def depthAt (s : LCAStruct) (z : ℤ) : ℕ := s.depth.getD z.toNat 0

/-- `query(u, v)` (LCA.ts:29-41): swap so `u` is deeper, lift `u` by the binary
decomposition of the depth difference, then binary-search upwards and return
`up[0][u]`. -/
def lcaQuery (s : LCAStruct) (u0 v0 : ℕ) : ℤ :=
  let a : ℤ × ℤ :=
    if depthAt s u0 < depthAt s v0 then ((v0 : ℤ), (u0 : ℤ)) else ((u0 : ℤ), (v0 : ℤ))
  let diff := depthAt s a.1 - depthAt s a.2
  let u := (List.range s.LOG).foldl (fun x k => if diff.testBit k then upAt s k x else x) a.1
  if u = a.2 then u
  else
    let b := (List.range s.LOG).reverse.foldl
      (fun (pr : ℤ × ℤ) k =>
        if upAt s k pr.1 ≠ upAt s k pr.2 then (upAt s k pr.1, upAt s k pr.2) else pr)
      (u, a.2)
    upAt s 0 b.1

/-- The state-passing reading of the `query` method: it performs no assignment
to any field, so the translation returns the receiver unchanged. -/
def lcaQueryS (s : LCAStruct) (u0 v0 : ℕ) : ℤ × LCAStruct := (lcaQuery s u0 v0, s)

/-! ## Specification-side notions used by the claims -/

/-- `j`-fold iterated parent. -/
def parIter (par : ℕ → ℕ) : ℕ → ℕ → ℕ
  | 0, v => v
  | j + 1, v => parIter par j (par v)

/-- `a` is an ancestor of `x` (reflexively: every node is its own ancestor). -/
def IsAncestor (par : ℕ → ℕ) (a x : ℕ) : Prop := ∃ i, parIter par i x = a

/-- The adjacency input is the undirected adjacency-list presentation of a
tree on `0 .. adj.length - 1` rooted at `root`, witnessed by its parent
function `par` and depth function `dep`: the root is its own parent at depth
`0`, every other node sits one level below its parent, and `adj` lists exactly
the undirected edges `{v, par v}`. -/
structure IsRootedTree (adj : List (List ℕ)) (root : ℕ) (par dep : ℕ → ℕ) : Prop where
  root_lt : root < adj.length
  par_root : par root = root
  dep_root : dep root = 0
  par_lt : ∀ v, v < adj.length → par v < adj.length
  dep_par : ∀ v, v < adj.length → v ≠ root → dep v = dep (par v) + 1
  mem_adj : ∀ u, u < adj.length → ∀ v,
    (v ∈ adj.getD u [] ↔ (v < adj.length ∧ v ≠ root ∧ par v = u) ∨ (u ≠ root ∧ par u = v))
  nodup : ∀ u, u < adj.length → (adj.getD u []).Nodup

/-- Walks on the grid through free in-bounds cells, counted by number of
moves; used to express the true shortest grid distance. -/
inductive GWalk (grid : List (List ℕ)) (R C : ℕ) (s : Cell) : Cell → ℕ → Prop
  | nil : inBounds R C s → freeCell grid s → GWalk grid R C s s 0
  | cons {u k v} : GWalk grid R C s u k → cellAdj u v → inBounds R C v →
      freeCell grid v → GWalk grid R C s v (k + 1)

/-- Number of finite entries of a distance table (used by the termination
argument: it bounds how large a newly assigned finite distance can be). -/
def finCount (dist : List ℕ∞) : ℕ := dist.countP (fun d => decide (d ≠ ⊤))

/-- A tentative distance capped at `B`, with `⊤ ↦ B`; summing these gives the
decreasing part of the loop measure. -/
def distB (B : ℕ) (d : ℕ∞) : ℕ := if d = ⊤ then B else min d.toNat B

/-- Termination measure of the Dijkstra loop: capped distance mass plus queue
size.  Every iteration strictly decreases it, because every push is paired
with a strict decrease of some tentative distance. -/
def dMeasure (B : ℕ) (s : DState) : ℕ := (s.dist.map (distB B)).sum + s.pq.data.length

/-- The core invariant of `dijkstraLoop`, for a run started from `src` on the
in-range adjacency structure `adj`.

* `sound`: every finite tentative distance is the cost of an actual walk;
* `keys`: queue keys dominate the current tentative distance of their node;
* `bound`: every finite tentative distance is at most
  `(finCount-1) · maxWeight`, which keeps the measure argument honest. -/
structure DCore (adj : List (List (ℕ × ℕ))) (src : ℕ) (s : DState) : Prop where
  adj_eq : s.adj = adj
  len : s.dist.length = adj.length
  src0 : s.dist.getD src ⊤ = 0
  sound : ∀ v, v < adj.length → s.dist.getD v ⊤ ≠ ⊤ →
    ∃ c : ℕ, DWalk adj src v c ∧ s.dist.getD v ⊤ = (c : ℕ∞)
  keys : ∀ e ∈ s.pq.data, s.dist.getD e.2 ⊤ ≤ e.1 ∧ e.2 < adj.length
  bound : ∀ v, v < adj.length → s.dist.getD v ⊤ ≠ ⊤ →
    s.dist.getD v ⊤ ≤ (((finCount s.dist - 1) * maxWeight adj : ℕ) : ℕ∞)

/-- The full loop invariant: the core plus the relaxation discipline `relaxed`
(every node either has a fresh queue entry, or all its outgoing edges are
relaxed), which makes the final table a fixed point of relaxation once the
queue is empty — independently of the order in which the heap yields
entries. -/
structure DInv (adj : List (List (ℕ × ℕ))) (src : ℕ) (s : DState)
    extends DCore adj src s : Prop where
  relaxed : ∀ u, u < adj.length →
    (∃ e ∈ s.pq.data, e.2 = u ∧ e.1 = s.dist.getD u ⊤) ∨
    (∀ e ∈ adj.getD u [], s.dist.getD e.1 ⊤ ≤ s.dist.getD u ⊤ + (e.2 : ℕ∞))

/-- The invariant of an `astarGrid` run on an `R x C` grid from the free
in-bounds cell `start`.  `relaxed` exempts cells still in the open set: a
scored cell that has left the open set has propagated its `g` to every free
in-bounds neighbour.  `goalo` records that the goal, once scored, stays in the
open set until the loop returns a path.  The parent fields give, for every
scored cell other than `start`, an adjacent predecessor with a strictly
smaller `g`, which makes reconstruction terminate at `start`. -/
structure AInv (grid : List (List ℕ)) (R C : ℕ) (start goal : Cell)
    (st : AState) : Prop where
  grid_eq : st.grid = grid
  fnd : (st.frontier.map Prod.fst).Nodup
  gnd : (st.gScore.map Prod.fst).Nodup
  pnd : (st.parent.map Prod.fst).Nodup
  ginb : ∀ e ∈ st.gScore, inBounds R C e.1
  sound : ∀ c g, aget st.gScore c = some g → GWalk grid R C start c g
  fval : ∀ c f, aget st.frontier c = some f →
    ∃ g, aget st.gScore c = some g ∧ f = g + manhattan c goal
  gstart : aget st.gScore start = some 0
  relaxed : ∀ c g, aget st.gScore c = some g → aget st.frontier c = none →
    ∀ n2, cellAdj c n2 → inBounds R C n2 → freeCell grid n2 →
      ∃ gn, aget st.gScore n2 = some gn ∧ gn ≤ g + 1
  gbound : ∀ c g, aget st.gScore c = some g → g + 1 ≤ st.gScore.length
  glen : st.gScore.length ≤ R * C
  goalo : aget st.gScore goal = none ∨ aget st.frontier goal ≠ none
  pstart : aget st.parent start = some none
  pnone : ∀ c, aget st.parent c = some none → c = start
  pchain : ∀ c p, aget st.parent c = some (some p) →
    ∃ gc gp, aget st.gScore c = some gc ∧ aget st.gScore p = some gp ∧
      gp < gc ∧ cellAdj p c
  pdom : ∀ c g, aget st.gScore c = some g → c ≠ start →
    ∃ p, aget st.parent c = some (some p)

/-- The mid-iteration weakening of `AInv`: the invariant with the cell `cur`
(just removed from the open set, not yet fully expanded) exempted from the
`relaxed` obligation. -/
structure AInvP (grid : List (List ℕ)) (R C : ℕ) (start goal cur : Cell)
    (st : AState) : Prop where
  grid_eq : st.grid = grid
  fnd : (st.frontier.map Prod.fst).Nodup
  gnd : (st.gScore.map Prod.fst).Nodup
  pnd : (st.parent.map Prod.fst).Nodup
  ginb : ∀ e ∈ st.gScore, inBounds R C e.1
  sound : ∀ c g, aget st.gScore c = some g → GWalk grid R C start c g
  fval : ∀ c f, aget st.frontier c = some f →
    ∃ g, aget st.gScore c = some g ∧ f = g + manhattan c goal
  gstart : aget st.gScore start = some 0
  relaxedP : ∀ c g, aget st.gScore c = some g → aget st.frontier c = none → c ≠ cur →
    ∀ n2, cellAdj c n2 → inBounds R C n2 → freeCell grid n2 →
      ∃ gn, aget st.gScore n2 = some gn ∧ gn ≤ g + 1
  gbound : ∀ c g, aget st.gScore c = some g → g + 1 ≤ st.gScore.length
  glen : st.gScore.length ≤ R * C
  goalo : aget st.gScore goal = none ∨ aget st.frontier goal ≠ none
  pstart : aget st.parent start = some none
  pnone : ∀ c, aget st.parent c = some none → c = start
  pchain : ∀ c p, aget st.parent c = some (some p) →
    ∃ gc gp, aget st.gScore c = some gc ∧ aget st.gScore p = some gp ∧
      gp < gc ∧ cellAdj p c
  pdom : ∀ c g, aget st.gScore c = some g → c ≠ start →
    ∃ p, aget st.parent c = some (some p)

/-- Termination measure of the A* loop: recorded `g` mass, weighted count of
cells not yet scored, plus the open-set size.  Every open-set insertion either
scores a fresh cell or strictly lowers a recorded `g`, so every loop iteration
strictly decreases the measure. -/
def aMeasure (R C : ℕ) (st : AState) : ℕ :=
  (st.gScore.map Prod.snd).sum + (R * C + 1) * (R * C - st.gScore.length)
    + st.frontier.length

/-- A client-visible heap operation (claim C4 quantifies over arbitrary
interleavings of pushes and pops). -/
inductive HeapOp (K V : Type) where
  | push (k : K) (v : V)
  | pop

/-- Run a sequence of operations against an initially empty `MinHeap`,
discarding popped values. -/
def runHeapOps {K V : Type} [LinearOrder K] (ops : List (HeapOp K V)) : MinHeap K V :=
  ops.foldl (fun h op => match op with
    | .push k v => h.push k v
    | .pop => (h.pop).2) ⟨[]⟩

/-- The binary-heap shape invariant: every parent key is at most its
children's keys. -/
def IsHeap {K V : Type} [LinearOrder K] (l : List (K × V)) : Prop :=
  ∀ j a b, 0 < j → l[j]? = some a → l[(j - 1) / 2]? = some b → b.1 ≤ a.1

/-- Heap except possibly at the edge from `i` up to its parent. -/
def heapExceptAt {K V : Type} [LinearOrder K] (l : List (K × V)) (i : ℕ) : Prop :=
  ∀ j a b, 0 < j → j ≠ i → l[j]? = some a → l[(j - 1) / 2]? = some b → b.1 ≤ a.1

/-- Heap except possibly at the edges from `i` down to its children. -/
def heapExceptBelow {K V : Type} [LinearOrder K] (l : List (K × V)) (i : ℕ) : Prop :=
  ∀ j a b, 0 < j → (j - 1) / 2 ≠ i → l[j]? = some a → l[(j - 1) / 2]? = some b → b.1 ≤ a.1

/-- The children of `i` are bounded below by the key at `i`'s parent. -/
def grandBound {K V : Type} [LinearOrder K] (l : List (K × V)) (i : ℕ) : Prop :=
  ∀ c a g, 0 < c → (c - 1) / 2 = i → l[c]? = some a → l[(i - 1) / 2]? = some g → g.1 ≤ a.1

/-! ## Multiset behaviour of the heap operations

`push` adds exactly its entry and `pop` removes exactly the returned entry:
the sift loops only permute the array.  These facts are all the Dijkstra
correctness argument needs from the heap; the ordering facts are proved
separately for the priority-queue claim. -/

namespace MinHeap

theorem count_set {α : Type} [DecidableEq α] :
    ∀ (l : List α) (i : ℕ) (x c z : α), l[i]? = some z →
      (l.set i x).count c + (if z = c then 1 else 0) =
        l.count c + (if x = c then 1 else 0)
  | [], i, x, c, z, h => by simp at h
  | y :: t, 0, x, c, z, h => by
      have hz : z = y := by simpa using h.symm
      subst hz
      simp only [List.set_cons_zero, List.count_cons, beq_iff_eq]
      split_ifs <;> omega
  | y :: t, i + 1, x, c, z, h => by
      have ih := count_set t i x c z (by simpa using h)
      simp only [List.set_cons_succ, List.count_cons, beq_iff_eq]
      split_ifs at ih ⊢ <;> omega

theorem lswap_perm {K V : Type} (l : List (K × V)) (i j : ℕ) :
    (lswap l i j).Perm l := by
  unfold lswap
  split
  case _ a b hi' hj' =>
    classical
    have hi : i < l.length := (List.getElem?_eq_some.mp hi').1
    rw [List.perm_iff_count]
    intro c
    have hsb : (l.set i b)[j]? = some b := by
      rw [List.getElem?_set]
      by_cases hij : i = j
      · rw [if_pos hij, if_pos hi]
      · rw [if_neg hij]; exact hj'
    have h1 := count_set l i b c a hi'
    have h2 := count_set (l.set i b) j a c b hsb
    split_ifs at h1 h2 <;> omega
  case _ =>
    exact List.Perm.refl l

variable {K V : Type} [LinearOrder K]

theorem siftUp_perm : ∀ (fuel : ℕ) (l : List (K × V)) (i : ℕ),
    (siftUp fuel l i).Perm l
  | 0, l, i => List.Perm.refl l
  | fuel + 1, l, i => by
    rw [siftUp]
    split
    · exact List.Perm.refl l
    · split
      · split
        · exact List.Perm.refl l
        · exact (siftUp_perm fuel _ _).trans (lswap_perm l _ i)
      · exact List.Perm.refl l

theorem siftUp_length (fuel : ℕ) (l : List (K × V)) (i : ℕ) :
    (siftUp fuel l i).length = l.length :=
  (siftUp_perm fuel l i).length_eq

theorem siftDown_perm : ∀ (fuel : ℕ) (l : List (K × V)) (i : ℕ),
    (siftDown fuel l i).Perm l
  | 0, l, i => List.Perm.refl l
  | fuel + 1, l, i => by
    simp only [siftDown]
    split
    · exact List.Perm.refl l
    · exact (siftDown_perm fuel _ _).trans (lswap_perm l _ _)

theorem push_perm (h : MinHeap K V) (k : K) (v : V) :
    (h.push k v).data.Perm ((k, v) :: h.data) := by
  unfold push
  exact (siftUp_perm _ _ _).trans (@List.perm_append_comm _ h.data [(k, v)])

theorem push_size (h : MinHeap K V) (k : K) (v : V) :
    (h.push k v).size = h.size + 1 := by
  have := (push_perm h k v).length_eq
  simpa [size] using this

theorem pop_of_nil (h : MinHeap K V) (hd : h.data = []) :
    h.pop = (none, ⟨[]⟩) := by
  unfold pop
  rw [hd]

theorem pop_of_cons (h : MinHeap K V) (e : K × V) (rest : List (K × V))
    (hd : h.data = e :: rest) :
    (h.pop).1 = some e ∧ ((h.pop).2).data.Perm rest := by
  unfold pop
  rw [hd]
  match rest with
  | [] => exact ⟨rfl, List.Perm.refl []⟩
  | r1 :: rs =>
    refine ⟨rfl, (siftDown_perm _ _ _).trans ?_⟩
    have hne : (r1 :: rs) ≠ ([] : List (K × V)) := by simp
    have hgl : (r1 :: rs).getLastD e = (r1 :: rs).getLast hne := by
      rw [List.getLastD_eq_getLast?, List.getLast?_eq_getLast _ hne]
      rfl
    rw [hgl]
    have hsplit := List.dropLast_append_getLast hne
    conv_rhs => rw [← hsplit]
    exact @List.perm_append_comm _ [(r1 :: rs).getLast hne] _

end MinHeap

/-! ## Frame behaviour of the loops

The graph and grid live inside the threaded state; the loops never write
those components. -/

theorem relaxStep_adj (u : ℕ) (s : DState) (e : ℕ × ℕ) :
    (relaxStep u s e).adj = s.adj := by
  unfold relaxStep
  split
  · split <;> rfl
  · rfl

theorem foldl_relaxStep_adj (u : ℕ) :
    ∀ (edges : List (ℕ × ℕ)) (s : DState), (edges.foldl (relaxStep u) s).adj = s.adj
  | [], s => rfl
  | e :: es, s => by
    rw [List.foldl_cons, foldl_relaxStep_adj u es, relaxStep_adj]

theorem dijkstraLoop_adj :
    ∀ (fuel : ℕ) (s s' : DState), dijkstraLoop fuel s = .ok s' → s'.adj = s.adj := by
  intro fuel
  induction fuel with
  | zero =>
    intro s s' h
    rw [dijkstraLoop] at h
    split at h
    · cases h; rfl
    · cases h
  | succ fuel ih =>
    intro s s' h
    rw [dijkstraLoop] at h
    split at h
    · cases h; rfl
    · split at h
      · cases h; rfl
      · dsimp only at h
        split at h
        · exact (ih _ _ h).trans rfl
        · split at h
          · cases h
          · rw [ih _ _ h, foldl_relaxStep_adj]

theorem dijkstra_adj_eq (adj : List (List (ℕ × ℕ))) (src : ℕ) (s : DState)
    (h : dijkstra adj src = .ok s) : s.adj = adj := by
  unfold dijkstra at h
  exact dijkstraLoop_adj _ _ _ h

theorem expandStep_grid (goal : Cell) (R C : ℕ) (cur : Cell) (gCur : ℕ)
    (st : AState) (d : ℤ × ℤ) : (expandStep goal R C cur gCur st d).grid = st.grid := by
  simp only [expandStep]
  split
  · split
    · rfl
    · split <;> rfl
  · rfl

theorem foldl_expandStep_grid (goal : Cell) (R C : ℕ) (cur : Cell) (gCur : ℕ) :
    ∀ (ds : List (ℤ × ℤ)) (st : AState),
      (ds.foldl (expandStep goal R C cur gCur) st).grid = st.grid
  | [], st => rfl
  | d :: ds, st => by
    rw [List.foldl_cons, foldl_expandStep_grid goal R C cur gCur ds, expandStep_grid]

theorem astarLoop_grid :
    ∀ (goal : Cell) (R C fuel : ℕ) (s : AState) (p : Option (List Cell)) (s' : AState),
      astarLoop goal R C fuel s = .ok p s' → s'.grid = s.grid := by
  intro goal R C fuel
  induction fuel with
  | zero =>
    intro s p s' h
    rw [astarLoop] at h
    split at h
    · cases h; rfl
    · cases h
  | succ fuel ih =>
    intro s p s' h
    rw [astarLoop] at h
    split at h
    · cases h; rfl
    · split at h
      · cases h; rfl
      · dsimp only at h
        split at h
        · split at h
          · cases h
          · cases h; rfl
        · rw [ih _ _ _ h, foldl_expandStep_grid]

theorem astar_grid_eq (start goal : Cell) (grid : List (List ℕ))
    (p : Option (List Cell)) (s : AState)
    (h : astarGrid start goal grid = .ok p s) : s.grid = grid := by
  unfold astarGrid at h
  split at h
  · cases h
  · exact astarLoop_grid _ _ _ _ _ _ _ h

/-! ## Unfolding lemmas for the two main loops -/

theorem dijkstraLoop_empty (fuel : ℕ) (s : DState) (h : s.pq.size = 0) :
    dijkstraLoop fuel s = .ok s := by
  rw [dijkstraLoop.eq_def]
  dsimp only
  rw [if_pos h]

theorem dijkstraLoop_succ (fuel : ℕ) (s : DState) (h : ¬s.pq.size = 0) :
    dijkstraLoop (fuel + 1) s =
      (match s.pq.pop with
      | (none, pq1) => .ok { s with pq := pq1 }
      | (some (d, u), pq1) =>
        let s1 : DState := { s with pq := pq1 }
        let stale : Bool := match s1.dist[u]? with
          | some du => decide (d > du)
          | none => false
        if stale then dijkstraLoop fuel s1
        else
          match s1.adj[u]? with
          | none => .typeError
          | some edges => dijkstraLoop fuel (edges.foldl (relaxStep u) s1)) := by
  have e : dijkstraLoop (fuel + 1) s =
      if s.pq.size = 0 then .ok s else
      (match s.pq.pop with
      | (none, pq1) => .ok { s with pq := pq1 }
      | (some (d, u), pq1) =>
        let s1 : DState := { s with pq := pq1 }
        let stale : Bool := match s1.dist[u]? with
          | some du => decide (d > du)
          | none => false
        if stale then dijkstraLoop fuel s1
        else
          match s1.adj[u]? with
          | none => .typeError
          | some edges => dijkstraLoop fuel (edges.foldl (relaxStep u) s1)) := rfl
  rw [e, if_neg h]

theorem astarLoop_nil (goal : Cell) (R C fuel : ℕ) (s : AState) (h : s.frontier = []) :
    astarLoop goal R C fuel s = .ok none s := by
  rw [astarLoop.eq_def]
  dsimp only
  rw [if_pos h]

theorem astarLoop_succ (goal : Cell) (R C fuel : ℕ) (s : AState) (h : ¬s.frontier = []) :
    astarLoop goal R C (fuel + 1) s =
      (match selectMin s.frontier with
      | none => .ok none s
      | some (cur, _) =>
        let s1 : AState := { s with frontier := adel s.frontier cur }
        if cur = goal then
          match astarRecon (R * C + 1) s1.parent cur with
          | none => .outOfFuel
          | some l => .ok (some l.reverse) s1
        else
          astarLoop goal R C fuel
            (dirs.foldl (expandStep goal R C cur ((aget s1.gScore cur).getD 0)) s1)) := by
  have e : astarLoop goal R C (fuel + 1) s =
      if s.frontier = [] then .ok none s else
      (match selectMin s.frontier with
      | none => .ok none s
      | some (cur, _) =>
        let s1 : AState := { s with frontier := adel s.frontier cur }
        if cur = goal then
          match astarRecon (R * C + 1) s1.parent cur with
          | none => .outOfFuel
          | some l => .ok (some l.reverse) s1
        else
          astarLoop goal R C fuel
            (dirs.foldl (expandStep goal R C cur ((aget s1.gScore cur).getD 0)) s1)) := rfl
  rw [e, if_neg h]

/-! ## Claim C10: `astarGrid` with `start = goal` -/

/-- **C10.**  For every grid and every in-bounds coordinate `s`,
`astarGrid s s grid` returns the single-cell path `[s]` — even when the cell
`s` is marked blocked: the goal test runs on the extracted cell before any
neighbour expansion, and the start cell's blocked status is never examined.
(The resulting final state is pinned down exactly.) -/
theorem astar_start_eq_goal (grid : List (List ℕ)) (s : Cell)
    (h : inBounds grid.length (grid.headD []).length s) :
    astarGrid s s grid = .ok (some [s]) ⟨grid, [], [(s, 0)], [(s, none)]⟩ := by
  obtain ⟨h1, _h2, h3, _h4⟩ := h
  match grid with
  | [] => simp at h3; omega
  | g0 :: gr =>
    simp only [astarGrid]
    have hman : manhattan s s = 0 := by simp [manhattan]
    rw [hman]
    obtain ⟨m, hm⟩ : ∃ m, astarFuel (g0 :: gr).length g0.length = m + 1 :=
      ⟨_, rfl⟩
    rw [hm]
    rw [astarLoop_succ _ _ _ _ _ (by simp)]
    have hsel : selectMin [(s, 0)] = some (s, 0) := rfl
    rw [hsel]
    have hdel : adel [(s, 0)] s = [] := by simp [adel]
    dsimp only
    rw [if_pos rfl]
    have hget0 : aget ([(s, none)] : List (Cell × Option Cell)) s = some none := by
      simp [aget]
    have hrec : astarRecon ((g0 :: gr).length * g0.length + 1) [(s, none)] s = some [s] := by
      obtain ⟨m2, hm2⟩ : ∃ m2, (g0 :: gr).length * g0.length + 1 = m2 + 1 := ⟨_, rfl⟩
      rw [hm2, astarRecon, hget0]
    rw [hrec, hdel]
    rfl

/-- Witness for C10 at a concrete blocked single-cell grid. -/
theorem astar_start_eq_goal_witness :
    inBounds (1 : ℕ) (1 : ℕ) ((0, 0) : Cell) ∧
      astarGrid (0, 0) (0, 0) [[1]] = .ok (some [(0, 0)]) ⟨[[1]], [], [((0, 0), 0)], [((0, 0), none)]⟩ :=
  ⟨by decide, astar_start_eq_goal [[1]] (0, 0) (by decide)⟩

/-! ## Claim C6: out-of-range arguments -/

/-- **C6 (amended).**  Out-of-range handling is not uniform.  `dijkstra` with an
out-of-range source does signal an error: the run reaches `adj[src]` and throws
a `TypeError`.  (`astarGrid` and `LCA.query`, by contrast, perform no range
validation — see the counterexample, where an out-of-range goal produces the
normal "no path" result.) -/
theorem dijkstra_oob_src_typeError (adj : List (List (ℕ × ℕ))) (src : ℕ)
    (h : adj.length ≤ src) : dijkstra adj src = .typeError := by
  unfold dijkstra
  obtain ⟨m, hm⟩ : ∃ m, dijkstraFuel adj = m + 1 := ⟨_, rfl⟩
  rw [hm]
  have hpq : (MinHeap.push (⟨[]⟩ : MinHeap ℕ∞ ℕ) 0 src) = ⟨[((0 : ℕ∞), src)]⟩ := rfl
  rw [hpq]
  rw [dijkstraLoop_succ _ _ (by simp [MinHeap.size])]
  have hpop : (⟨[((0 : ℕ∞), src)]⟩ : MinHeap ℕ∞ ℕ).pop = (some ((0 : ℕ∞), src), ⟨[]⟩) := rfl
  rw [hpop]
  dsimp only
  have hdist : ((List.replicate adj.length (⊤ : ℕ∞)).set src 0)[src]? = none := by
    apply List.getElem?_eq_none
    simpa using h
  rw [hdist]
  have hadj : adj[src]? = none := List.getElem?_eq_none h
  rw [hadj]
  rfl

/-- Witness for the amended C6 at a concrete out-of-range source. -/
theorem dijkstra_oob_src_typeError_witness :
    ([[(1, 4)], []] : List (List (ℕ × ℕ))).length ≤ 5 ∧
      dijkstra [[(1, 4)], []] 5 = .typeError :=
  ⟨by decide, dijkstra_oob_src_typeError [[(1, 4)], []] 5 (by decide)⟩

/-- **C6 (counterexample).**  The claim asserts that every call with an
out-of-range coordinate signals an error.  But `astarGrid` with the
out-of-range goal `(5,5)` on the 1×1 grid `[[0]]` silently returns the normal
"no path" result (`null`), with no error of any kind. -/
theorem astar_oob_goal_no_error :
    astarGrid (0, 0) (5, 5) [[0]] =
      .ok none ⟨[[0]], [], [((0, 0), 0)], [((0, 0), none)]⟩ := by decide

/-! ## Claim C5: no validation in LCA construction -/

/-- **C5 (counterexample).**  The claim asserts that LCA construction detects
inputs that are not valid rooted trees and signals an error.  But on the
disconnected two-node input `[[], []]` (node 1 unreachable from the root),
construction completes silently and produces an ancestor table — with the
unvisited node keeping the sentinel `-1` and depth `0`. -/
theorem lca_disconnected_completes :
    mkLCA [[], []] 0 = some ⟨2, 1, [[0, -1]], [0, 0], [[], []]⟩ := by decide

/-! ## Claim C7: the actual contents of the `up` table -/

/-- **C7 (counterexample).**  The claim asserts `up[k][v]` is the sentinel
`-1` whenever `v` has fewer than `2^k` ancestors.  But on the two-node tree
`0 — 1` rooted at `0`, the root (which has zero proper ancestors) gets
`up[0][0] = 0`, not `-1`: `dfs(root, root)` records the root as its own
parent, and in a valid rooted tree no entry of `up` is ever `-1`. -/
theorem lca_up_root_not_sentinel :
    mkLCA [[1], [0]] 0 = some ⟨2, 1, [[0, 0]], [0, 1], [[1], [0]]⟩ := by decide

/-! ## Claim C8: inputs are not mutated -/

/-- **C8.**  The algorithms return with the caller's graph/grid exactly as on
entry, and `query` leaves the stored tables unchanged: `dijkstra` and
`astarGrid` thread the adjacency/grid component of their state through every
iteration without writing it, and the state-passing reading of `LCA.query`
returns the receiver's `up`, `depth` and `adj` unchanged. -/
theorem inputs_not_mutated :
    (∀ (adj : List (List (ℕ × ℕ))) (src : ℕ) (s : DState),
        dijkstra adj src = .ok s → s.adj = adj) ∧
    (∀ (start goal : Cell) (grid : List (List ℕ)) (p : Option (List Cell)) (s : AState),
        astarGrid start goal grid = .ok p s → s.grid = grid) ∧
    (∀ (s : LCAStruct) (u v : ℕ), (lcaQueryS s u v).2.up = s.up ∧
        (lcaQueryS s u v).2.depth = s.depth ∧ (lcaQueryS s u v).2.adj = s.adj) :=
  ⟨dijkstra_adj_eq, astar_grid_eq, fun _ _ _ => ⟨rfl, rfl, rfl⟩⟩

/-- Witness for C8 at concrete runs of both algorithms. -/
theorem inputs_not_mutated_witness :
    dijkstra [[]] 0 = .ok ⟨[[]], [0], ⟨[]⟩⟩ ∧
    (⟨[[]], [0], ⟨[]⟩⟩ : DState).adj = [[]] ∧
    astarGrid (0, 0) (9, 9) [[0]] = .ok none ⟨[[0]], [], [((0, 0), 0)], [((0, 0), none)]⟩ ∧
    (⟨[[0]], [], [((0, 0), 0)], [((0, 0), none)]⟩ : AState).grid = [[0]] :=
  ⟨by decide,
   inputs_not_mutated.1 [[]] 0 _ (by decide),
   by decide,
   inputs_not_mutated.2.1 (0, 0) (9, 9) [[0]] none _ (by decide)⟩

/-! ## Claim C9: determinism of `dijkstra` -/

/-- **C9.**  `dijkstra` is deterministic: it is a pure function of its
arguments, and a second run on the same inputs — the graph exactly as the
first run left it — produces the identical result, in particular an
entrywise-equal distance table. -/
theorem dijkstra_deterministic (adj : List (List (ℕ × ℕ))) (src : ℕ) (s : DState)
    (h : dijkstra adj src = .ok s) : dijkstra s.adj src = .ok s := by
  rw [dijkstra_adj_eq adj src s h]
  exact h

/-- Witness for C9 at a concrete graph (with a self-loop, for variety). -/
theorem dijkstra_deterministic_witness :
    dijkstra [[(0, 0)]] 0 = .ok ⟨[[(0, 0)]], [0], ⟨[]⟩⟩ ∧
      dijkstra ((⟨[[(0, 0)]], [0], ⟨[]⟩⟩ : DState).adj) 0 = .ok ⟨[[(0, 0)]], [0], ⟨[]⟩⟩ :=
  ⟨by decide, dijkstra_deterministic [[(0, 0)]] 0 _ (by decide)⟩

/-! ## Claim C1: arithmetic and list bookkeeping -/

theorem getD_eq_of_getElem? {α : Type} (l : List α) (i : ℕ) (d z : α)
    (h : l[i]? = some z) : l.getD i d = z := by
  rw [List.getD_eq_getElem?_getD, h]
  rfl

theorem getD_set_self {α : Type} (l : List α) (i : ℕ) (x d : α) (h : i < l.length) :
    (l.set i x).getD i d = x := by
  rw [List.getD_eq_getElem?_getD, List.getElem?_set, if_pos rfl, if_pos h]
  rfl

theorem getD_set_ne {α : Type} (l : List α) (i j : ℕ) (x d : α) (hne : i ≠ j) :
    (l.set i x).getD j d = l.getD j d := by
  rw [List.getD_eq_getElem?_getD, List.getElem?_set, if_neg hne,
    ← List.getD_eq_getElem?_getD]

theorem sum_map_set {α : Type} (f : α → ℕ) :
    ∀ (l : List α) (i : ℕ) (x z : α), l[i]? = some z →
      ((l.set i x).map f).sum + f z = (l.map f).sum + f x
  | [], i, x, z, h => by simp at h
  | y :: t, 0, x, z, h => by
      have hz : z = y := by simpa using h.symm
      subst hz
      simp [List.set_cons_zero]
      omega
  | y :: t, i + 1, x, z, h => by
      have ih := sum_map_set f t i x z (by simpa using h)
      simp only [List.set_cons_succ, List.map_cons, List.sum_cons]
      omega

theorem countP_set {α : Type} (p : α → Bool) :
    ∀ (l : List α) (i : ℕ) (x z : α), l[i]? = some z →
      (l.set i x).countP p + (if p z then 1 else 0) =
        l.countP p + (if p x then 1 else 0)
  | [], i, x, z, h => by simp at h
  | y :: t, 0, x, z, h => by
      have hz : z = y := by simpa using h.symm
      subst hz
      simp only [List.set_cons_zero, List.countP_cons]
      split_ifs <;> simp_all <;> omega
  | y :: t, i + 1, x, z, h => by
      have ih := countP_set p t i x z (by simpa using h)
      simp only [List.set_cons_succ, List.countP_cons]
      split_ifs at ih ⊢ <;> simp_all <;> omega

theorem finCount_le (dist : List ℕ∞) : finCount dist ≤ dist.length :=
  List.countP_le_length _

theorem le_foldr_max : ∀ (l : List ℕ) (x : ℕ), x ∈ l → x ≤ l.foldr max 0
  | [], x, h => by simp at h
  | y :: t, x, h => by
    rcases List.mem_cons.mp h with h | h
    · subst h; exact le_max_left _ _
    · exact le_trans (le_foldr_max t x h) (le_max_right _ _)

theorem weight_le_maxWeight (adj : List (List (ℕ × ℕ))) (u : ℕ) (e : ℕ × ℕ)
    (he : e ∈ adj.getD u []) : e.2 ≤ maxWeight adj := by
  by_cases hu : u < adj.length
  · have hrow : adj.getD u [] = adj.get ⟨u, hu⟩ :=
      getD_eq_of_getElem? _ _ _ _ (by simp [List.getElem?_eq_getElem hu])
    have h1 : e.2 ≤ ((adj.getD u []).map Prod.snd).foldr max 0 :=
      le_foldr_max _ _ (List.mem_map_of_mem Prod.snd he)
    refine h1.trans (le_foldr_max _ _ ?_)
    rw [hrow]
    have : ((adj.get ⟨u, hu⟩).map Prod.snd).foldr max 0 =
        (fun l => (l.map Prod.snd).foldr max 0) (adj.get ⟨u, hu⟩) := rfl
    rw [this]
    exact List.mem_map_of_mem _ (by simp [List.get_eq_getElem])
  · have : adj.getD u [] = [] := by
      rw [List.getD_eq_getElem?_getD, List.getElem?_eq_none (by omega)]
      rfl
    rw [this] at he
    simp at he

theorem distB_le (B : ℕ) (d : ℕ∞) : distB B d ≤ B := by
  unfold distB
  split_ifs <;> omega

theorem distB_strict (B : ℕ) (d d' : ℕ∞) (hlt : d' < d)
    (hfin : d' ≠ ⊤) (hle : d' ≤ ((B - 1 : ℕ) : ℕ∞)) (hB : 1 ≤ B) :
    distB B d' < distB B d := by
  cases d' with
  | top => exact absurd rfl hfin
  | coe m' =>
    have hm' : m' ≤ B - 1 := by exact_mod_cast hle
    have h1 : distB B (m' : ℕ∞) = m' := by
      unfold distB
      rw [if_neg (by simp)]
      simp [ENat.toNat_coe]
      omega
    cases d with
    | top =>
      have h2 : distB B ⊤ = B := by unfold distB; rw [if_pos rfl]
      rw [h1, h2]; omega
    | coe m =>
      have hmm : m' < m := by exact_mod_cast hlt
      have h2 : distB B (m : ℕ∞) = min m B := by
        unfold distB
        rw [if_neg (by simp)]
        simp [ENat.toNat_coe]
      rw [h1, h2]
      omega

theorem MinHeap.mem_push {K V : Type} [LinearOrder K] (h : MinHeap K V) (k : K) (v : V)
    (x : K × V) : x ∈ (h.push k v).data ↔ x = (k, v) ∨ x ∈ h.data := by
  rw [(MinHeap.push_perm h k v).mem_iff]
  simp

theorem getD_set_le (l : List ℕ∞) (i : ℕ) (nd : ℕ∞) (hle : nd ≤ l.getD i ⊤) :
    ∀ j, (l.set i nd).getD j ⊤ ≤ l.getD j ⊤ := by
  intro j
  by_cases hij : i = j
  · subst hij
    by_cases hi : i < l.length
    · rw [getD_set_self _ _ _ _ hi]; exact hle
    · rw [List.set_eq_of_length_le (by omega)]
  · rw [getD_set_ne _ _ _ _ _ hij]

/-- Either a relaxation does nothing (and, when both indices are in range, the
guard tells us the edge is already relaxed), or it strictly improves the
target's distance and pushes the fresh entry. -/
theorem relaxStep_char (u : ℕ) (s : DState) (e : ℕ × ℕ)
    (hu : u < s.dist.length) (hv : e.1 < s.dist.length) :
    (¬(s.dist.getD u ⊤ + (e.2 : ℕ∞) < s.dist.getD e.1 ⊤) ∧ relaxStep u s e = s) ∨
    ((s.dist.getD u ⊤ + (e.2 : ℕ∞) < s.dist.getD e.1 ⊤) ∧
      relaxStep u s e =
        { s with dist := s.dist.set e.1 (s.dist.getD u ⊤ + (e.2 : ℕ∞)),
                 pq := s.pq.push (s.dist.getD u ⊤ + (e.2 : ℕ∞)) e.1 }) := by
  have hu' : s.dist[u]? = some (s.dist.getD u ⊤) := by
    rw [List.getD_eq_getElem?_getD, List.getElem?_eq_getElem hu]
    rfl
  have hv' : s.dist[e.1]? = some (s.dist.getD e.1 ⊤) := by
    rw [List.getD_eq_getElem?_getD, List.getElem?_eq_getElem hv]
    rfl
  unfold relaxStep
  rw [hu', hv']
  dsimp only
  by_cases hc : s.dist.getD u ⊤ + (e.2 : ℕ∞) < s.dist.getD e.1 ⊤
  · right
    exact ⟨hc, by rw [if_pos hc]⟩
  · left
    exact ⟨hc, by rw [if_neg hc]⟩

/-- Folding one relaxation pass over (a suffix of) `u`'s edge list preserves
the core invariant, leaves `dist[u]` unchanged, ends with every edge of `u`
relaxed, keeps the witness-or-relaxed property of every other node, and does
not increase the measure. -/
theorem relaxFold (adj : List (List (ℕ × ℕ))) (src u : ℕ) (B : ℕ)
    (hB : B = (adj.length - 1) * maxWeight adj + 1)
    (hedges : ∀ w, ∀ e ∈ adj.getD w [], e.1 < adj.length)
    (hu : u < adj.length) :
    ∀ (es done : List (ℕ × ℕ)) (s : DState),
      DCore adj src s →
      adj.getD u [] = done ++ es →
      (∀ e ∈ done, s.dist.getD e.1 ⊤ ≤ s.dist.getD u ⊤ + (e.2 : ℕ∞)) →
      (∀ w, w < adj.length → w ≠ u →
        (∃ en ∈ s.pq.data, en.2 = w ∧ en.1 = s.dist.getD w ⊤) ∨
        (∀ e ∈ adj.getD w [], s.dist.getD e.1 ⊤ ≤ s.dist.getD w ⊤ + (e.2 : ℕ∞))) →
      DCore adj src (es.foldl (relaxStep u) s) ∧
      (es.foldl (relaxStep u) s).dist.getD u ⊤ = s.dist.getD u ⊤ ∧
      (∀ e ∈ adj.getD u [],
        (es.foldl (relaxStep u) s).dist.getD e.1 ⊤ ≤
          (es.foldl (relaxStep u) s).dist.getD u ⊤ + (e.2 : ℕ∞)) ∧
      (∀ w, w < adj.length → w ≠ u →
        (∃ en ∈ (es.foldl (relaxStep u) s).pq.data, en.2 = w ∧
          en.1 = (es.foldl (relaxStep u) s).dist.getD w ⊤) ∨
        (∀ e ∈ adj.getD w [],
          (es.foldl (relaxStep u) s).dist.getD e.1 ⊤ ≤
            (es.foldl (relaxStep u) s).dist.getD w ⊤ + (e.2 : ℕ∞))) ∧
      dMeasure B (es.foldl (relaxStep u) s) ≤ dMeasure B s
  | [], done, s => by
    intro hc hsplit hdone hothers
    rw [List.foldl_nil]
    refine ⟨hc, rfl, ?_, hothers, le_refl _⟩
    rw [List.append_nil] at hsplit
    rw [hsplit]
    exact hdone
  | e :: es', done, s => by
    intro hc hsplit hdone hothers
    have he_mem : e ∈ adj.getD u [] := by
      rw [hsplit]; exact List.mem_append_right _ (List.mem_cons_self e es')
    have hul : u < s.dist.length := by rw [hc.len]; exact hu
    have hvn : e.1 < adj.length := hedges u e he_mem
    have hvl : e.1 < s.dist.length := by rw [hc.len]; exact hvn
    have hsplit' : adj.getD u [] = (done ++ [e]) ++ es' := by
      rw [hsplit, List.append_assoc]; rfl
    rw [List.foldl_cons]
    rcases relaxStep_char u s e hul hvl with ⟨hng, heq⟩ | ⟨hlt, heq⟩
    · -- no improvement: the edge is already relaxed
      rw [heq]
      have hdone' : ∀ ed ∈ done ++ [e],
          s.dist.getD ed.1 ⊤ ≤ s.dist.getD u ⊤ + (ed.2 : ℕ∞) := by
        intro ed hed
        rcases List.mem_append.mp hed with hed | hed
        · exact hdone ed hed
        · rcases List.mem_singleton.mp hed with rfl
          exact not_lt.mp hng
      exact relaxFold adj src u B hB hedges hu es' (done ++ [e]) s hc hsplit' hdone' hothers
    · -- strict improvement: update dist[e.1] and push the fresh entry
      set du := s.dist.getD u ⊤ with hdu_def
      set dv := s.dist.getD e.1 ⊤ with hdv_def
      set nd := du + (e.2 : ℕ∞) with hnd_def
      have hnd_fin : nd ≠ ⊤ := by
        intro htop
        rw [htop] at hlt
        exact absurd hlt (by simp)
      have hdu_fin : du ≠ ⊤ := fun htop => hnd_fin (by rw [hnd_def, htop]; simp)
      have hne_u : e.1 ≠ u := by
        intro hequ
        rw [hdv_def, hequ] at hlt
        exact absurd hlt (not_lt.mpr le_self_add)
      have hne_src : e.1 ≠ src := by
        intro heqs
        rw [hdv_def, heqs, hc.src0] at hlt
        exact absurd (lt_of_lt_of_le hlt (zero_le nd)) (lt_irrefl nd)
      have hv1 : s.dist[e.1]? = some dv := by
        rw [hdv_def, List.getD_eq_getElem?_getD, List.getElem?_eq_getElem hvl]
        rfl
      set s1 : DState := { s with dist := s.dist.set e.1 nd, pq := s.pq.push nd e.1 }
        with hs1_def
      have h1dist : s1.dist = s.dist.set e.1 nd := rfl
      have h1len : s1.dist.length = adj.length := by
        rw [h1dist, List.length_set, hc.len]
      have h1u : s1.dist.getD u ⊤ = du := by
        rw [h1dist, getD_set_ne _ _ _ _ _ hne_u, hdu_def]
      have h1v : s1.dist.getD e.1 ⊤ = nd := by
        rw [h1dist, getD_set_self _ _ _ _ hvl]
      have h1le : ∀ j, s1.dist.getD j ⊤ ≤ s.dist.getD j ⊤ := by
        rw [h1dist]
        exact getD_set_le _ _ _ (by rw [← hdv_def]; exact le_of_lt hlt)
      have h1other : ∀ j, j ≠ e.1 → s1.dist.getD j ⊤ = s.dist.getD j ⊤ := by
        intro j hj
        rw [h1dist, getD_set_ne _ _ _ _ _ (fun hh => hj hh.symm)]
      have h1mem : ∀ x, x ∈ s1.pq.data ↔ x = (nd, e.1) ∨ x ∈ s.pq.data :=
        MinHeap.mem_push s.pq nd e.1
      -- counting
      have hcnt : finCount s1.dist + (if dv ≠ ⊤ then 1 else 0) =
          finCount s.dist + 1 := by
        have := countP_set (fun d => decide (d ≠ ⊤)) s.dist e.1 nd dv hv1
        unfold finCount
        rw [h1dist]
        simpa [hnd_fin] using this
      have hcnt_pos : 1 ≤ finCount s.dist := by
        have : 0 < s.dist.countP (fun d => decide (d ≠ ⊤)) := by
          rw [List.countP_pos]
          refine ⟨du, ?_, by simpa using hdu_fin⟩
          rw [hdu_def, List.getD_eq_getElem?_getD, List.getElem?_eq_getElem hul]
          exact List.getElem_mem hul
        exact this
      have hcnt_le : finCount s1.dist ≤ s1.dist.length := finCount_le _
      -- the new value is within the global cap
      have hnd_le : nd ≤ (((finCount s1.dist - 1) * maxWeight adj : ℕ) : ℕ∞) := by
        have hdu_b := hc.bound u hu hdu_fin
        have hw : e.2 ≤ maxWeight adj := weight_le_maxWeight adj u e he_mem
        by_cases hdvt : dv = ⊤
        · have hc1 : finCount s1.dist = finCount s.dist + 1 := by
            rw [if_neg (by simp [hdvt])] at hcnt
            omega
          rw [hc1]
          calc nd = du + (e.2 : ℕ∞) := hnd_def
            _ ≤ (((finCount s.dist - 1) * maxWeight adj : ℕ) : ℕ∞) + (maxWeight adj : ℕ∞) := by
                exact add_le_add hdu_b (by exact_mod_cast hw)
            _ = (((finCount s.dist - 1) * maxWeight adj + maxWeight adj : ℕ) : ℕ∞) := by
                push_cast; ring
            _ ≤ (((finCount s.dist + 1 - 1) * maxWeight adj : ℕ) : ℕ∞) := by
                rw [Nat.cast_le]
                have : (finCount s.dist - 1) * maxWeight adj + maxWeight adj
                    = (finCount s.dist - 1 + 1) * maxWeight adj := by ring
                rw [this]
                apply Nat.mul_le_mul_right
                omega
        · have hc1 : finCount s.dist ≤ finCount s1.dist := by
            rw [if_pos hdvt] at hcnt
            omega
          have hdv_b := hc.bound e.1 hvn hdvt
          refine le_trans (le_of_lt hlt) (le_trans hdv_b ?_)
          rw [Nat.cast_le]
          apply Nat.mul_le_mul_right
          omega
      have hnd_le_n : nd ≤ (((adj.length - 1) * maxWeight adj : ℕ) : ℕ∞) := by
        refine le_trans hnd_le ?_
        rw [Nat.cast_le]
        apply Nat.mul_le_mul_right
        rw [h1len] at hcnt_le
        omega
      -- core invariant for s1
      have hc1 : DCore adj src s1 := by
        refine ⟨hc.adj_eq, h1len, ?_, ?_, ?_, ?_⟩
        · rw [h1dist, getD_set_ne _ _ _ _ _ hne_src, hc.src0]
        · intro v hvlt hvfin
          by_cases hvv : v = e.1
          · subst hvv
            rw [h1v]
            obtain ⟨cu, hwalk, hcu⟩ := hc.sound u hu hdu_fin
            refine ⟨cu + e.2, DWalk.cons hwalk he_mem, ?_⟩
            rw [hnd_def, hdu_def, hcu, Nat.cast_add]
          · rw [h1other v (fun hh => hvv hh)]
            rw [h1other v (fun hh => hvv hh)] at hvfin
            exact hc.sound v hvlt hvfin
        · intro en hen
          rcases (h1mem en).mp hen with rfl | hen
          · constructor
            · dsimp only
              rw [h1v]
            · exact hvn
          · obtain ⟨hk, hlt2⟩ := hc.keys en hen
            exact ⟨le_trans (h1le en.2) hk, hlt2⟩
        · intro v hvlt hvfin
          by_cases hvv : v = e.1
          · subst hvv
            rw [h1v]
            exact hnd_le
          · rw [h1other v (fun hh => hvv hh)]
            rw [h1other v (fun hh => hvv hh)] at hvfin
            refine le_trans (hc.bound v hvlt hvfin) ?_
            rw [Nat.cast_le]
            apply Nat.mul_le_mul_right
            have : finCount s.dist ≤ finCount s1.dist := by
              by_cases hdvt : dv = ⊤
              · rw [if_neg (by simp [hdvt])] at hcnt; omega
              · rw [if_pos hdvt] at hcnt; omega
            omega
      -- processed edges stay relaxed
      have hdone1 : ∀ ed ∈ done ++ [e],
          s1.dist.getD ed.1 ⊤ ≤ s1.dist.getD u ⊤ + (ed.2 : ℕ∞) := by
        intro ed hed
        rw [h1u]
        rcases List.mem_append.mp hed with hed | hed
        · exact le_trans (h1le ed.1) (hdone ed hed)
        · rcases List.mem_singleton.mp hed with rfl
          rw [h1v]
      -- other nodes keep witness-or-relaxed
      have hothers1 : ∀ w, w < adj.length → w ≠ u →
          (∃ en ∈ s1.pq.data, en.2 = w ∧ en.1 = s1.dist.getD w ⊤) ∨
          (∀ ed ∈ adj.getD w [], s1.dist.getD ed.1 ⊤ ≤ s1.dist.getD w ⊤ + (ed.2 : ℕ∞)) := by
        intro w hwlt hwne
        by_cases hwe : w = e.1
        · subst hwe
          left
          exact ⟨(nd, e.1), (h1mem _).mpr (Or.inl rfl), rfl, h1v.symm⟩
        · rcases hothers w hwlt hwne with ⟨en, hen, hen2, hen1⟩ | hrel
          · left
            refine ⟨en, (h1mem en).mpr (Or.inr hen), hen2, ?_⟩
            rw [h1other w hwe]
            exact hen1
          · right
            intro ed hed
            rw [h1other w hwe]
            exact le_trans (h1le ed.1) (hrel ed hed)
      -- the measure does not increase
      have hmeas1 : dMeasure B s1 ≤ dMeasure B s := by
        have hsum := sum_map_set (distB B) s.dist e.1 nd dv hv1
        have hstr : distB B nd < distB B dv := by
          apply distB_strict B dv nd hlt hnd_fin
          · rw [hB]
            simpa using hnd_le_n
          · omega
        have hlen : s1.pq.data.length = s.pq.data.length + 1 := by
          have := MinHeap.push_size s.pq nd e.1
          unfold MinHeap.size at this
          exact this
        unfold dMeasure
        rw [h1dist, hlen]
        omega
      obtain ⟨rc, ru, redge, roth, rmeas⟩ :=
        relaxFold adj src u B hB hedges hu es' (done ++ [e]) s1 hc1 hsplit' hdone1 hothers1
      rw [heq] at *
      exact ⟨rc, by rw [ru, h1u], redge, roth, le_trans rmeas hmeas1⟩

/-- The Dijkstra loop, run with more fuel than the measure, terminates with an
empty queue and the invariant intact. -/
theorem dijkstraLoop_spec (adj : List (List (ℕ × ℕ))) (src : ℕ) (B : ℕ)
    (hB : B = (adj.length - 1) * maxWeight adj + 1)
    (hedges : ∀ w, ∀ e ∈ adj.getD w [], e.1 < adj.length) :
    ∀ (fuel : ℕ) (s : DState), DInv adj src s → dMeasure B s < fuel →
      ∃ s', dijkstraLoop fuel s = .ok s' ∧ DInv adj src s' ∧ s'.pq.data = [] := by
  intro fuel
  induction fuel with
  | zero => intro s _ hm; exact absurd hm (Nat.not_lt_zero _)
  | succ fuel ih =>
    intro s hinv hm
    by_cases hsz : s.pq.size = 0
    · refine ⟨s, dijkstraLoop_empty _ _ hsz, hinv, ?_⟩
      unfold MinHeap.size at hsz
      exact List.length_eq_zero.mp hsz
    · rcases hd : s.pq.data with _ | ⟨en, rest⟩
      · exact absurd (by unfold MinHeap.size; rw [hd]; rfl) hsz
      obtain ⟨d, u⟩ := en
      obtain ⟨hpop1, hperm⟩ := MinHeap.pop_of_cons s.pq (d, u) rest hd
      have hpop : s.pq.pop = (some (d, u), (s.pq.pop).2) := by
        rw [← hpop1]
      obtain ⟨hkey, hun⟩ := hinv.keys (d, u) (by rw [hd]; exact List.mem_cons_self _ _)
      have hul : u < s.dist.length := by rw [hinv.len]; exact hun
      have hu' : s.dist[u]? = some (s.dist.getD u ⊤) := by
        rw [List.getD_eq_getElem?_getD, List.getElem?_eq_getElem hul]
        rfl
      set pq1 := (s.pq.pop).2 with hpq1_def
      set s1 : DState := { s with pq := pq1 } with hs1_def
      have h1lenq : s1.pq.data.length = rest.length := hperm.length_eq
      have h1datalen : s.pq.data.length = rest.length + 1 := by rw [hd]; rfl
      have hmeas_ge : 1 ≤ dMeasure B s := by
        unfold dMeasure
        rw [h1datalen]
        omega
      have hmeas1 : dMeasure B s1 + 1 = dMeasure B s := by
        unfold dMeasure
        have h1d : s1.dist = s.dist := rfl
        have h1q : s1.pq.data = pq1.data := rfl
        rw [h1d, h1q, h1lenq, h1datalen]
        omega
      have hmeas1' : dMeasure B s1 < fuel := by omega
      have hcore1 : DCore adj src s1 :=
        ⟨hinv.adj_eq, hinv.len, hinv.src0, hinv.sound,
         fun e he => hinv.keys e (by rw [hd]; exact List.mem_cons_of_mem _ ((hperm.mem_iff).mp he)),
         hinv.bound⟩
      rw [dijkstraLoop_succ _ _ hsz, hpop]
      dsimp only
      rw [hu']
      dsimp only
      by_cases hstale : s.dist.getD u ⊤ < d
      · -- stale entry: drop it and continue
        have hdec : decide (d > s.dist.getD u ⊤) = true := by simpa using hstale
        rw [hdec, if_pos rfl]
        have hrel1 : ∀ w, w < adj.length →
            (∃ e ∈ s1.pq.data, e.2 = w ∧ e.1 = s1.dist.getD w ⊤) ∨
            (∀ e ∈ adj.getD w [], s1.dist.getD e.1 ⊤ ≤ s1.dist.getD w ⊤ + (e.2 : ℕ∞)) := by
          intro w hw
          rcases hinv.relaxed w hw with ⟨e', he', he2, he1⟩ | hr
          · left
            refine ⟨e', ?_, he2, he1⟩
            rw [hperm.mem_iff]
            have : e' ∈ s.pq.data := he'
            rw [hd] at this
            rcases List.mem_cons.mp this with rfl | hmem
            · exfalso
              have h2 : u = w := he2
              subst h2
              have h1 : d = s.dist.getD u ⊤ := he1
              rw [h1] at hstale
              exact lt_irrefl _ hstale
            · exact hmem
          · right; exact hr
        exact ih s1 ⟨hcore1, hrel1⟩ hmeas1'
      · -- fresh entry: relax all edges of u
        have hdec : decide (d > s.dist.getD u ⊤) = false := by simpa using hstale
        rw [hdec, if_neg (by simp)]
        have hadj : s1.adj[u]? = some (adj.getD u []) := by
          have : s1.adj = adj := hinv.adj_eq
          rw [this, List.getD_eq_getElem?_getD, List.getElem?_eq_getElem hun]
          rfl
        rw [hadj]
        dsimp only
        have hothers1 : ∀ w, w < adj.length → w ≠ u →
            (∃ e ∈ s1.pq.data, e.2 = w ∧ e.1 = s1.dist.getD w ⊤) ∨
            (∀ e ∈ adj.getD w [], s1.dist.getD e.1 ⊤ ≤ s1.dist.getD w ⊤ + (e.2 : ℕ∞)) := by
          intro w hw hwne
          rcases hinv.relaxed w hw with ⟨e', he', he2, he1⟩ | hr
          · left
            refine ⟨e', ?_, he2, he1⟩
            rw [hperm.mem_iff]
            have : e' ∈ s.pq.data := he'
            rw [hd] at this
            rcases List.mem_cons.mp this with rfl | hmem
            · exact absurd ((show u = w from he2).symm) hwne
            · exact hmem
          · right; exact hr
        obtain ⟨rc, _ru, redge, roth, rmeas⟩ :=
          relaxFold adj src u B hB hedges hun (adj.getD u []) [] s1 hcore1 rfl
            (by intro e he; simp at he) hothers1
        have hrel2 : ∀ w, w < adj.length →
            (∃ e ∈ ((adj.getD u []).foldl (relaxStep u) s1).pq.data, e.2 = w ∧
              e.1 = ((adj.getD u []).foldl (relaxStep u) s1).dist.getD w ⊤) ∨
            (∀ e ∈ adj.getD w [],
              ((adj.getD u []).foldl (relaxStep u) s1).dist.getD e.1 ⊤ ≤
                ((adj.getD u []).foldl (relaxStep u) s1).dist.getD w ⊤ + (e.2 : ℕ∞)) := by
          intro w hw
          by_cases hwu : w = u
          · subst hwu
            right
            exact redge
          · exact roth w hw hwu
        have rmeas2 : dMeasure B (List.foldl (relaxStep u)
            { adj := s.adj, dist := s.dist, pq := pq1 } (adj.getD u [])) ≤ dMeasure B s1 :=
          rmeas
        exact ih _ ⟨rc, hrel2⟩ (by omega)

theorem getD_replicate_top (n v : ℕ) : (List.replicate n (⊤ : ℕ∞)).getD v ⊤ = ⊤ := by
  rw [List.getD_eq_getElem?_getD, List.getElem?_replicate]
  split_ifs <;> rfl

theorem DWalk_lt (adj : List (List (ℕ × ℕ))) (src : ℕ) (hsrc : src < adj.length)
    (hedges : ∀ u, ∀ e ∈ adj.getD u [], e.1 < adj.length) :
    ∀ v c, DWalk adj src v c → v < adj.length := by
  intro v c h
  induction h with
  | nil => exact hsrc
  | cons _ he _ => exact hedges _ _ he

/-- **C1.**  For every weighted directed graph with (non-negative, natural)
edge weights and in-range edge targets, and every in-range source, `dijkstra`
terminates with a table in which the entry of the source is `0` and the entry
of every node is the true shortest-path distance from the source (the greatest
lower bound of walk costs, attained whenever finite), with `⊤` (Infinity)
exactly for the unreachable nodes. -/
theorem dijkstra_shortest_paths (adj : List (List (ℕ × ℕ))) (src : ℕ)
    (hsrc : src < adj.length)
    (hedges : ∀ u, ∀ e ∈ adj.getD u [], e.1 < adj.length) :
    ∃ s : DState, dijkstra adj src = .ok s ∧
      s.dist.length = adj.length ∧
      s.dist.getD src ⊤ = 0 ∧
      (∀ v, v < adj.length → IsShortestDist adj src v (s.dist.getD v ⊤)) ∧
      (∀ v, v < adj.length → (¬∃ c : ℕ, DWalk adj src v c) → s.dist.getD v ⊤ = ⊤) := by
  unfold dijkstra
  dsimp only
  set B := (adj.length - 1) * maxWeight adj + 1 with hB
  set dist0 := (List.replicate adj.length (⊤ : ℕ∞)).set src 0 with hdist0
  set pq0 := MinHeap.push (⟨[]⟩ : MinHeap ℕ∞ ℕ) 0 src with hpq0
  have hpq0d : pq0.data = [((0 : ℕ∞), src)] := rfl
  have hlen0 : dist0.length = adj.length := by rw [hdist0]; simp
  have hrepl : src < (List.replicate adj.length (⊤ : ℕ∞)).length := by simpa using hsrc
  have hgetD0 : ∀ v, v ≠ src → dist0.getD v ⊤ = ⊤ := by
    intro v hv
    rw [hdist0, getD_set_ne _ _ _ _ _ (fun h => hv h.symm), getD_replicate_top]
  have hsrc0 : dist0.getD src ⊤ = 0 := by
    rw [hdist0, getD_set_self _ _ _ _ hrepl]
  have hinv0 : DInv adj src ⟨adj, dist0, pq0⟩ := by
    refine ⟨⟨rfl, hlen0, hsrc0, ?_, ?_, ?_⟩, ?_⟩
    · intro v hv hfin
      by_cases hvs : v = src
      · subst hvs
        exact ⟨0, DWalk.nil, by rw [hsrc0]; simp⟩
      · exact absurd (hgetD0 v hvs) hfin
    · intro e he
      rw [hpq0d] at he
      rcases List.mem_singleton.mp he with rfl
      exact ⟨by rw [hsrc0], hsrc⟩
    · intro v hv hfin
      by_cases hvs : v = src
      · subst hvs
        rw [hsrc0]
        exact zero_le _
      · exact absurd (hgetD0 v hvs) hfin
    · intro w hw
      by_cases hws : w = src
      · subst hws
        left
        exact ⟨(0, w), by rw [hpq0d]; exact List.mem_singleton_self _, rfl, by rw [hsrc0]⟩
      · right
        intro e _
        rw [hgetD0 w hws, top_add]
        exact le_top
  have hmeas0 : dMeasure B ⟨adj, dist0, pq0⟩ < dijkstraFuel adj := by
    unfold dMeasure
    have h1 : (dist0.map (distB B)).sum ≤ dist0.length * B := by
      have h2 := List.sum_le_card_nsmul (dist0.map (distB B)) B (by
        intro x hx
        obtain ⟨dd, _, rfl⟩ := List.mem_map.mp hx
        exact distB_le B dd)
      simpa [smul_eq_mul] using h2
    have h3 : (⟨adj, dist0, pq0⟩ : DState).pq.data.length = 1 := by
      show pq0.data.length = 1
      rw [hpq0d]
      rfl
    rw [h3, hlen0] at *
    unfold dijkstraFuel
    rw [← hB]
    have h4 : (⟨adj, dist0, pq0⟩ : DState).dist = dist0 := rfl
    rw [h4]
    omega
  obtain ⟨s', hrun, hinv', hempty⟩ :=
    dijkstraLoop_spec adj src B hB hedges (dijkstraFuel adj) _ hinv0 hmeas0
  have hrelaxAll : ∀ u, u < adj.length → ∀ e ∈ adj.getD u [],
      s'.dist.getD e.1 ⊤ ≤ s'.dist.getD u ⊤ + (e.2 : ℕ∞) := by
    intro u hu e he
    rcases hinv'.relaxed u hu with ⟨en, hen, _⟩ | hr
    · rw [hempty] at hen
      simp at hen
    · exact hr e he
  have hlb : ∀ v (c : ℕ), DWalk adj src v c → s'.dist.getD v ⊤ ≤ (c : ℕ∞) := by
    intro v c hw
    induction hw with
    | nil =>
      rw [hinv'.src0]
      simp
    | cons hw' he ih =>
      refine le_trans (hrelaxAll _ (DWalk_lt adj src hsrc hedges _ _ hw') _ he) ?_
      rw [Nat.cast_add]
      exact add_le_add_right ih _
  refine ⟨s', hrun, hinv'.len, hinv'.src0, ?_, ?_⟩
  · intro v hv
    exact ⟨hlb v, hinv'.sound v hv⟩
  · intro v hv hnw
    by_contra hfin
    obtain ⟨c, hw, _⟩ := hinv'.sound v hv hfin
    exact hnw ⟨c, hw⟩

/-- Witness for C1 at a concrete two-node graph. -/
theorem dijkstra_shortest_paths_witness :
    0 < ([[(1, 3)], []] : List (List (ℕ × ℕ))).length ∧
    (∀ u, ∀ e ∈ ([[(1, 3)], []] : List (List (ℕ × ℕ))).getD u [], e.1 < 2) ∧
    ∃ s : DState, dijkstra [[(1, 3)], []] 0 = .ok s ∧
      s.dist.length = 2 ∧
      s.dist.getD 0 ⊤ = 0 ∧
      (∀ v, v < 2 → IsShortestDist [[(1, 3)], []] 0 v (s.dist.getD v ⊤)) ∧
      (∀ v, v < 2 → (¬∃ c : ℕ, DWalk [[(1, 3)], []] 0 v c) → s.dist.getD v ⊤ = ⊤) :=
  ⟨by decide,
   by
     intro u e he
     match u with
     | 0 => simp at he; rw [he]; decide
     | 1 => simp at he
     | (n + 2) => simp at he,
   dijkstra_shortest_paths [[(1, 3)], []] 0 (by decide)
     (by
       intro u e he
       match u with
       | 0 => simp at he; rw [he]; decide
       | 1 => simp at he
       | (n + 2) => simp at he)⟩

/-! ## Ordering behaviour of the heap operations (claim C4) -/

namespace MinHeap

variable {K V : Type} [LinearOrder K]

theorem lswap_getElem? (l : List (K × V)) (i j : ℕ) (a b : K × V)
    (hi : l[i]? = some a) (hj : l[j]? = some b) :
    ∀ t, (lswap l i j)[t]? = if t = j then some a else if t = i then some b else l[t]? := by
  intro t
  have hil : i < l.length := (List.getElem?_eq_some.mp hi).1
  have hjl : j < l.length := (List.getElem?_eq_some.mp hj).1
  unfold lswap
  rw [hi, hj]
  dsimp only
  rw [List.getElem?_set, List.getElem?_set]
  simp only [List.length_set]
  by_cases htj : t = j
  · subst htj
    simp [hjl]
  · rw [if_neg (fun hh => htj hh.symm), if_neg htj]
    by_cases hti : t = i
    · subst hti
      simp [hil]
    · rw [if_neg (fun hh => hti hh.symm), if_neg hti]

theorem root_min (l : List (K × V)) (hh : IsHeap l) (r : K × V)
    (hr : l[0]? = some r) : ∀ (j : ℕ) (a : K × V), l[j]? = some a → r.1 ≤ a.1 := by
  intro j
  induction j using Nat.strong_induction_on with
  | _ j ih =>
    intro a ha
    match j with
    | 0 =>
      rw [hr] at ha
      cases ha
      exact le_refl _
    | j + 1 =>
      have hpl : (j + 1 - 1) / 2 < l.length := by
        have h1 := (List.getElem?_eq_some.mp ha).1
        omega
      have hb : l[(j + 1 - 1) / 2]? = some (l.get ⟨(j + 1 - 1) / 2, hpl⟩) := by
        rw [List.getElem?_eq_getElem hpl]
        rfl
      refine le_trans (ih ((j + 1 - 1) / 2) (by omega) _ hb) ?_
      exact hh (j + 1) a _ (by omega) ha hb

theorem siftUp_isHeap : ∀ (fuel : ℕ) (l : List (K × V)) (i : ℕ),
    i < fuel → heapExceptAt l i → (0 < i → grandBound l i) →
    IsHeap (siftUp fuel l i)
  | 0, _, i => by omega
  | fuel + 1, l, i => by
    intro hif hE hG
    rw [siftUp]
    by_cases hi0 : i = 0
    · rw [if_pos hi0]
      subst hi0
      intro j x y hj0 hx hy
      exact hE j x y hj0 (by omega) hx hy
    · rw [if_neg hi0]
      rcases hp : l[(i - 1) / 2]? with _ | a <;> rcases hiv : l[i]? with _ | b <;>
        dsimp only
      · -- both out of range
        intro j x y hj0 hx hy
        by_cases hji : j = i
        · subst hji; rw [hiv] at hx; cases hx
        · exact hE j x y hj0 hji hx hy
      · -- parent out of range yet child in range: impossible
        exfalso
        have h1 : i < l.length := (List.getElem?_eq_some.mp hiv).1
        have h2 : ¬((i - 1) / 2 < l.length) := by
          intro hcon
          rw [List.getElem?_eq_getElem hcon] at hp
          cases hp
        omega
      · -- child out of range
        intro j x y hj0 hx hy
        by_cases hji : j = i
        · subst hji; rw [hiv] at hx; cases hx
        · exact hE j x y hj0 hji hx hy
      · by_cases hab : a.1 ≤ b.1
        · rw [if_pos hab]
          intro j x y hj0 hx hy
          by_cases hji : j = i
          · subst hji
            rw [hiv] at hx
            rw [hp] at hy
            cases hx; cases hy
            exact hab
          · exact hE j x y hj0 hji hx hy
        · rw [if_neg hab]
          have hba : b.1 < a.1 := lt_of_not_le hab
          have hpi : (i - 1) / 2 ≠ i := by omega
          have hchar := lswap_getElem? l ((i - 1) / 2) i a b hp hiv
          have hGi := hG (by omega)
          apply siftUp_isHeap fuel _ ((i - 1) / 2) (by omega)
          · -- heapExceptAt (lswap l p i) p
            intro j x y hj0 hjp hjx hjy
            rw [hchar] at hjx hjy
            by_cases hji : j = i
            · subst hji
              rw [if_pos rfl] at hjx
              cases hjx
              rw [if_neg hpi, if_pos rfl] at hjy
              cases hjy
              exact le_of_lt hba
            · rw [if_neg hji, if_neg hjp] at hjx
              by_cases hqi : (j - 1) / 2 = i
              · rw [if_pos hqi] at hjy
                cases hjy
                exact hGi j x a hj0 hqi hjx hp
              · rw [if_neg hqi] at hjy
                by_cases hqp : (j - 1) / 2 = (i - 1) / 2
                · rw [if_pos hqp] at hjy
                  cases hjy
                  have h1 : a.1 ≤ x.1 := hE j x a hj0 hji hjx (hqp ▸ hp)
                  exact le_trans (le_of_lt hba) h1
                · rw [if_neg hqp] at hjy
                  exact hE j x y hj0 hji hjx hjy
          · -- grandBound (lswap l p i) ((i-1)/2)
            intro hp0 c x g hc0 hcp hcx hcg
            rw [hchar] at hcx hcg
            have hgpne_i : ((i - 1) / 2 - 1) / 2 ≠ i := by omega
            have hgpne_p : ((i - 1) / 2 - 1) / 2 ≠ (i - 1) / 2 := by omega
            rw [if_neg hgpne_i, if_neg hgpne_p] at hcg
            have hgE : g.1 ≤ a.1 := hE ((i - 1) / 2) a g hp0 hpi hp hcg
            by_cases hci : c = i
            · subst hci
              rw [if_pos rfl] at hcx
              cases hcx
              exact hgE
            · have hcp2 : c ≠ (i - 1) / 2 := by omega
              rw [if_neg hci, if_neg hcp2] at hcx
              have h1 : a.1 ≤ x.1 := hE c x a hc0 hci hcx (hcp ▸ hp)
              exact le_trans hgE h1

theorem push_isHeap (h : MinHeap K V) (hh : IsHeap h.data) (k : K) (v : V) :
    IsHeap (h.push k v).data := by
  unfold push
  dsimp only
  apply siftUp_isHeap
  · simp
  · intro j x y hj0 hjne hjx hjy
    have hjl : j < h.data.length + 1 := by
      have h1 := (List.getElem?_eq_some.mp hjx).1
      simpa using h1
    have hjl2 : j < h.data.length := by
      rcases Nat.lt_or_ge j h.data.length with hlt | hge
      · exact hlt
      · exfalso
        apply hjne
        simp
        omega
    have hpl2 : (j - 1) / 2 < h.data.length := by omega
    rw [List.getElem?_append, if_pos hjl2] at hjx
    rw [List.getElem?_append, if_pos hpl2] at hjy
    exact hh j x y hj0 hjx hjy
  · intro _ c x g hc0 hcp hcx _
    exfalso
    have hcl := (List.getElem?_eq_some.mp hcx).1
    simp at hcl hcp
    omega

theorem lswap_length (l : List (K × V)) (i j : ℕ) : (lswap l i j).length = l.length :=
  (lswap_perm l i j).length_eq

/-- One step of the sift-down loop: either no child improves (and the local
heap relation at `i` holds), or the loop swaps with the strictly smallest
child and recurses there. -/
theorem pickSmaller_spec (l : List (K × V)) (c s : ℕ) :
    (pickSmaller l c s = s ∧ ∀ a b, l[c]? = some a → l[s]? = some b → b.1 ≤ a.1) ∨
    (pickSmaller l c s = c ∧ ∃ a b, l[c]? = some a ∧ l[s]? = some b ∧ a.1 < b.1) := by
  unfold pickSmaller
  rcases hc : l[c]? with _ | a <;> rcases hs : l[s]? with _ | b <;> dsimp only
  · exact Or.inl ⟨rfl, fun a' b' h _ => by cases h⟩
  · exact Or.inl ⟨rfl, fun a' b' h _ => by cases h⟩
  · exact Or.inl ⟨rfl, fun a' b' _ h => by cases h⟩
  · by_cases hab : a.1 < b.1
    · rw [if_pos hab]
      exact Or.inr ⟨rfl, a, b, rfl, rfl, hab⟩
    · rw [if_neg hab]
      refine Or.inl ⟨rfl, fun a' b' h1 h2 => ?_⟩
      cases h1; cases h2
      exact not_lt.mp hab

/-- One step of the sift-down loop: either no child improves (and the local
heap relation at `i` holds), or the loop swaps with the strictly smallest
child and recurses there. -/
theorem siftDown_select (fuel : ℕ) (l : List (K × V)) (i : ℕ) :
    ∃ s2, siftDown (fuel + 1) l i =
        (if s2 = i then l else siftDown fuel (lswap l i s2) s2) ∧
      ((s2 = i ∧
        (∀ a b, l[i * 2 + 1]? = some a → l[i]? = some b → b.1 ≤ a.1) ∧
        (∀ a b, l[i * 2 + 2]? = some a → l[i]? = some b → b.1 ≤ a.1)) ∨
       (s2 ≠ i ∧ (s2 = i * 2 + 1 ∨ s2 = i * 2 + 2) ∧
        ∃ sa bb, l[s2]? = some sa ∧ l[i]? = some bb ∧ sa.1 < bb.1 ∧
          (∀ a, l[i * 2 + 1]? = some a → sa.1 ≤ a.1) ∧
          (∀ a, l[i * 2 + 2]? = some a → sa.1 ≤ a.1))) := by
  have heq : siftDown (fuel + 1) l i =
      (if pickSmaller l (i * 2 + 2) (pickSmaller l (i * 2 + 1) i) = i then l
       else siftDown fuel (lswap l i (pickSmaller l (i * 2 + 2) (pickSmaller l (i * 2 + 1) i)))
         (pickSmaller l (i * 2 + 2) (pickSmaller l (i * 2 + 1) i))) := rfl
  rcases pickSmaller_spec l (i * 2 + 1) i with ⟨he1, hrel1⟩ | ⟨he1, a, b, hcl, hb, hab⟩
  · rw [he1] at heq
    rcases pickSmaller_spec l (i * 2 + 2) i with ⟨he2, hrel2⟩ | ⟨he2, c, bb, hcr, hbi, hcb⟩
    · rw [he2] at heq
      exact ⟨i, heq, Or.inl ⟨rfl, hrel1, hrel2⟩⟩
    · rw [he2] at heq
      refine ⟨i * 2 + 2, heq, Or.inr ⟨by omega, Or.inr rfl, c, bb, hcr, hbi, hcb, ?_, ?_⟩⟩
      · intro a' ha'
        exact le_trans (le_of_lt hcb) (hrel1 a' bb ha' hbi)
      · intro a' ha'
        rw [hcr] at ha'; cases ha'
        exact le_refl _
  · rw [he1] at heq
    rcases pickSmaller_spec l (i * 2 + 2) (i * 2 + 1) with ⟨he2, hrel2⟩ | ⟨he2, c, sb, hcr, hsv, hcs⟩
    · rw [he2] at heq
      refine ⟨i * 2 + 1, heq, Or.inr ⟨by omega, Or.inl rfl, a, b, hcl, hb, hab, ?_, ?_⟩⟩
      · intro a' ha'
        rw [hcl] at ha'; cases ha'
        exact le_refl _
      · intro a' ha'
        exact hrel2 a' a ha' hcl
    · rw [he2] at heq
      have hsba : sb = a := by
        rw [hcl] at hsv; cases hsv; rfl
      subst hsba
      refine ⟨i * 2 + 2, heq, Or.inr ⟨by omega, Or.inr rfl, c, b, hcr, hb,
        lt_trans hcs hab, ?_, ?_⟩⟩
      · intro a' ha'
        rw [hcl] at ha'; cases ha'
        exact le_of_lt hcs
      · intro a' ha'
        rw [hcr] at ha'; cases ha'
        exact le_refl _

theorem siftDown_isHeap : ∀ (fuel : ℕ) (l : List (K × V)) (i : ℕ),
    l.length ≤ fuel + i → heapExceptBelow l i → (0 < i → grandBound l i) →
    IsHeap (siftDown fuel l i)
  | 0, l, i => by
    intro hlen hE _hG
    have hsd : siftDown 0 l i = l := rfl
    rw [hsd]
    intro j x y hj0 hx hy
    have hjl := (List.getElem?_eq_some.mp hx).1
    exact hE j x y hj0 (by omega) hx hy
  | fuel + 1, l, i => by
    intro hlen hE hG
    obtain ⟨s2, heq, hsel⟩ := siftDown_select fuel l i
    rw [heq]
    rcases hsel with ⟨hs2i, hfl, hfr⟩ | ⟨hs2i, hchild, sa, bb, hs2v, hb, hlt, hminl, hminr⟩
    · rw [if_pos hs2i]
      intro j x y hj0 hx hy
      by_cases hpar : (j - 1) / 2 = i
      · rw [hpar] at hy
        have : j = i * 2 + 1 ∨ j = i * 2 + 2 := by omega
        rcases this with rfl | rfl
        · exact hfl x y hx hy
        · exact hfr x y hx hy
      · exact hE j x y hj0 hpar hx hy
    · rw [if_neg hs2i]
      have hchar := lswap_getElem? l i s2 bb sa hb hs2v
      have hs2l : s2 < l.length := (List.getElem?_eq_some.mp hs2v).1
      have hs2pos : 0 < s2 := by omega
      apply siftDown_isHeap fuel _ s2 (by rw [lswap_length]; omega)
      · -- heapExceptBelow (lswap l i s2) s2
        intro j x y hj0 hq hjx hjy
        rw [hchar] at hjx hjy
        by_cases hji : j = i
        · subst hji
          have hjpos : 0 < j := hj0
          have hqi : (j - 1) / 2 ≠ j := by omega
          have hqs : (j - 1) / 2 ≠ s2 := hq
          rw [if_neg (by omega : ¬j = s2), if_pos rfl] at hjx
          cases hjx
          rw [if_neg hqs, if_neg (by omega)] at hjy
          exact hG hj0 s2 sa y hs2pos (by omega) hs2v hjy
        · by_cases hjs : j = s2
          · rw [if_pos hjs] at hjx
            cases hjx
            have hqi2 : (j - 1) / 2 = i := by omega
            rw [if_neg hq, hqi2, if_pos rfl] at hjy
            cases hjy
            exact le_of_lt hlt
          · rw [if_neg hjs, if_neg hji] at hjx
            by_cases hqi : (j - 1) / 2 = i
            · rw [hqi] at hjy
              rw [if_neg (by omega : ¬i = s2), if_pos rfl] at hjy
              cases hjy
              have : j = i * 2 + 1 ∨ j = i * 2 + 2 := by omega
              rcases this with rfl | rfl
              · exact hminl x hjx
              · exact hminr x hjx
            · rw [if_neg hq, if_neg hqi] at hjy
              exact hE j x y hj0 hqi hjx hjy
      · -- grandBound (lswap l i s2) s2
        intro _ c x g hc0 hcp hcx hcg
        have hcbig : s2 < c := by omega
        rw [hchar] at hcx hcg
        rw [if_neg (by omega : ¬c = s2), if_neg (by omega : ¬c = i)] at hcx
        have hqi : (s2 - 1) / 2 = i := by omega
        rw [hqi] at hcg
        rw [if_neg (by omega : ¬i = s2), if_pos rfl] at hcg
        cases hcg
        exact hE c x sa hc0 (by omega) hcx (by rw [hcp]; exact hs2v)

theorem pop_isHeap (h : MinHeap K V) (hh : IsHeap h.data) : IsHeap ((h.pop).2).data := by
  unfold pop
  rcases hd : h.data with _ | ⟨res, rest⟩
  · intro j x y _ hx _
    simp at hx
  · rcases rest with _ | ⟨r1, rs⟩
    · intro j x y _ hx _
      simp at hx
    · dsimp only
      apply siftDown_isHeap
      · simp
      · -- heapExceptBelow l0 0: all edges with parent ≥ 1 are edges of the old heap
        intro j x y hj0 hq hjx hjy
        have hj3 : 3 ≤ j := by omega
        obtain ⟨j', rfl⟩ : ∃ j', j = j' + 1 := ⟨j - 1, by omega⟩
        obtain ⟨q', hq'⟩ : ∃ q', (j' + 1 - 1) / 2 = q' + 1 := ⟨(j' + 1 - 1) / 2 - 1, by omega⟩
        rw [List.getElem?_cons_succ] at hjx
        rw [hq', List.getElem?_cons_succ] at hjy
        have hjl : j' < (r1 :: rs).dropLast.length := (List.getElem?_eq_some.mp hjx).1
        have hql : q' < (r1 :: rs).dropLast.length := (List.getElem?_eq_some.mp hjy).1
        rw [List.getElem?_dropLast] at hjx hjy
        simp only [List.length_dropLast] at hjl hql
        rw [if_pos hjl] at hjx
        rw [if_pos hql] at hjy
        have hx2 : h.data[j' + 1]? = some x := by
          rw [hd, List.getElem?_cons_succ]
          exact hjx
        have hy2 : h.data[q' + 1]? = some y := by
          rw [hd, List.getElem?_cons_succ]
          exact hjy
        have := hh (j' + 1) x y (by omega) hx2 (by rw [hq']; exact hy2)
        exact this
      · intro h0 _ _ _ _ _ _ _
        exact absurd h0 (lt_irrefl 0)

theorem runHeapOps_isHeap (ops : List (HeapOp K V)) : IsHeap (runHeapOps ops).data := by
  suffices hgen : ∀ (h : MinHeap K V), IsHeap h.data →
      IsHeap (ops.foldl (fun h op => match op with
        | .push k v => h.push k v
        | .pop => (h.pop).2) h).data by
    apply hgen
    intro j x y _ hx _
    simp at hx
  induction ops with
  | nil => intro h hh; exact hh
  | cons op rest ih =>
    intro h hh
    rw [List.foldl_cons]
    rcases op with ⟨k, v⟩ | _
    · exact ih _ (push_isHeap h hh k v)
    · exact ih _ (pop_isHeap h hh)

end MinHeap

/-- **C4.** For every sequence of `MinHeap` push operations interleaved with
pops, run against an initially empty heap: `pop` returns `null` exactly when
no entries remain; and when it returns an entry, that entry is removed (the
heap held exactly the returned entry plus the remaining ones) and its
priority is less than or equal to the priority of every entry remaining in
the queue at that point. -/
theorem minheap_pop_min {K V : Type} [LinearOrder K] (ops : List (HeapOp K V)) :
    (((runHeapOps ops).pop).1 = none ↔ (runHeapOps ops).data = []) ∧
    ∀ e, ((runHeapOps ops).pop).1 = some e →
      (runHeapOps ops).data.Perm (e :: (((runHeapOps ops).pop).2).data) ∧
      ∀ x ∈ (((runHeapOps ops).pop).2).data, e.1 ≤ x.1 := by
  have hh : IsHeap (runHeapOps ops).data := MinHeap.runHeapOps_isHeap ops
  constructor
  · constructor
    · intro hn
      rcases hd : (runHeapOps ops).data with _ | ⟨r, rest⟩
      · rfl
      · have h1 := (MinHeap.pop_of_cons _ r rest hd).1
        rw [h1] at hn
        cases hn
    · intro hd
      rw [MinHeap.pop_of_nil _ hd]
  · intro e he
    rcases hd : (runHeapOps ops).data with _ | ⟨r, rest⟩
    · rw [MinHeap.pop_of_nil _ hd] at he
      cases he
    · obtain ⟨h1, h2⟩ := MinHeap.pop_of_cons _ r rest hd
      rw [h1] at he
      cases he
      constructor
      · exact List.Perm.cons e h2.symm
      · intro x hx
        have hxr : x ∈ rest := h2.mem_iff.mp hx
        have hr0 : (runHeapOps ops).data[0]? = some e := by rw [hd]; simp
        have hxd : x ∈ (runHeapOps ops).data := by
          rw [hd]
          exact List.mem_cons_of_mem e hxr
        obtain ⟨j, hj⟩ := List.mem_iff_getElem?.mp hxd
        exact MinHeap.root_min _ hh e hr0 j x hj

/-- Witness for C4: pushing priorities 2 then 1, then popping (which removes
the 1), leaves a heap whose next pop returns the entry with priority 2; the
claim theorem instantiated there confirms removal and minimality. -/
theorem minheap_pop_min_witness :
    (((runHeapOps [HeapOp.push (2 : ℕ) (0 : ℕ), HeapOp.push 1 1, HeapOp.pop]).pop).1
        = some (2, 0)) ∧
    (runHeapOps [HeapOp.push (2 : ℕ) (0 : ℕ), HeapOp.push 1 1, HeapOp.pop]).data.Perm
      ((2, 0) ::
        (((runHeapOps [HeapOp.push (2 : ℕ) (0 : ℕ), HeapOp.push 1 1, HeapOp.pop]).pop).2).data) ∧
    ∀ x ∈ (((runHeapOps [HeapOp.push (2 : ℕ) (0 : ℕ), HeapOp.push 1 1, HeapOp.pop]).pop).2).data,
      (2 : ℕ) ≤ x.1 := by
  have hpop : ((runHeapOps [HeapOp.push (2 : ℕ) (0 : ℕ), HeapOp.push 1 1, HeapOp.pop]).pop).1
      = some (2, 0) := by decide
  obtain ⟨hperm, hmin⟩ :=
    (minheap_pop_min [HeapOp.push (2 : ℕ) (0 : ℕ), HeapOp.push 1 1, HeapOp.pop]).2 (2, 0) hpop
  exact ⟨hpop, hperm, hmin⟩



/-! ## Parent-chain facts for valid rooted trees -/

theorem parIter_succ_out (par : ℕ → ℕ) (j v : ℕ) :
    parIter par (j + 1) v = par (parIter par j v) := by
  induction j generalizing v with
  | zero => rfl
  | succ j ih =>
    calc parIter par (j + 1 + 1) v = parIter par (j + 1) (par v) := rfl
    _ = par (parIter par j (par v)) := ih (par v)
    _ = par (parIter par (j + 1) v) := rfl

theorem parIter_add (par : ℕ → ℕ) (i j v : ℕ) :
    parIter par (i + j) v = parIter par i (parIter par j v) := by
  induction j generalizing v with
  | zero => rfl
  | succ j ih =>
    calc parIter par (i + (j + 1)) v = parIter par (i + j) (par v) := rfl
    _ = parIter par i (parIter par j (par v)) := ih (par v)
    _ = parIter par i (parIter par (j + 1) v) := rfl

theorem tree_parIter_lt {adj : List (List ℕ)} {root : ℕ} {par dep : ℕ → ℕ}
    (T : IsRootedTree adj root par dep) (i v : ℕ) (hv : v < adj.length) :
    parIter par i v < adj.length := by
  induction i generalizing v with
  | zero => exact hv
  | succ i ih => exact ih (par v) (T.par_lt v hv)

theorem tree_dep_chain {adj : List (List ℕ)} {root : ℕ} {par dep : ℕ → ℕ}
    (T : IsRootedTree adj root par dep) (i : ℕ) :
    ∀ v, v < adj.length → i ≤ dep v → dep (parIter par i v) = dep v - i := by
  induction i with
  | zero => intro v _ _; simp [parIter]
  | succ i ih =>
    intro v hv hle
    have hvroot : v ≠ root := by
      intro h
      rw [h, T.dep_root] at hle
      omega
    have hd : dep v = dep (par v) + 1 := T.dep_par v hv hvroot
    have he : parIter par (i + 1) v = parIter par i (par v) := rfl
    rw [he, ih (par v) (T.par_lt v hv) (by omega)]
    omega

theorem tree_parIter_dep_root {adj : List (List ℕ)} {root : ℕ} {par dep : ℕ → ℕ}
    (T : IsRootedTree adj root par dep) :
    ∀ v, v < adj.length → parIter par (dep v) v = root := by
  suffices H : ∀ m v, v < adj.length → dep v ≤ m → parIter par (dep v) v = root by
    intro v hv
    exact H (dep v) v hv le_rfl
  intro m
  induction m with
  | zero =>
    intro v hv h0
    have hvr : v = root := by
      by_contra hne
      have := T.dep_par v hv hne
      omega
    have hd0 : dep v = 0 := by omega
    rw [hd0, hvr]
    rfl
  | succ m ih =>
    intro v hv h
    by_cases hvr : v = root
    · rw [hvr, T.dep_root]
      rfl
    · have hd := T.dep_par v hv hvr
      rw [hd]
      have he : parIter par (dep (par v) + 1) v = parIter par (dep (par v)) (par v) := rfl
      rw [he]
      exact ih (par v) (T.par_lt v hv) (by omega)

theorem tree_parIter_root {adj : List (List ℕ)} {root : ℕ} {par dep : ℕ → ℕ}
    (T : IsRootedTree adj root par dep) : ∀ i, parIter par i root = root := by
  intro i
  induction i with
  | zero => rfl
  | succ i ih => rw [parIter_succ_out, ih, T.par_root]

theorem tree_parIter_ge {adj : List (List ℕ)} {root : ℕ} {par dep : ℕ → ℕ}
    (T : IsRootedTree adj root par dep) :
    ∀ v, v < adj.length → ∀ i, dep v ≤ i → parIter par i v = root := by
  intro v hv i hle
  obtain ⟨j, rfl⟩ : ∃ j, i = j + dep v := ⟨i - dep v, by omega⟩
  rw [parIter_add, tree_parIter_dep_root T v hv, tree_parIter_root T]

theorem tree_dep_parIter_le {adj : List (List ℕ)} {root : ℕ} {par dep : ℕ → ℕ}
    (T : IsRootedTree adj root par dep) :
    ∀ i v, v < adj.length → dep (parIter par i v) ≤ dep v := by
  intro i v hv
  by_cases h : i ≤ dep v
  · rw [tree_dep_chain T i v hv h]
    omega
  · rw [tree_parIter_ge T v hv i (by omega), T.dep_root]
    omega

theorem tree_dep_lt {adj : List (List ℕ)} {root : ℕ} {par dep : ℕ → ℕ}
    (T : IsRootedTree adj root par dep) : ∀ v, v < adj.length → dep v < adj.length := by
  intro v hv
  have hmaps : ∀ i ∈ Finset.range (dep v + 1),
      (fun i => parIter par i v) i ∈ Finset.range adj.length := by
    intro i _
    exact Finset.mem_range.mpr (tree_parIter_lt T i v hv)
  have hinj : Set.InjOn (fun i => parIter par i v) ↑(Finset.range (dep v + 1)) := by
    intro i hi j hj heq
    simp only [Finset.coe_range, Set.mem_Iio] at hi hj
    have h1 := tree_dep_chain T i v hv (by omega)
    have h2 := tree_dep_chain T j v hv (by omega)
    simp only at heq
    rw [heq] at h1
    omega
  have hcard := Finset.card_le_card_of_injOn (fun i => parIter par i v) hmaps hinj
  rw [Finset.card_range, Finset.card_range] at hcard
  omega

theorem tree_anc_norm {adj : List (List ℕ)} {root : ℕ} {par dep : ℕ → ℕ}
    (T : IsRootedTree adj root par dep) :
    ∀ a x, x < adj.length → IsAncestor par a x → ∃ i, i ≤ dep x ∧ parIter par i x = a := by
  rintro a x hx ⟨i, hi⟩
  by_cases h : i ≤ dep x
  · exact ⟨i, h, hi⟩
  · refine ⟨dep x, le_rfl, ?_⟩
    have ha : a = root := by
      rw [← hi, tree_parIter_ge T x hx i (by omega)]
    rw [tree_parIter_dep_root T x hx, ha]

theorem tree_anc_dep_le {adj : List (List ℕ)} {root : ℕ} {par dep : ℕ → ℕ}
    (T : IsRootedTree adj root par dep) :
    ∀ a x, x < adj.length → IsAncestor par a x → dep a ≤ dep x := by
  rintro a x hx ⟨i, hi⟩
  rw [← hi]
  exact tree_dep_parIter_le T i x hx

theorem tree_anc_antisymm {adj : List (List ℕ)} {root : ℕ} {par dep : ℕ → ℕ}
    (T : IsRootedTree adj root par dep) :
    ∀ x y, x < adj.length → y < adj.length →
      IsAncestor par x y → IsAncestor par y x → x = y := by
  intro x y hx hy hxy hyx
  obtain ⟨i, hi, hix⟩ := tree_anc_norm T x y hy hxy
  obtain ⟨j, hj, hjy⟩ := tree_anc_norm T y x hx hyx
  have h1 := tree_dep_chain T i y hy hi
  have h2 := tree_dep_chain T j x hx hj
  rw [hix] at h1
  rw [hjy] at h2
  have hi0 : i = 0 := by omega
  rw [hi0] at hix
  exact hix.symm

theorem tree_member_lt {adj : List (List ℕ)} {root : ℕ} {par dep : ℕ → ℕ}
    (T : IsRootedTree adj root par dep) :
    ∀ u, u < adj.length → ∀ v ∈ adj.getD u [], v < adj.length := by
  intro u hu v hv
  rcases (T.mem_adj u hu v).mp hv with ⟨h, _, _⟩ | ⟨_, hp⟩
  · exact h
  · rw [← hp]
    exact T.par_lt u hu

theorem tree_adj_len {adj : List (List ℕ)} {root : ℕ} {par dep : ℕ → ℕ}
    (T : IsRootedTree adj root par dep) :
    ∀ u, u < adj.length → (adj.getD u []).length ≤ adj.length := by
  intro u hu
  have hnd := T.nodup u hu
  have hsub : (adj.getD u []).toFinset ⊆ Finset.range adj.length := by
    intro x hx
    rw [List.mem_toFinset] at hx
    exact Finset.mem_range.mpr (tree_member_lt T u hu x hx)
  have hcard := Finset.card_le_card hsub
  rw [List.toFinset_card_of_nodup hnd, Finset.card_range] at hcard
  exact hcard

theorem tree_step_child {adj : List (List ℕ)} {root : ℕ} {par dep : ℕ → ℕ}
    (T : IsRootedTree adj root par dep) (u pu v : ℕ) (hu : u < adj.length)
    (hframe : (u = root ∧ pu = u) ∨ (u ≠ root ∧ pu = par u))
    (hvmem : v ∈ adj.getD u []) (hvne : v ≠ pu) :
    v < adj.length ∧ v ≠ root ∧ par v = u := by
  rcases (T.mem_adj u hu v).mp hvmem with h | ⟨hur, hpu⟩
  · exact h
  · rcases hframe with ⟨hroot, _⟩ | ⟨_, hpu2⟩
    · exact absurd hroot hur
    · rw [hpu2] at hvne
      exact absurd hpu.symm hvne

/-! ## The DFS of the `LCA` constructor on a valid rooted tree -/

theorem lcaDfs_nil (adj : List (List ℕ)) (f : ℕ) (st : List ℤ × List ℕ) :
    lcaDfs adj f [] st = some st := by
  cases f <;> rfl

theorem lcaDfs_pop (adj : List (List ℕ)) (f u p : ℕ)
    (stk : List (ℕ × ℕ × List ℕ)) (st : List ℤ × List ℕ) :
    lcaDfs adj (f + 1) ((u, p, []) :: stk) st = lcaDfs adj f stk st := rfl

theorem lcaDfs_cons (adj : List (List ℕ)) (f u p v : ℕ) (vs : List ℕ)
    (stk : List (ℕ × ℕ × List ℕ)) (st : List ℤ × List ℕ) :
    lcaDfs adj (f + 1) ((u, p, v :: vs) :: stk) st =
      if v ≠ p then
        lcaDfs adj f ((v, u, adj.getD v []) :: (u, p, vs) :: stk)
          (st.1.set v (u : ℤ), st.2.set v (st.2.getD u 0 + 1))
      else lcaDfs adj f ((u, p, vs) :: stk) st := rfl

theorem dfsBudget_pos (n d : ℕ) : 1 ≤ dfsBudget n d := by
  cases d <;> simp [dfsBudget]

theorem dfsBudget_succ (n d : ℕ) :
    dfsBudget n (d + 1) = 1 + n * (1 + dfsBudget n d) := rfl

theorem dfsBudget_mono (n : ℕ) : ∀ d d', d ≤ d' → dfsBudget n d ≤ dfsBudget n d' := by
  have hstep : ∀ d, dfsBudget n d ≤ dfsBudget n (d + 1) := by
    intro d
    induction d with
    | zero =>
      have := Nat.zero_le (n * (1 + dfsBudget n 0))
      simp [dfsBudget]
    | succ d ih =>
      rw [dfsBudget_succ, dfsBudget_succ]
      have h2 : n * (1 + dfsBudget n d) ≤ n * (1 + dfsBudget n (d + 1)) :=
        Nat.mul_le_mul_left n (by omega)
      omega
  intro d d' h
  induction d' with
  | zero =>
    have hd0 : d = 0 := by omega
    rw [hd0]
  | succ d' ih =>
    rcases Nat.lt_or_ge d (d' + 1) with hlt | hge
    · exact le_trans (ih (by omega)) (hstep d')
    · have : d = d' + 1 := by omega
      rw [this]

/-- Processing one DFS frame `(u, pu, cs)` on a valid rooted tree: the run
consumes a bounded number of steps and then continues with the rest of the
stack, having written parent and depth entries for exactly the nodes in the
subtrees hanging off the child edges listed in `cs`. -/
theorem lcaDfs_frame {adj : List (List ℕ)} {root : ℕ} {par dep : ℕ → ℕ}
    (T : IsRootedTree adj root par dep) :
    ∀ (D u pu : ℕ) (cs : List ℕ),
      ∀ (stk : List (ℕ × ℕ × List ℕ)) (row : List ℤ) (dp : List ℕ),
      u < adj.length → adj.length - dep u ≤ D + 1 →
      ((u = root ∧ pu = u) ∨ (u ≠ root ∧ pu = par u)) →
      (∀ v ∈ cs, v ∈ adj.getD u []) →
      row.length = adj.length → dp.length = adj.length →
      dp.getD u 0 = dep u →
      ∃ (used : ℕ) (row2 : List ℤ) (dp2 : List ℕ),
        used ≤ 1 + cs.length * (1 + dfsBudget adj.length D) ∧
        (∀ fuel, lcaDfs adj (fuel + used) ((u, pu, cs) :: stk) (row, dp)
            = lcaDfs adj fuel stk (row2, dp2)) ∧
        row2.length = adj.length ∧ dp2.length = adj.length ∧
        (∀ j : ℕ, ¬ (∃ v ∈ cs, v ≠ pu ∧ IsAncestor par v j) →
          row2.getD j (-1) = row.getD j (-1) ∧ dp2.getD j 0 = dp.getD j 0) ∧
        (∀ j : ℕ, j < adj.length → (∃ v ∈ cs, v ≠ pu ∧ IsAncestor par v j) →
          row2.getD j (-1) = ((par j : ℕ) : ℤ) ∧ dp2.getD j 0 = dep j) := by
  intro D
  induction D using Nat.strong_induction_on with
  | _ D IH =>
    intro u pu cs
    induction cs with
    | nil =>
      intro stk row dp hu hD hframe hcs hrl hdl hdu
      refine ⟨1, row, dp, by simp, ?_, hrl, hdl, ?_, ?_⟩
      · intro fuel
        exact lcaDfs_pop adj fuel u pu stk (row, dp)
      · intro j _
        exact ⟨rfl, rfl⟩
      · rintro j _ ⟨v, hv, -⟩
        simp at hv
    | cons v vs ihcs =>
      intro stk row dp hu hD hframe hcs hrl hdl hdu
      by_cases hvp : v = pu
      · -- the listed edge goes back to the parent: it is skipped
        obtain ⟨used, row2, dp2, hub, heq, hrl2, hdl2, hunt, htou⟩ :=
          ihcs stk row dp hu hD hframe (fun w hw => hcs w (List.mem_cons_of_mem v hw))
            hrl hdl hdu
        refine ⟨used + 1, row2, dp2, ?_, ?_, hrl2, hdl2, ?_, ?_⟩
        · have hexp : (vs.length + 1) * (1 + dfsBudget adj.length D)
              = vs.length * (1 + dfsBudget adj.length D) + (1 + dfsBudget adj.length D) := by
            ring
          simp only [List.length_cons]
          omega
        · intro fuel
          have ha : fuel + (used + 1) = (fuel + used) + 1 := by omega
          rw [ha, lcaDfs_cons, if_neg (fun h => h hvp), heq fuel]
        · intro j hj
          refine hunt j ?_
          rintro ⟨w, hw, hwp, hanc⟩
          exact hj ⟨w, List.mem_cons_of_mem v hw, hwp, hanc⟩
        · rintro j hjn ⟨w, hw, hwp, hanc⟩
          rcases List.mem_cons.mp hw with rfl | hw2
          · exact absurd hvp hwp
          · exact htou j hjn ⟨w, hw2, hwp, hanc⟩
      · -- a tree edge: descend into the child `v`
        have hvmem : v ∈ adj.getD u [] := hcs v (List.mem_cons_self v vs)
        obtain ⟨hvlt, hvroot, hpv⟩ := tree_step_child T u pu v hu hframe hvmem hvp
        have hdepv : dep v = dep u + 1 := by
          rw [T.dep_par v hvlt hvroot, hpv]
        have hdvlt : dep v < adj.length := tree_dep_lt T v hvlt
        have hune : u ≠ v := by
          intro h
          rw [h] at hdepv
          omega
        obtain ⟨E, rfl⟩ : ∃ E, D = E + 1 := ⟨D - 1, by omega⟩
        obtain ⟨uc, rowc, dpc, hucb, heqc, hrlc, hdlc, huntc, htouc⟩ :=
          IH E (by omega) v u (adj.getD v []) ((u, pu, vs) :: stk)
            (row.set v (u : ℤ)) (dp.set v (dp.getD u 0 + 1))
            hvlt (by omega) (Or.inr ⟨hvroot, hpv.symm⟩) (fun w hw => hw)
            (by rw [List.length_set]; exact hrl) (by rw [List.length_set]; exact hdl)
            (by rw [getD_set_self _ _ _ _ (by rw [hdl]; exact hvlt), hdu, hdepv])
        have hnotancu : ¬ ∃ w ∈ adj.getD v [], w ≠ u ∧ IsAncestor par w u := by
          rintro ⟨w, hw, hwu, hancwu⟩
          obtain ⟨hwlt, hwroot, hpw⟩ :=
            tree_step_child T v u w hvlt (Or.inr ⟨hvroot, hpv.symm⟩) hw hwu
          have hdw : dep w = dep v + 1 := by
            rw [T.dep_par w hwlt hwroot, hpw]
          have := tree_anc_dep_le T w u hu hancwu
          omega
        have hdpcu : dpc.getD u 0 = dep u := by
          have h2 := (huntc u hnotancu).2
          rw [h2, getD_set_ne _ _ _ _ _ (fun h => hune h.symm)]
          exact hdu
        obtain ⟨ur, row3, dp3, hurb, heqr, hrl3, hdl3, huntr, htour⟩ :=
          ihcs stk rowc dpc hu hD hframe (fun w hw => hcs w (List.mem_cons_of_mem v hw))
            hrlc hdlc hdpcu
        refine ⟨1 + uc + ur, row3, dp3, ?_, ?_, hrl3, hdl3, ?_, ?_⟩
        · have hadjlen : (adj.getD v []).length ≤ adj.length := tree_adj_len T v hvlt
          have hmul : (adj.getD v []).length * (1 + dfsBudget adj.length E)
              ≤ adj.length * (1 + dfsBudget adj.length E) :=
            Nat.mul_le_mul_right _ hadjlen
          have hBD : dfsBudget adj.length (E + 1)
              = 1 + adj.length * (1 + dfsBudget adj.length E) := dfsBudget_succ _ _
          have hexp : (vs.length + 1) * (1 + dfsBudget adj.length (E + 1))
              = vs.length * (1 + dfsBudget adj.length (E + 1))
                + (1 + dfsBudget adj.length (E + 1)) := by
            ring
          simp only [List.length_cons]
          omega
        · intro fuel
          have ha : fuel + (1 + uc + ur) = ((fuel + ur) + uc) + 1 := by omega
          rw [ha, lcaDfs_cons, if_pos hvp]
          dsimp only
          rw [heqc (fuel + ur), heqr fuel]
        · intro j hj
          have hancvj : ¬ IsAncestor par v j :=
            fun h => hj ⟨v, List.mem_cons_self v vs, hvp, h⟩
          have hjnev : j ≠ v := by
            intro h
            exact hancvj ⟨0, h⟩
          have hvsnot : ¬ ∃ w ∈ vs, w ≠ pu ∧ IsAncestor par w j := by
            rintro ⟨w, hw, hwp, hanc⟩
            exact hj ⟨w, List.mem_cons_of_mem v hw, hwp, hanc⟩
          have hcnot : ¬ ∃ w ∈ adj.getD v [], w ≠ u ∧ IsAncestor par w j := by
            rintro ⟨w, hw, hwu, hanc⟩
            obtain ⟨hwlt, hwroot, hpw⟩ :=
              tree_step_child T v u w hvlt (Or.inr ⟨hvroot, hpv.symm⟩) hw hwu
            obtain ⟨i, hi⟩ := hanc
            refine hancvj ⟨i + 1, ?_⟩
            rw [parIter_succ_out, hi, hpw]
          obtain ⟨hr3, hd3⟩ := huntr j hvsnot
          obtain ⟨hrc, hdc⟩ := huntc j hcnot
          constructor
          · rw [hr3, hrc, getD_set_ne _ _ _ _ _ (fun h => hjnev h.symm)]
          · rw [hd3, hdc, getD_set_ne _ _ _ _ _ (fun h => hjnev h.symm)]
        · rintro j hjn ⟨w, hw, hwp, hanc⟩
          by_cases htv : ∃ w2 ∈ vs, w2 ≠ pu ∧ IsAncestor par w2 j
          · exact htour j hjn htv
          · obtain ⟨hr3, hd3⟩ := huntr j htv
            rcases List.mem_cons.mp hw with rfl | hw2
            · by_cases hjv : j = w
              · -- `j` is the child itself: written by the edge step
                have hcnotv : ¬ ∃ w2 ∈ adj.getD w [], w2 ≠ u ∧ IsAncestor par w2 w := by
                  rintro ⟨w2, hw2m, hw2u, hancw2⟩
                  obtain ⟨hw2lt, hw2root, hpw2⟩ :=
                    tree_step_child T w u w2 hvlt (Or.inr ⟨hvroot, hpv.symm⟩) hw2m hw2u
                  have hdw2 : dep w2 = dep w + 1 := by
                    rw [T.dep_par w2 hw2lt hw2root, hpw2]
                  have := tree_anc_dep_le T w2 w hvlt hancw2
                  omega
                constructor
                · rw [hr3, hjv, (huntc w hcnotv).1,
                    getD_set_self _ _ _ _ (by rw [hrl]; exact hvlt), hpv]
                · rw [hd3, hjv, (huntc w hcnotv).2,
                    getD_set_self _ _ _ _ (by rw [hdl]; exact hvlt), hdu, hdepv]
              · -- `j` is a proper descendant of the child: in some grandchild subtree
                obtain ⟨i, hile, hpi⟩ := tree_anc_norm T w j hjn hanc
                have hipos : 1 ≤ i := by
                  rcases Nat.eq_zero_or_pos i with h0 | h
                  · rw [h0] at hpi
                    exact absurd hpi hjv
                  · exact h
                have hw2lt : parIter par (i - 1) j < adj.length :=
                  tree_parIter_lt T _ j hjn
                have hpw2 : par (parIter par (i - 1) j) = w := by
                  rw [← parIter_succ_out par (i - 1) j, show i - 1 + 1 = i by omega, hpi]
                have hw2root : parIter par (i - 1) j ≠ root := by
                  intro h
                  rw [h, T.par_root] at hpw2
                  exact hvroot hpw2.symm
                have hw2mem : parIter par (i - 1) j ∈ adj.getD w [] :=
                  (T.mem_adj w hvlt _).mpr (Or.inl ⟨hw2lt, hw2root, hpw2⟩)
                have hw2u : parIter par (i - 1) j ≠ u := by
                  intro h
                  rw [h] at hpw2
                  by_cases hur : u = root
                  · rw [hur, T.par_root] at hpw2
                    exact hvroot hpw2.symm
                  · have hdu2 : dep u = dep (par u) + 1 := T.dep_par u hu hur
                    rw [hpw2] at hdu2
                    omega
                have htoucj := htouc j hjn ⟨parIter par (i - 1) j, hw2mem, hw2u, ⟨i - 1, rfl⟩⟩
                exact ⟨hr3.trans htoucj.1, hd3.trans htoucj.2⟩
            · exact absurd ⟨w, hw2, hwp, hanc⟩ htv

theorem getD_replicate {α : Type} (n i : ℕ) (d : α) :
    (List.replicate n d).getD i d = d := by
  rw [List.getD_eq_getElem?_getD, List.getElem?_replicate]
  split <;> rfl

theorem dfsBudget_eq_of_pos (n d : ℕ) (h : 1 ≤ d) :
    dfsBudget n d = 1 + n * (1 + dfsBudget n (d - 1)) := by
  obtain ⟨e, rfl⟩ : ∃ e, d = e + 1 := ⟨d - 1, by omega⟩
  rfl

/-- On a valid rooted tree the DFS terminates within the budget and computes
the parent row and the depth table. -/
theorem lcaDfs_run {adj : List (List ℕ)} {root : ℕ} {par dep : ℕ → ℕ}
    (T : IsRootedTree adj root par dep) :
    ∃ (row0 : List ℤ) (dp0 : List ℕ),
      lcaDfs adj (dfsBudget adj.length adj.length)
        [(root, root, adj.getD root [])]
        ((List.replicate adj.length (-1 : ℤ)).set root (root : ℤ),
          List.replicate adj.length 0)
        = some (row0, dp0) ∧
      row0.length = adj.length ∧ dp0.length = adj.length ∧
      (∀ v, v < adj.length → row0.getD v (-1) = ((par v : ℕ) : ℤ)) ∧
      (∀ v, v < adj.length → dp0.getD v 0 = dep v) := by
  have hn : 1 ≤ adj.length := by
    have := T.root_lt
    omega
  obtain ⟨used, row2, dp2, hub, heq, hrl2, hdl2, hunt, htou⟩ :=
    lcaDfs_frame T (adj.length - 1) root root (adj.getD root []) []
      ((List.replicate adj.length (-1 : ℤ)).set root (root : ℤ))
      (List.replicate adj.length 0)
      T.root_lt (by rw [T.dep_root]; omega) (Or.inl ⟨rfl, rfl⟩) (fun v hv => hv)
      (by rw [List.length_set, List.length_replicate])
      (by rw [List.length_replicate])
      (by rw [getD_replicate, T.dep_root])
  · have husedB : used ≤ dfsBudget adj.length adj.length := by
      have hlen := tree_adj_len T root T.root_lt
      have hmul : (adj.getD root []).length * (1 + dfsBudget adj.length (adj.length - 1))
          ≤ adj.length * (1 + dfsBudget adj.length (adj.length - 1)) :=
        Nat.mul_le_mul_right _ hlen
      have hBD := dfsBudget_eq_of_pos adj.length adj.length hn
      omega
    have hfe : dfsBudget adj.length adj.length - used + used
        = dfsBudget adj.length adj.length := by omega
    have h1 := heq (dfsBudget adj.length adj.length - used)
    rw [hfe, lcaDfs_nil] at h1
    refine ⟨row2, dp2, h1, hrl2, hdl2, ?_, ?_⟩
    · intro v hv
      by_cases hvr : v = root
      · have hnot : ¬ ∃ w ∈ adj.getD root [], w ≠ root ∧ IsAncestor par w root := by
          rintro ⟨w, hwm, hwr, hanc⟩
          obtain ⟨hwlt, hwroot, hpw⟩ :=
            tree_step_child T root root w T.root_lt (Or.inl ⟨rfl, rfl⟩) hwm hwr
          have hdw : dep w = dep root + 1 := by
            rw [T.dep_par w hwlt hwroot, hpw]
          have := tree_anc_dep_le T w root T.root_lt hanc
          rw [T.dep_root] at hdw this
          omega
        have h2 := (hunt root hnot).1
        rw [hvr, h2, getD_set_self _ _ _ _ (by rw [List.length_replicate]; exact T.root_lt),
          T.par_root]
      · have hdep1 : 1 ≤ dep v := by
          have := T.dep_par v hv hvr
          omega
        have hw1lt : parIter par (dep v - 1) v < adj.length := tree_parIter_lt T _ v hv
        have hpw1 : par (parIter par (dep v - 1) v) = root := by
          rw [← parIter_succ_out par (dep v - 1) v, show dep v - 1 + 1 = dep v by omega,
            tree_parIter_dep_root T v hv]
        have hdw1 : dep (parIter par (dep v - 1) v) = 1 := by
          rw [tree_dep_chain T (dep v - 1) v hv (by omega)]
          omega
        have hw1root : parIter par (dep v - 1) v ≠ root := by
          intro h
          rw [h, T.dep_root] at hdw1
          omega
        have hw1mem : parIter par (dep v - 1) v ∈ adj.getD root [] :=
          (T.mem_adj root T.root_lt _).mpr (Or.inl ⟨hw1lt, hw1root, hpw1⟩)
        exact (htou v hv ⟨parIter par (dep v - 1) v, hw1mem, hw1root, ⟨dep v - 1, rfl⟩⟩).1
    · intro v hv
      by_cases hvr : v = root
      · have hnot : ¬ ∃ w ∈ adj.getD root [], w ≠ root ∧ IsAncestor par w root := by
          rintro ⟨w, hwm, hwr, hanc⟩
          obtain ⟨hwlt, hwroot, hpw⟩ :=
            tree_step_child T root root w T.root_lt (Or.inl ⟨rfl, rfl⟩) hwm hwr
          have hdw : dep w = dep root + 1 := by
            rw [T.dep_par w hwlt hwroot, hpw]
          have := tree_anc_dep_le T w root T.root_lt hanc
          rw [T.dep_root] at hdw this
          omega
        have h2 := (hunt root hnot).2
        rw [hvr, h2, getD_replicate, T.dep_root]
      · have hdep1 : 1 ≤ dep v := by
          have := T.dep_par v hv hvr
          omega
        have hw1lt : parIter par (dep v - 1) v < adj.length := tree_parIter_lt T _ v hv
        have hpw1 : par (parIter par (dep v - 1) v) = root := by
          rw [← parIter_succ_out par (dep v - 1) v, show dep v - 1 + 1 = dep v by omega,
            tree_parIter_dep_root T v hv]
        have hdw1 : dep (parIter par (dep v - 1) v) = 1 := by
          rw [tree_dep_chain T (dep v - 1) v hv (by omega)]
          omega
        have hw1root : parIter par (dep v - 1) v ≠ root := by
          intro h
          rw [h, T.dep_root] at hdw1
          omega
        have hw1mem : parIter par (dep v - 1) v ∈ adj.getD root [] :=
          (T.mem_adj root T.root_lt _).mpr (Or.inl ⟨hw1lt, hw1root, hpw1⟩)
        exact (htou v hv ⟨parIter par (dep v - 1) v, hw1mem, hw1root, ⟨dep v - 1, rfl⟩⟩).2

theorem getD_map_range {α : Type} (n v : ℕ) (d : α) (f : ℕ → α) (hv : v < n) :
    ((List.range n).map f).getD v d = f v := by
  rw [List.getD_eq_getElem?_getD, List.getElem?_map, List.getElem?_range hv]
  rfl

theorem upRow_getD {adj : List (List ℕ)} {root : ℕ} {par dep : ℕ → ℕ}
    (T : IsRootedTree adj root par dep) (r : List ℤ) (e : ℕ)
    (hr : ∀ v, v < adj.length → r.getD v (-1) = ((parIter par e v : ℕ) : ℤ)) :
    ∀ v, v < adj.length →
      (upRow adj.length r).getD v (-1) = ((parIter par (e + e) v : ℕ) : ℤ) := by
  intro v hv
  unfold upRow
  rw [getD_map_range _ _ _ _ hv]
  dsimp only
  rw [hr v hv]
  have hne : ((parIter par e v : ℕ) : ℤ) ≠ -1 := by omega
  rw [if_neg hne]
  have htn : ((parIter par e v : ℕ) : ℤ).toNat = parIter par e v := Int.toNat_natCast _
  rw [htn, hr (parIter par e v) (tree_parIter_lt T e v hv), ← parIter_add]

theorem upRows_getD_spec {adj : List (List ℕ)} {root : ℕ} {par dep : ℕ → ℕ}
    (T : IsRootedTree adj root par dep) :
    ∀ (L : ℕ) (r : List ℤ) (e : ℕ),
      (∀ v, v < adj.length → r.getD v (-1) = ((parIter par e v : ℕ) : ℤ)) →
      ∀ k, k < L → ∀ v, v < adj.length →
        ((upRows adj.length L r).getD k []).getD v (-1)
          = ((parIter par (e * 2 ^ k) v : ℕ) : ℤ) := by
  intro L
  induction L with
  | zero =>
    intro r e _ k hk
    exact absurd hk (Nat.not_lt_zero k)
  | succ L ih =>
    intro r e hr k hk v hv
    match k with
    | 0 =>
      have he : (upRows adj.length (L + 1) r).getD 0 [] = r := rfl
      rw [he, show e * 2 ^ 0 = e by ring]
      exact hr v hv
    | k + 1 =>
      have he : (upRows adj.length (L + 1) r).getD (k + 1) []
          = (upRows adj.length L (upRow adj.length r)).getD k [] := rfl
      rw [he, ih (upRow adj.length r) (e + e) (upRow_getD T r e hr) k (by omega) v hv,
        show (e + e) * 2 ^ k = e * 2 ^ (k + 1) by ring]

theorem le_two_pow_clog2 (m : ℕ) : m ≤ 2 ^ clog2 m := by
  unfold clog2
  rcases hf : (List.range (m + 1)).find? (fun k => m ≤ 2 ^ k) with _ | k
  · exfalso
    have hex : ∃ k ∈ List.range (m + 1), (fun k => decide (m ≤ 2 ^ k)) k = true := by
      refine ⟨m, List.mem_range.mpr (by omega), ?_⟩
      simp only [decide_eq_true_eq]
      exact Nat.le_of_lt (Nat.lt_two_pow m)
    have hsome := List.find?_isSome.mpr hex
    rw [hf] at hsome
    simp at hsome
  · have hp := List.find?_some hf
    simp only [decide_eq_true_eq] at hp
    simpa using hp

/-- Constructing the LCA structure on a valid rooted tree: construction
succeeds, the depth table is the tree depth, and row `k` of the ancestor
table is the `2^k`-fold iterated parent (the root clamping at itself). -/
theorem mkLCA_table {adj : List (List ℕ)} {root : ℕ} {par dep : ℕ → ℕ}
    (T : IsRootedTree adj root par dep) :
    ∃ s : LCAStruct, mkLCA adj root = some s ∧
      s.n = adj.length ∧ s.LOG = clog2 (max 2 adj.length) ∧ s.adj = adj ∧
      adj.length ≤ 2 ^ s.LOG ∧ 1 ≤ s.LOG ∧ s.depth.length = adj.length ∧
      (∀ v, v < adj.length → depthAt s (v : ℤ) = dep v) ∧
      (∀ k, k < s.LOG → ∀ v, v < adj.length →
        upAt s k (v : ℤ) = ((parIter par (2 ^ k) v : ℕ) : ℤ)) := by
  obtain ⟨row0, dp0, hdfs, hrl, hdl, hrow, hdp⟩ := lcaDfs_run T
  refine ⟨⟨adj.length, clog2 (max 2 adj.length),
      upRows adj.length (clog2 (max 2 adj.length)) row0, dp0, adj⟩,
    ?_, rfl, rfl, rfl, ?_, ?_, hdl, ?_, ?_⟩
  · have hmk : mkLCA adj root =
        (match lcaDfs adj (dfsBudget adj.length adj.length)
            [(root, root, adj.getD root [])]
            ((List.replicate adj.length (-1 : ℤ)).set root (root : ℤ),
              List.replicate adj.length 0) with
          | none => none
          | some (r0, d0) => some ⟨adj.length, clog2 (max 2 adj.length),
              upRows adj.length (clog2 (max 2 adj.length)) r0, d0, adj⟩) := rfl
    rw [hmk, hdfs]
  · exact le_trans (le_max_right 2 adj.length) (le_two_pow_clog2 (max 2 adj.length))
  · show 1 ≤ clog2 (max 2 adj.length)
    have h := le_two_pow_clog2 (max 2 adj.length)
    have h2 := le_max_left 2 adj.length
    by_contra h0
    have h00 : clog2 (max 2 adj.length) = 0 := by omega
    rw [h00, pow_zero] at h
    omega
  · intro v hv
    unfold depthAt
    dsimp only
    rw [Int.toNat_natCast]
    exact hdp v hv
  · intro k hk v hv
    unfold upAt
    dsimp only
    rw [Int.toNat_natCast]
    have hr1 : ∀ w, w < adj.length → row0.getD w (-1) = ((parIter par 1 w : ℕ) : ℤ) :=
      fun w hw => hrow w hw
    have h2 := upRows_getD_spec T (clog2 (max 2 adj.length)) row0 1 hr1 k hk v hv
    rw [h2, one_mul]

theorem clog2_max_pos (m : ℕ) : 1 ≤ clog2 (max 2 m) := by
  have h := le_two_pow_clog2 (max 2 m)
  have h2 := le_max_left 2 m
  by_contra h0
  have h00 : clog2 (max 2 m) = 0 := by omega
  rw [h00, pow_zero] at h
  omega

/-- The two-node tree `0 — 1` rooted at `0`, used to instantiate the
tree-indexed claims. -/
theorem two_node_tree :
    IsRootedTree [[1], [0]] 0 (fun _ => 0) (fun v => if v = 1 then 1 else 0) := by
  refine ⟨by decide, rfl, rfl, ?_, ?_, ?_, ?_⟩
  · intro v _
    decide
  · intro v hv hne
    simp only [List.length_cons, List.length_nil] at hv
    interval_cases v
    · exact absurd rfl hne
    · rfl
  · intro u hu v
    simp only [List.length_cons, List.length_nil] at hu
    interval_cases u <;> simp <;> omega
  · intro u hu
    simp only [List.length_cons, List.length_nil] at hu
    interval_cases u <;> decide

/-- **C7.** (corrected)  After LCA construction on a valid rooted tree, for
every level `k < LOG` and node `v`, `up[k][v]` is the `2^k`-fold iterated
parent of `v` with the chain clamping at the root (the root counts as its own
parent); in particular the sentinel `-1` never appears for any node. -/
theorem lca_up_table_spec {adj : List (List ℕ)} {root : ℕ} {par dep : ℕ → ℕ}
    (T : IsRootedTree adj root par dep) :
    ∃ s : LCAStruct, mkLCA adj root = some s ∧
      ∀ k, k < s.LOG → ∀ v, v < adj.length →
        upAt s k (v : ℤ) = ((parIter par (2 ^ k) v : ℕ) : ℤ) ∧
          upAt s k (v : ℤ) ≠ -1 := by
  obtain ⟨s, hmk, _, _, _, _, _, _, _, hup⟩ := mkLCA_table T
  refine ⟨s, hmk, fun k hk v hv => ⟨hup k hk v hv, ?_⟩⟩
  rw [hup k hk v hv]
  omega

/-- Witness for C7 on the two-node tree. -/
theorem lca_up_table_spec_witness :
    ∃ s : LCAStruct, mkLCA [[1], [0]] 0 = some s ∧
      ∀ k, k < s.LOG → ∀ v, v < ([[1], [0]] : List (List ℕ)).length →
        upAt s k (v : ℤ) = ((parIter (fun _ => 0) (2 ^ k) v : ℕ) : ℤ) ∧
          upAt s k (v : ℤ) ≠ -1 :=
  lca_up_table_spec two_node_tree

/-- **C5.** (corrected)  LCA construction performs no validity check: on every
edgeless graph (no node except the root is reachable), construction completes
silently and returns a table whose unvisited entries keep the sentinel `-1`;
a cyclic input aborts only through unbounded DFS recursion (modelled as budget
exhaustion), not through detection. -/
theorem lca_no_validation :
    (∀ m : ℕ, 1 ≤ m →
      ∃ s : LCAStruct, mkLCA (List.replicate m []) 0 = some s ∧
        ∀ v, v < m → v ≠ 0 → upAt s 0 (v : ℤ) = -1) ∧
    mkLCA [[1, 2], [0, 2], [0, 1]] 0 = none := by
  constructor
  · intro m hm
    have hlen : (List.replicate m ([] : List ℕ)).length = m := List.length_replicate m []
    have hmk : mkLCA (List.replicate m []) 0 =
        (match lcaDfs (List.replicate m [])
            (dfsBudget (List.replicate m ([] : List ℕ)).length
              (List.replicate m ([] : List ℕ)).length)
            [(0, 0, (List.replicate m ([] : List ℕ)).getD 0 [])]
            ((List.replicate (List.replicate m ([] : List ℕ)).length (-1 : ℤ)).set 0
                ((0 : ℕ) : ℤ),
              List.replicate (List.replicate m ([] : List ℕ)).length 0) with
          | none => none
          | some (r0, d0) => some ⟨(List.replicate m ([] : List ℕ)).length,
              clog2 (max 2 (List.replicate m ([] : List ℕ)).length),
              upRows (List.replicate m ([] : List ℕ)).length
                (clog2 (max 2 (List.replicate m ([] : List ℕ)).length)) r0,
              d0, List.replicate m []⟩) := rfl
    rw [hlen] at hmk
    rw [getD_replicate m 0 ([] : List ℕ)] at hmk
    obtain ⟨g, hg⟩ : ∃ g, dfsBudget m m = g + 1 :=
      ⟨dfsBudget m m - 1, by have := dfsBudget_pos m m; omega⟩
    have hrun : lcaDfs (List.replicate m []) (dfsBudget m m) [(0, 0, [])]
        ((List.replicate m (-1 : ℤ)).set 0 ((0 : ℕ) : ℤ), List.replicate m 0)
        = some ((List.replicate m (-1 : ℤ)).set 0 ((0 : ℕ) : ℤ), List.replicate m 0) := by
      rw [hg, lcaDfs_pop, lcaDfs_nil]
    rw [hrun] at hmk
    refine ⟨_, hmk, ?_⟩
    intro v hv hv0
    unfold upAt
    dsimp only
    obtain ⟨L, hL⟩ : ∃ L, clog2 (max 2 m) = L + 1 :=
      ⟨clog2 (max 2 m) - 1, by have := clog2_max_pos m; omega⟩
    rw [hL]
    have h0 : (upRows m (L + 1) ((List.replicate m (-1 : ℤ)).set 0 ((0 : ℕ) : ℤ))).getD 0 []
        = (List.replicate m (-1 : ℤ)).set 0 ((0 : ℕ) : ℤ) := rfl
    rw [h0, Int.toNat_natCast,
      getD_set_ne _ _ _ _ _ (fun h => hv0 h.symm), getD_replicate]
  · decide

/-- Witness for C5: on the edgeless two-node graph construction completes
with the sentinel for node 1, and on the 3-cycle it aborts. -/
theorem lca_no_validation_witness :
    (∃ s : LCAStruct, mkLCA (List.replicate 2 []) 0 = some s ∧
      ∀ v : ℕ, v < 2 → v ≠ 0 → upAt s 0 (v : ℤ) = -1) ∧
    mkLCA [[1, 2], [0, 2], [0, 1]] 0 = none :=
  ⟨lca_no_validation.1 2 (by decide), lca_no_validation.2⟩

theorem parIter_eq_persist (par : ℕ → ℕ) (x y i : ℕ)
    (h : parIter par i x = parIter par i y) :
    ∀ j, i ≤ j → parIter par j x = parIter par j y := by
  intro j hij
  obtain ⟨d, rfl⟩ : ∃ d, j = d + i := ⟨j - i, by omega⟩
  rw [parIter_add, parIter_add, h]

/-- The depth-equalising stage of `query` (LCA.ts:32): folding the jump table
over `k = 0 … K-1` lifts the node by `diff mod 2^K` parent steps. -/
theorem lca_lift_fold {adj : List (List ℕ)} {root : ℕ} {par dep : ℕ → ℕ}
    (T : IsRootedTree adj root par dep) (s : LCAStruct)
    (hup : ∀ k, k < s.LOG → ∀ v, v < adj.length →
      upAt s k (v : ℤ) = ((parIter par (2 ^ k) v : ℕ) : ℤ))
    (D : ℕ) :
    ∀ K, K ≤ s.LOG → ∀ x : ℕ, x < adj.length →
      (List.range K).foldl (fun c k => if D.testBit k then upAt s k c else c) (x : ℤ)
        = ((parIter par (D % 2 ^ K) x : ℕ) : ℤ) := by
  intro K
  induction K with
  | zero =>
    intro _ x _
    simp only [List.range_zero, List.foldl_nil, pow_zero, Nat.mod_one]
    rfl
  | succ K ih =>
    intro hK x hx
    rw [List.range_succ, List.foldl_append, List.foldl_cons, List.foldl_nil]
    rw [ih (by omega) x hx]
    have hmm : D % 2 ^ (K + 1) = D % 2 ^ K + 2 ^ K * (D / 2 ^ K % 2) := by
      rw [pow_succ, Nat.mod_mul]
    have hbit : D.testBit K = decide (D / 2 ^ K % 2 = 1) := Nat.testBit_to_div_mod
    by_cases hb : D.testBit K
    · rw [if_pos hb]
      have hb1 : D / 2 ^ K % 2 = 1 := by
        rw [hbit] at hb
        exact of_decide_eq_true hb
      rw [hb1] at hmm
      rw [hup K (by omega) (parIter par (D % 2 ^ K) x) (tree_parIter_lt T _ x hx),
        ← parIter_add, show 2 ^ K + D % 2 ^ K = D % 2 ^ (K + 1) by omega]
    · rw [if_neg hb]
      have hb0 : D / 2 ^ K % 2 = 0 := by
        rw [hbit] at hb
        simp only [decide_eq_true_eq] at hb
        omega
      rw [hb0] at hmm
      rw [show D % 2 ^ K = D % 2 ^ (K + 1) by omega]

/-- The binary-search stage of `query` (LCA.ts:34-39): starting from two
distinct same-depth nodes whose meet index is `j0`, folding the jump table
downward lands exactly one step below the meet. -/
theorem lca_meet_fold {adj : List (List ℕ)} {root : ℕ} {par dep : ℕ → ℕ}
    (T : IsRootedTree adj root par dep) (s : LCAStruct)
    (hup : ∀ k, k < s.LOG → ∀ v, v < adj.length →
      upAt s k (v : ℤ) = ((parIter par (2 ^ k) v : ℕ) : ℤ))
    (x0 y0 : ℕ) (hx0 : x0 < adj.length) (hy0 : y0 < adj.length) (j0 : ℕ)
    (hj0eq : parIter par j0 x0 = parIter par j0 y0)
    (hj0min : ∀ i, i < j0 → parIter par i x0 ≠ parIter par i y0) :
    ∀ K, K ≤ s.LOG → ∀ t x1 y1 : ℕ,
      x1 = parIter par t x0 → y1 = parIter par t y0 →
      t + 1 ≤ j0 → j0 ≤ t + 2 ^ K →
      (List.range K).reverse.foldl
        (fun (pr : ℤ × ℤ) k =>
          if upAt s k pr.1 ≠ upAt s k pr.2 then (upAt s k pr.1, upAt s k pr.2) else pr)
        ((x1 : ℤ), (y1 : ℤ))
        = (((parIter par (j0 - 1) x0 : ℕ) : ℤ), ((parIter par (j0 - 1) y0 : ℕ) : ℤ)) := by
  intro K
  induction K with
  | zero =>
    intro _ t x1 y1 hx1 hy1 h1 h2
    have h20 : (2 : ℕ) ^ 0 = 1 := pow_zero 2
    have ht : t = j0 - 1 := by omega
    simp only [List.range_zero, List.reverse_nil, List.foldl_nil]
    rw [hx1, hy1, ht]
  | succ K ih =>
    intro hK t x1 y1 hx1 hy1 h1 h2
    simp only [List.range_succ, List.reverse_append, List.reverse_cons, List.reverse_nil,
      List.nil_append, List.singleton_append, List.foldl_cons]
    have hxt : x1 < adj.length := by
      rw [hx1]
      exact tree_parIter_lt T _ _ hx0
    have hyt : y1 < adj.length := by
      rw [hy1]
      exact tree_parIter_lt T _ _ hy0
    rw [hup K (by omega) x1 hxt, hup K (by omega) y1 hyt, hx1, hy1,
      ← parIter_add, ← parIter_add]
    by_cases hjump : t + 2 ^ K < j0
    · have hne : ((parIter par (2 ^ K + t) x0 : ℕ) : ℤ)
          ≠ ((parIter par (2 ^ K + t) y0 : ℕ) : ℤ) := by
        intro h
        have h2e : parIter par (2 ^ K + t) x0 = parIter par (2 ^ K + t) y0 := by
          exact_mod_cast h
        exact hj0min (2 ^ K + t) (by omega) h2e
      rw [if_pos hne]
      exact ih (by omega) (2 ^ K + t) _ _ rfl rfl (by omega) (by omega)
    · have heq2 : parIter par (2 ^ K + t) x0 = parIter par (2 ^ K + t) y0 :=
        parIter_eq_persist par x0 y0 j0 hj0eq (2 ^ K + t) (by omega)
      have hnn : ¬ (((parIter par (2 ^ K + t) x0 : ℕ) : ℤ)
          ≠ ((parIter par (2 ^ K + t) y0 : ℕ) : ℤ)) := by
        rw [heq2]
        exact fun h => h rfl
      rw [if_neg hnn]
      exact ih (by omega) t _ _ rfl rfl h1 (by omega)

/-- `query` on a valid tree, for the unswapped argument order (first argument
at least as deep): the returned value is the lowest common ancestor. -/
theorem lcaQuery_core {adj : List (List ℕ)} {root : ℕ} {par dep : ℕ → ℕ}
    (T : IsRootedTree adj root par dep) (s : LCAStruct)
    (hN : adj.length ≤ 2 ^ s.LOG) (hL1 : 1 ≤ s.LOG)
    (hdep : ∀ v, v < adj.length → depthAt s (v : ℤ) = dep v)
    (hup : ∀ k, k < s.LOG → ∀ v, v < adj.length →
      upAt s k (v : ℤ) = ((parIter par (2 ^ k) v : ℕ) : ℤ))
    (x y : ℕ) (hx : x < adj.length) (hy : y < adj.length) (hyx : dep y ≤ dep x) :
    ∃ w : ℕ, lcaQuery s x y = (w : ℤ) ∧ w < adj.length ∧
      IsAncestor par w x ∧ IsAncestor par w y ∧
      (∀ w2, w2 < adj.length → IsAncestor par w w2 → w2 ≠ w →
        ¬ (IsAncestor par w2 x ∧ IsAncestor par w2 y)) := by
  have hns : ¬ depthAt s (x : ℤ) < depthAt s (y : ℤ) := by
    rw [hdep x hx, hdep y hy]
    omega
  have hdx : dep x < adj.length := tree_dep_lt T x hx
  have hDlt : dep x - dep y < 2 ^ s.LOG := by omega
  have hlift := lca_lift_fold T s hup (dep x - dep y) s.LOG le_rfl x hx
  rw [Nat.mod_eq_of_lt hDlt] at hlift
  have hx0lt : parIter par (dep x - dep y) x < adj.length := tree_parIter_lt T _ x hx
  have hdx0 : dep (parIter par (dep x - dep y) x) = dep y := by
    rw [tree_dep_chain T _ x hx (by omega)]
    omega
  have hPex : parIter par (dep y) (parIter par (dep x - dep y) x)
      = parIter par (dep y) y := by
    rw [← parIter_add, show dep y + (dep x - dep y) = dep x from by omega,
      tree_parIter_dep_root T x hx, tree_parIter_dep_root T y hy]
  have hex : ∃ i, parIter par i (parIter par (dep x - dep y) x) = parIter par i y :=
    ⟨dep y, hPex⟩
  have hJ := Nat.find_spec hex
  have hJmin : ∀ i, i < Nat.find hex →
      parIter par i (parIter par (dep x - dep y) x) ≠ parIter par i y :=
    fun i hi => Nat.find_min hex hi
  have hJle : Nat.find hex ≤ dep y := Nat.find_min' hex hPex
  have hdy : dep y < adj.length := tree_dep_lt T y hy
  simp only [lcaQuery]
  rw [if_neg hns]
  dsimp only
  rw [hdep x hx, hdep y hy, hlift]
  by_cases hbr : ((parIter par (dep x - dep y) x : ℕ) : ℤ) = (y : ℤ)
  · rw [if_pos hbr]
    have hx0y : parIter par (dep x - dep y) x = y := by exact_mod_cast hbr
    refine ⟨parIter par (dep x - dep y) x, rfl, hx0lt,
      ⟨dep x - dep y, rfl⟩, ⟨0, hx0y.symm⟩, ?_⟩
    intro w2 hw2lt hancw2 hne h
    have hancy : IsAncestor par w2 (parIter par (dep x - dep y) x) := by
      rw [hx0y]
      exact h.2
    exact hne (tree_anc_antisymm T w2 _ hw2lt hx0lt hancy hancw2)
  · rw [if_neg hbr]
    have hJpos : 1 ≤ Nat.find hex := by
      rcases Nat.eq_zero_or_pos (Nat.find hex) with h0 | h
      · exfalso
        have h1 := hJ
        rw [h0] at h1
        exact hbr (by exact_mod_cast h1)
      · exact h
    have hmeet := lca_meet_fold T s hup (parIter par (dep x - dep y) x) y hx0lt hy
      (Nat.find hex) hJ hJmin s.LOG le_rfl 0 (parIter par (dep x - dep y) x) y
      rfl rfl (by omega) (by omega)
    rw [hmeet]
    dsimp only
    have hwm1lt : parIter par (Nat.find hex - 1) (parIter par (dep x - dep y) x)
        < adj.length := tree_parIter_lt T _ _ hx0lt
    rw [hup 0 hL1 _ hwm1lt, pow_zero, ← parIter_add,
      show 1 + (Nat.find hex - 1) = Nat.find hex from by omega]
    refine ⟨parIter par (Nat.find hex) (parIter par (dep x - dep y) x), rfl,
      tree_parIter_lt T _ _ hx0lt, ?_, ?_, ?_⟩
    · refine ⟨Nat.find hex + (dep x - dep y), ?_⟩
      rw [parIter_add]
    · exact ⟨Nat.find hex, hJ.symm⟩
    · intro w2 hw2lt hancw2 hne h
      obtain ⟨hax, hay⟩ := h
      obtain ⟨i1, hi1le, hi1⟩ := tree_anc_norm T w2 x hx hax
      obtain ⟨i2, hi2le, hi2⟩ := tree_anc_norm T w2 y hy hay
      have hd1 := tree_dep_chain T i1 x hx hi1le
      have hd2 := tree_dep_chain T i2 y hy hi2le
      rw [hi1] at hd1
      rw [hi2] at hd2
      have hi12 : i1 = i2 + (dep x - dep y) := by omega
      have hw2x0 : parIter par i2 (parIter par (dep x - dep y) x) = w2 := by
        rw [← parIter_add, ← hi12, hi1]
      have hPi2 : parIter par i2 (parIter par (dep x - dep y) x) = parIter par i2 y := by
        rw [hw2x0, hi2]
      have hJle2 : Nat.find hex ≤ i2 := Nat.find_min' hex hPi2
      have hanc2 : IsAncestor par w2
          (parIter par (Nat.find hex) (parIter par (dep x - dep y) x)) := by
        refine ⟨i2 - Nat.find hex, ?_⟩
        rw [← parIter_add, show i2 - Nat.find hex + Nat.find hex = i2 from by omega]
        exact hw2x0
      exact hne (tree_anc_antisymm T w2 _ hw2lt (tree_parIter_lt T _ _ hx0lt)
        hanc2 hancw2)

/-- **C3.** For every valid rooted tree and every pair of in-range node ids
`(u, v)`, `query(u, v)` returns a node that is an ancestor of both `u` and
`v`, no proper descendant of which is an ancestor of both; and
`query(u, u) = u`. -/
theorem lca_query_correct {adj : List (List ℕ)} {root : ℕ} {par dep : ℕ → ℕ}
    (T : IsRootedTree adj root par dep)
    (u0 v0 : ℕ) (hu : u0 < adj.length) (hv : v0 < adj.length) :
    ∃ (s : LCAStruct) (w : ℕ), mkLCA adj root = some s ∧
      lcaQuery s u0 v0 = (w : ℤ) ∧ w < adj.length ∧
      IsAncestor par w u0 ∧ IsAncestor par w v0 ∧
      (∀ w2, w2 < adj.length → IsAncestor par w w2 → w2 ≠ w →
        ¬ (IsAncestor par w2 u0 ∧ IsAncestor par w2 v0)) ∧
      lcaQuery s u0 u0 = (u0 : ℤ) := by
  obtain ⟨s, hmk, hsn, hsL, hsadj, hN, hL1, hdl, hdep, hup⟩ := mkLCA_table T
  have hself : lcaQuery s u0 u0 = (u0 : ℤ) := by
    obtain ⟨w, hval, hwlt, hancu, _, hmax⟩ :=
      lcaQuery_core T s hN hL1 hdep hup u0 u0 hu hu le_rfl
    by_cases hwu : w = u0
    · rw [hval, hwu]
    · exact absurd ⟨⟨0, rfl⟩, ⟨0, rfl⟩⟩ (hmax u0 hu hancu (fun h => hwu h.symm))
  by_cases hsw : depthAt s (u0 : ℤ) < depthAt s (v0 : ℤ)
  · have hord : dep u0 ≤ dep v0 := by
      rw [hdep u0 hu, hdep v0 hv] at hsw
      omega
    obtain ⟨w, hval, hwlt, hancx, hancy, hmax⟩ :=
      lcaQuery_core T s hN hL1 hdep hup v0 u0 hv hu hord
    have hsym : lcaQuery s u0 v0 = lcaQuery s v0 u0 := by
      have hns2 : ¬ depthAt s (v0 : ℤ) < depthAt s (u0 : ℤ) := by omega
      simp only [lcaQuery]
      rw [if_pos hsw, if_neg hns2]
    refine ⟨s, w, hmk, ?_, hwlt, hancy, hancx, ?_, hself⟩
    · rw [hsym, hval]
    · intro w2 hw2 ha hne hcontra
      exact hmax w2 hw2 ha hne ⟨hcontra.2, hcontra.1⟩
  · have hord : dep v0 ≤ dep u0 := by
      rw [hdep u0 hu, hdep v0 hv] at hsw
      omega
    obtain ⟨w, hval, hwlt, hancx, hancy, hmax⟩ :=
      lcaQuery_core T s hN hL1 hdep hup u0 v0 hu hv hord
    exact ⟨s, w, hmk, hval, hwlt, hancx, hancy, hmax, hself⟩

/-- Witness for C3 on the two-node tree with the query pair `(1, 0)`. -/
theorem lca_query_correct_witness :
    ∃ (s : LCAStruct) (w : ℕ), mkLCA [[1], [0]] 0 = some s ∧
      lcaQuery s 1 0 = (w : ℤ) ∧ w < ([[1], [0]] : List (List ℕ)).length ∧
      IsAncestor (fun _ => 0) w 1 ∧ IsAncestor (fun _ => 0) w 0 ∧
      (∀ w2, w2 < ([[1], [0]] : List (List ℕ)).length → IsAncestor (fun _ => 0) w w2 →
        w2 ≠ w → ¬ (IsAncestor (fun _ => 0) w2 1 ∧ IsAncestor (fun _ => 0) w2 0)) ∧
      lcaQuery s 1 1 = ((1 : ℕ) : ℤ) :=
  lca_query_correct two_node_tree 1 0 (by decide) (by decide)

/-! ## Claim C2: toolkit for the A* proof -/

theorem aget_cons {β : Type} (k' : Cell) (v' : β) (t : List (Cell × β)) (k : Cell) :
    aget ((k', v') :: t) k = if k' = k then some v' else aget t k := by
  by_cases h : k' = k
  · rw [if_pos h]
    unfold aget
    rw [List.find?_cons_of_pos _ (by simp [h])]
    rfl
  · rw [if_neg h]
    unfold aget
    rw [List.find?_cons_of_neg _ (by simp [h])]

theorem aset_nil {β : Type} (k : Cell) (v : β) :
    aset ([] : List (Cell × β)) k v = [(k, v)] := rfl

theorem aset_cons {β : Type} (k' : Cell) (v' : β) (t : List (Cell × β)) (k : Cell) (v : β) :
    aset ((k', v') :: t) k v =
      if k' == k then (k, v) :: t else (k', v') :: aset t k v := rfl

theorem aget_aset_self {β : Type} (m : List (Cell × β)) (k : Cell) (v : β) :
    aget (aset m k v) k = some v := by
  induction m with
  | nil =>
    rw [aset_nil, aget_cons, if_pos rfl]
  | cons p t ih =>
    rcases p with ⟨k', v'⟩
    rw [aset_cons]
    by_cases h : k' = k
    · rw [if_pos (by simp [h]), aget_cons, if_pos rfl]
    · rw [if_neg (by simp [h]), aget_cons, if_neg h]
      exact ih

theorem aget_aset_ne {β : Type} (m : List (Cell × β)) (k k2 : Cell) (v : β)
    (hne : k2 ≠ k) : aget (aset m k v) k2 = aget m k2 := by
  induction m with
  | nil =>
    rw [aset_nil, aget_cons, if_neg (fun h => hne h.symm)]
  | cons p t ih =>
    rcases p with ⟨k', v'⟩
    rw [aset_cons]
    by_cases h : k' = k
    · subst h
      have hne2 : ¬ k' = k2 := fun hh => hne hh.symm
      rw [if_pos (by simp), aget_cons, aget_cons, if_neg hne2, if_neg hne2]
    · rw [if_neg (by simp [h]), aget_cons, aget_cons]
      by_cases h2 : k' = k2
      · rw [if_pos h2, if_pos h2]
      · rw [if_neg h2, if_neg h2]
        exact ih

theorem aset_length_fresh {β : Type} (m : List (Cell × β)) (k : Cell) (v : β)
    (h : aget m k = none) : (aset m k v).length = m.length + 1 := by
  induction m with
  | nil => rfl
  | cons p t ih =>
    rcases p with ⟨k', v'⟩
    rw [aget_cons] at h
    by_cases hk : k' = k
    · rw [if_pos hk] at h
      cases h
    · rw [if_neg hk] at h
      rw [aset_cons, if_neg (by simp [hk])]
      simp only [List.length_cons, ih h]

theorem aset_length_stay {β : Type} (m : List (Cell × β)) (k : Cell) (v old : β)
    (h : aget m k = some old) : (aset m k v).length = m.length := by
  induction m with
  | nil => cases h
  | cons p t ih =>
    rcases p with ⟨k', v'⟩
    rw [aget_cons] at h
    by_cases hk : k' = k
    · rw [aset_cons, if_pos (by simp [hk])]
      simp
    · rw [if_neg hk] at h
      rw [aset_cons, if_neg (by simp [hk])]
      simp only [List.length_cons, ih h]

theorem aset_sum_fresh (m : List (Cell × ℕ)) (k : Cell) (v : ℕ)
    (h : aget m k = none) :
    ((aset m k v).map Prod.snd).sum = (m.map Prod.snd).sum + v := by
  induction m with
  | nil => simp [aset_nil]
  | cons p t ih =>
    rcases p with ⟨k', v'⟩
    rw [aget_cons] at h
    by_cases hk : k' = k
    · rw [if_pos hk] at h
      cases h
    · rw [if_neg hk] at h
      rw [aset_cons, if_neg (by simp [hk])]
      simp only [List.map_cons, List.sum_cons, ih h]
      omega

theorem aset_sum_overwrite (m : List (Cell × ℕ)) (k : Cell) (v old : ℕ)
    (h : aget m k = some old) :
    ((aset m k v).map Prod.snd).sum + old = (m.map Prod.snd).sum + v := by
  induction m with
  | nil =>
    rw [show aget ([] : List (Cell × ℕ)) k = none from rfl] at h
    cases h
  | cons p t ih =>
    rcases p with ⟨k', v'⟩
    rw [aget_cons] at h
    by_cases hk : k' = k
    · rw [if_pos hk] at h
      cases h
      rw [aset_cons, if_pos (by simp [hk])]
      simp only [List.map_cons, List.sum_cons]
      omega
    · rw [if_neg hk] at h
      rw [aset_cons, if_neg (by simp [hk])]
      simp only [List.map_cons, List.sum_cons]
      have := ih h
      omega

theorem aset_mem {β : Type} (m : List (Cell × β)) (k : Cell) (v : β) :
    ∀ e ∈ aset m k v, e = (k, v) ∨ e ∈ m := by
  induction m with
  | nil =>
    intro e he
    rw [aset_nil] at he
    simp at he
    exact Or.inl he
  | cons p t ih =>
    rcases p with ⟨k', v'⟩
    intro e he
    rw [aset_cons] at he
    by_cases h : k' = k
    · rw [if_pos (by simp [h])] at he
      rcases List.mem_cons.mp he with rfl | he2
      · exact Or.inl rfl
      · exact Or.inr (List.mem_cons_of_mem _ he2)
    · rw [if_neg (by simp [h])] at he
      rcases List.mem_cons.mp he with rfl | he2
      · exact Or.inr (List.mem_cons_self _ _)
      · rcases ih e he2 with h1 | h1
        · exact Or.inl h1
        · exact Or.inr (List.mem_cons_of_mem _ h1)

theorem aset_keys_nodup {β : Type} (m : List (Cell × β)) (k : Cell) (v : β)
    (h : (m.map Prod.fst).Nodup) : ((aset m k v).map Prod.fst).Nodup := by
  induction m with
  | nil =>
    rw [aset_nil]
    simp
  | cons p t ih =>
    rcases p with ⟨k', v'⟩
    rw [aset_cons]
    simp only [List.map_cons, List.nodup_cons] at h
    by_cases hk : k' = k
    · rw [if_pos (by simp [hk])]
      simp only [List.map_cons, List.nodup_cons]
      rw [← hk]
      exact h
    · rw [if_neg (by simp [hk])]
      simp only [List.map_cons, List.nodup_cons]
      constructor
      · intro hmem
        rw [List.mem_map] at hmem
        obtain ⟨e, he, hke⟩ := hmem
        rcases aset_mem t k v e he with rfl | h2
        · exact hk hke.symm
        · exact h.1 (List.mem_map.mpr ⟨e, h2, hke⟩)
      · exact ih h.2

theorem aget_adel_self {β : Type} (m : List (Cell × β)) (k : Cell) :
    aget (adel m k) k = none := by
  unfold aget adel
  rcases hf : (m.filter (fun p => !(p.1 == k))).find? (fun p => p.1 == k) with _ | p
  · rw [hf]
    rfl
  · exfalso
    have hmem := List.mem_of_find?_eq_some hf
    have hp := List.find?_some hf
    rw [List.mem_filter] at hmem
    rw [hp] at hmem
    simp at hmem

theorem aget_adel_ne {β : Type} (m : List (Cell × β)) (k k2 : Cell) (h : k2 ≠ k) :
    aget (adel m k) k2 = aget m k2 := by
  induction m with
  | nil => rfl
  | cons p t ih =>
    rcases p with ⟨k', v'⟩
    show aget (List.filter _ ((k', v') :: t)) k2 = _
    rw [List.filter_cons]
    by_cases hk : k' = k
    · rw [if_neg (by simp [hk]), aget_cons, if_neg (by rw [hk]; exact fun hh => h hh.symm)]
      exact ih
    · rw [if_pos (by simp [hk]), aget_cons, aget_cons]
      by_cases h2 : k' = k2
      · rw [if_pos h2, if_pos h2]
      · rw [if_neg h2, if_neg h2]
        exact ih

theorem adel_length {β : Type} (m : List (Cell × β)) (k : Cell)
    (hnd : (m.map Prod.fst).Nodup) (h : aget m k ≠ none) :
    (adel m k).length + 1 = m.length := by
  induction m with
  | nil => exact absurd rfl h
  | cons p t ih =>
    rcases p with ⟨k', v'⟩
    simp only [List.map_cons, List.nodup_cons] at hnd
    rw [aget_cons] at h
    show (List.filter _ ((k', v') :: t)).length + 1 = _
    rw [List.filter_cons]
    by_cases hk : k' = k
    · rw [if_neg (by simp [hk])]
      have : adel t k = t := by
        unfold adel
        apply List.filter_eq_self.mpr
        intro e he
        simp only [Bool.not_eq_true']
        rw [beq_eq_false_iff_ne]
        intro he2
        exact hnd.1 (List.mem_map.mpr ⟨e, he, by rw [he2, hk]⟩)
      show (adel t k).length + 1 = t.length + 1
      rw [this]
    · rw [if_pos (by simp [hk])]
      rw [if_neg hk] at h
      have h2 := ih hnd.2 h
      show (adel t k).length + 1 + 1 = t.length + 1
      omega

theorem adel_keys_nodup {β : Type} (m : List (Cell × β)) (k : Cell)
    (h : (m.map Prod.fst).Nodup) : ((adel m k).map Prod.fst).Nodup :=
  h.sublist (List.Sublist.map _ (List.filter_sublist m))

theorem adel_mem {β : Type} (m : List (Cell × β)) (k : Cell) :
    ∀ e ∈ adel m k, e ∈ m := fun e he => (List.mem_filter.mp he).1

theorem mem_of_aget {β : Type} (m : List (Cell × β)) (k : Cell) (v : β)
    (h : aget m k = some v) : (k, v) ∈ m := by
  unfold aget at h
  rcases hf : m.find? (fun p => p.1 == k) with _ | p
  · rw [hf] at h
    cases h
  · rw [hf] at h
    have hp := List.find?_some hf
    have hmem := List.mem_of_find?_eq_some hf
    simp only [beq_iff_eq] at hp
    have h2 : p.2 = v := by
      simpa using h
    rcases p with ⟨pk, pv⟩
    cases hp
    cases h2
    exact hmem

theorem aget_of_mem {β : Type} (m : List (Cell × β)) (e : Cell × β)
    (hnd : (m.map Prod.fst).Nodup) (he : e ∈ m) : aget m e.1 = some e.2 := by
  induction m with
  | nil => cases he
  | cons p t ih =>
    rcases p with ⟨k', v'⟩
    simp only [List.map_cons, List.nodup_cons] at hnd
    rw [aget_cons]
    rcases List.mem_cons.mp he with rfl | he2
    · rw [if_pos rfl]
    · by_cases hk : k' = e.1
      · exfalso
        exact hnd.1 (List.mem_map.mpr ⟨e, he2, hk.symm⟩)
      · rw [if_neg hk]
        exact ih hnd.2 he2

theorem selectMin_spec (m : List (Cell × ℕ)) (h : m ≠ []) :
    ∃ cf, selectMin m = some cf ∧ cf ∈ m ∧ ∀ q ∈ m, cf.2 ≤ q.2 := by
  have H : ∀ (l : List (Cell × ℕ)) (a : Cell × ℕ),
      ∃ cf, l.foldl (fun acc p =>
          match acc with
          | none => some p
          | some q => if p.2 < q.2 then some p else some q) (some a) = some cf ∧
        (cf = a ∨ cf ∈ l) ∧ cf.2 ≤ a.2 ∧ ∀ q ∈ l, cf.2 ≤ q.2 := by
    intro l
    induction l with
    | nil =>
      intro a
      exact ⟨a, rfl, Or.inl rfl, le_refl _, fun q hq => absurd hq (List.not_mem_nil q)⟩
    | cons p t ih =>
      intro a
      rw [List.foldl_cons]
      by_cases hlt : p.2 < a.2
      · have hstep : (match some a with
            | none => some p
            | some q => if p.2 < q.2 then some p else some q) = some p := by
          dsimp only
          rw [if_pos hlt]
        rw [hstep]
        obtain ⟨cf, h1, h2, h3, h4⟩ := ih p
        refine ⟨cf, h1, ?_, by omega, ?_⟩
        · rcases h2 with rfl | h2
          · exact Or.inr (List.mem_cons_self _ _)
          · exact Or.inr (List.mem_cons_of_mem _ h2)
        · intro q hq
          rcases List.mem_cons.mp hq with rfl | hq2
          · exact h3
          · exact h4 q hq2
      · have hstep : (match some a with
            | none => some p
            | some q => if p.2 < q.2 then some p else some q) = some a := by
          dsimp only
          rw [if_neg hlt]
        rw [hstep]
        obtain ⟨cf, h1, h2, h3, h4⟩ := ih a
        refine ⟨cf, h1, ?_, h3, ?_⟩
        · rcases h2 with rfl | h2
          · exact Or.inl rfl
          · exact Or.inr (List.mem_cons_of_mem _ h2)
        · intro q hq
          rcases List.mem_cons.mp hq with rfl | hq2
          · omega
          · exact h4 q hq2
  match m, h with
  | p :: t, _ =>
    obtain ⟨cf, h1, h2, h3, h4⟩ := H t p
    refine ⟨cf, ?_, ?_, ?_⟩
    · unfold selectMin
      rw [List.foldl_cons]
      exact h1
    · rcases h2 with rfl | h2
      · exact List.mem_cons_self _ _
      · exact List.mem_cons_of_mem _ h2
    · intro q hq
      rcases List.mem_cons.mp hq with rfl | hq2
      · exact h3
      · exact h4 q hq2

theorem cellAdj_dirs (a b : Cell) (h : cellAdj a b) :
    ∃ d ∈ dirs, b = (a.1 + d.1, a.2 + d.2) := by
  unfold cellAdj at h
  have h4 : (b.1 = a.1 + 1 ∧ b.2 = a.2) ∨ (b.1 = a.1 - 1 ∧ b.2 = a.2)
      ∨ (b.2 = a.2 + 1 ∧ b.1 = a.1) ∨ (b.2 = a.2 - 1 ∧ b.1 = a.1) := by
    omega
  rcases h4 with ⟨h1, h2⟩ | ⟨h1, h2⟩ | ⟨h1, h2⟩ | ⟨h1, h2⟩
  · exact ⟨(1, 0), by simp [dirs], by rw [Prod.ext_iff]; constructor <;> simp <;> omega⟩
  · exact ⟨(-1, 0), by simp [dirs], by rw [Prod.ext_iff]; constructor <;> simp <;> omega⟩
  · exact ⟨(0, 1), by simp [dirs], by rw [Prod.ext_iff]; constructor <;> simp <;> omega⟩
  · exact ⟨(0, -1), by simp [dirs], by rw [Prod.ext_iff]; constructor <;> simp <;> omega⟩

theorem dirs_cellAdj (a : Cell) (d : ℤ × ℤ) (hd : d ∈ dirs) :
    cellAdj a (a.1 + d.1, a.2 + d.2) := by
  fin_cases hd <;> (unfold cellAdj; simp)

theorem manhattan_self (a : Cell) : manhattan a a = 0 := by
  simp [manhattan]

theorem manhattan_adj (a u v : Cell) (h : cellAdj u v) :
    manhattan a v ≤ manhattan a u + 1 := by
  unfold cellAdj at h
  unfold manhattan
  omega

theorem manhattan_le_walk {grid : List (List ℕ)} {R C : ℕ} {a : Cell} :
    ∀ {b : Cell} {k : ℕ}, GWalk grid R C a b k → manhattan a b ≤ k := by
  intro b k w
  induction w with
  | nil _ _ => rw [manhattan_self]
  | cons w1 hadj _ _ ih =>
    have := manhattan_adj a _ _ hadj
    omega

theorem gwalk_end {grid : List (List ℕ)} {R C : ℕ} {s : Cell} :
    ∀ {t : Cell} {k : ℕ}, GWalk grid R C s t k → inBounds R C t ∧ freeCell grid t := by
  intro t k w
  cases w with
  | nil hb hf => exact ⟨hb, hf⟩
  | cons _ _ hb hf => exact ⟨hb, hf⟩

theorem gwalk_append {grid : List (List ℕ)} {R C : ℕ} {a b : Cell} :
    ∀ {c : Cell} {i j : ℕ}, GWalk grid R C a b i → GWalk grid R C b c j →
      GWalk grid R C a c (i + j) := by
  intro c i j w1 w2
  induction w2 with
  | nil _ _ => exact w1
  | cons w2x hadj hb hf ih => exact GWalk.cons ih hadj hb hf

theorem gwalk_split {grid : List (List ℕ)} {R C : ℕ} {s : Cell} :
    ∀ {t : Cell} {k : ℕ}, GWalk grid R C s t k → ∀ j, j ≤ k →
      ∃ m, GWalk grid R C s m (k - j) ∧ GWalk grid R C m t j := by
  intro t k w
  induction w with
  | nil hb hf =>
    intro j hj
    have hj0 : j = 0 := by omega
    subst hj0
    exact ⟨s, GWalk.nil hb hf, GWalk.nil hb hf⟩
  | cons w1 hadj hb hf ih =>
    intro j hj
    match j with
    | 0 => exact ⟨_, GWalk.cons w1 hadj hb hf, GWalk.nil hb hf⟩
    | j' + 1 =>
      obtain ⟨m, hm1, hm2⟩ := ih j' (by omega)
      exact ⟨m, by rw [Nat.succ_sub_succ]; exact hm1, GWalk.cons hm2 hadj hb hf⟩

theorem gwalk_one {grid : List (List ℕ)} {R C : ℕ} {a b : Cell}
    (w : GWalk grid R C a b 1) :
    cellAdj a b ∧ inBounds R C b ∧ freeCell grid b := by
  cases w with
  | cons w1 hadj hb hf =>
    cases w1 with
    | nil _ _ => exact ⟨hadj, hb, hf⟩

theorem gwalk_zero {grid : List (List ℕ)} {R C : ℕ} {a : Cell} :
    ∀ {b : Cell}, GWalk grid R C a b 0 → b = a := by
  intro b w
  cases w with
  | nil _ _ => rfl

theorem inbounds_list_card {β : Type} (R C : ℕ) (l : List (Cell × β))
    (hnd : (l.map Prod.fst).Nodup) (hin : ∀ e ∈ l, inBounds R C e.1) :
    l.length ≤ R * C := by
  classical
  have hkin : ∀ c ∈ (l.map Prod.fst).toFinset, inBounds R C c := by
    intro c hc
    rw [List.mem_toFinset, List.mem_map] at hc
    obtain ⟨e, he, rfl⟩ := hc
    exact hin e he
  have hmaps : ∀ c ∈ (l.map Prod.fst).toFinset,
      (fun c : Cell => (c.1.toNat, c.2.toNat)) c ∈ Finset.range R ×ˢ Finset.range C := by
    intro c hc
    obtain ⟨h1, h2, h3, h4⟩ := hkin c hc
    rw [Finset.mem_product, Finset.mem_range, Finset.mem_range]
    constructor <;> [skip; skip] <;> simp only [] <;> omega
  have hinj : Set.InjOn (fun c : Cell => (c.1.toNat, c.2.toNat))
      ↑(l.map Prod.fst).toFinset := by
    intro a ha b hb heq
    rw [Finset.mem_coe] at ha hb
    obtain ⟨ha1, ha2, _, _⟩ := hkin a ha
    obtain ⟨hb1, hb2, _, _⟩ := hkin b hb
    rw [Prod.ext_iff] at heq ⊢
    simp only [] at heq
    obtain ⟨he1, he2⟩ := heq
    constructor <;> omega
  have hcard := Finset.card_le_card_of_injOn _ hmaps hinj
  rw [List.toFinset_card_of_nodup hnd, Finset.card_product,
    Finset.card_range, Finset.card_range] at hcard
  rw [← List.length_map l Prod.fst]
  exact hcard

theorem nat_exists_least (P : ℕ → Prop) (h : ∃ n, P n) :
    ∃ n, P n ∧ ∀ m, P m → n ≤ m := by
  suffices H : ∀ n, P n → ∃ n2, P n2 ∧ ∀ m, P m → n2 ≤ m by
    obtain ⟨n, hn⟩ := h
    exact H n hn
  intro n
  induction n using Nat.strong_induction_on with
  | _ n ih =>
    intro hn
    by_cases h2 : ∃ m, m < n ∧ P m
    · obtain ⟨m, hm1, hm2⟩ := h2
      exact ih m hm1 hm2
    · exact ⟨n, hn, fun m hm => not_lt.mp (fun hlt => h2 ⟨m, hlt, hm⟩)⟩

/-- One neighbour-expansion step preserves the (cur-exempted) invariant, never
increases the measure, leaves `cur`'s score and absence from the open set
intact, only lowers recorded scores, only adds open entries, and leaves the
step's own target relaxed. -/
theorem expandStep_inv {grid : List (List ℕ)} {R C : ℕ} {start goal cur : Cell}
    (st1 : AState) (gCur : ℕ) (d : ℤ × ℤ) (hd : d ∈ dirs)
    (H : AInvP grid R C start goal cur st1)
    (hcur : aget st1.gScore cur = some gCur)
    (hfcur : aget st1.frontier cur = none) :
    AInvP grid R C start goal cur (expandStep goal R C cur gCur st1 d) ∧
    aMeasure R C (expandStep goal R C cur gCur st1 d) ≤ aMeasure R C st1 ∧
    aget (expandStep goal R C cur gCur st1 d).gScore cur = some gCur ∧
    aget (expandStep goal R C cur gCur st1 d).frontier cur = none ∧
    (∀ c g0, aget st1.gScore c = some g0 →
      ∃ g1, aget (expandStep goal R C cur gCur st1 d).gScore c = some g1 ∧ g1 ≤ g0) ∧
    (∀ c, aget st1.frontier c ≠ none →
      aget (expandStep goal R C cur gCur st1 d).frontier c ≠ none) ∧
    (inBounds R C (cur.1 + d.1, cur.2 + d.2) → freeCell grid (cur.1 + d.1, cur.2 + d.2) →
      ∃ gn, aget (expandStep goal R C cur gCur st1 d).gScore (cur.1 + d.1, cur.2 + d.2)
          = some gn ∧ gn ≤ gCur + 1) := by
  have hadj : cellAdj cur (cur.1 + d.1, cur.2 + d.2) := dirs_cellAdj cur d hd
  have hn2cur : (cur.1 + d.1, cur.2 + d.2) ≠ cur := by
    intro h
    have h2 := hadj
    rw [h] at h2
    unfold cellAdj at h2
    omega
  have he : expandStep goal R C cur gCur st1 d =
      (if 0 ≤ cur.1 + d.1 ∧ 0 ≤ cur.2 + d.2 ∧ cur.1 + d.1 < (R : ℤ) ∧ cur.2 + d.2 < (C : ℤ) then
        if (st1.grid.getD (cur.1 + d.1).toNat []).getD (cur.2 + d.2).toNat 0 = 1 then st1
        else
          if (match aget st1.gScore (cur.1 + d.1, cur.2 + d.2) with
              | none => true
              | some g => decide (gCur + 1 < g)) = true then
            { st1 with
                parent := aset st1.parent (cur.1 + d.1, cur.2 + d.2) (some cur),
                gScore := aset st1.gScore (cur.1 + d.1, cur.2 + d.2) (gCur + 1),
                frontier := aset st1.frontier (cur.1 + d.1, cur.2 + d.2)
                  (gCur + 1 + manhattan (cur.1 + d.1, cur.2 + d.2) goal) }
          else st1
      else st1) := rfl
  rw [he]
  by_cases hin : 0 ≤ cur.1 + d.1 ∧ 0 ≤ cur.2 + d.2 ∧ cur.1 + d.1 < (R : ℤ) ∧ cur.2 + d.2 < (C : ℤ)
  · rw [if_pos hin]
    by_cases hblk : (st1.grid.getD (cur.1 + d.1).toNat []).getD (cur.2 + d.2).toNat 0 = 1
    · rw [if_pos hblk]
      refine ⟨H, le_refl _, hcur, hfcur, fun c g0 h => ⟨g0, h, le_refl _⟩, fun c h => h, ?_⟩
      intro _ hf
      exact absurd (H.grid_eq ▸ hblk) hf
    · rw [if_neg hblk]
      have hfree : freeCell grid (cur.1 + d.1, cur.2 + d.2) := by
        unfold freeCell
        dsimp only
        rw [← H.grid_eq]
        exact hblk
      have hinb : inBounds R C (cur.1 + d.1, cur.2 + d.2) := by
        unfold inBounds
        dsimp only
        exact hin
      by_cases hbet : (match aget st1.gScore (cur.1 + d.1, cur.2 + d.2) with
          | none => true
          | some g => decide (gCur + 1 < g)) = true
      · rw [if_pos hbet]
        have hwalk2 : GWalk grid R C start (cur.1 + d.1, cur.2 + d.2) (gCur + 1) :=
          GWalk.cons (H.sound cur gCur hcur) hadj hinb hfree
        have hn2start : (cur.1 + d.1, cur.2 + d.2) ≠ start := by
          intro h
          rw [h, H.gstart] at hbet
          simp at hbet
        have hnecur : cur ≠ (cur.1 + d.1, cur.2 + d.2) := fun h => hn2cur h.symm
        have hgnd2 : ((aset st1.gScore (cur.1 + d.1, cur.2 + d.2) (gCur + 1)).map
            Prod.fst).Nodup := aset_keys_nodup _ _ _ H.gnd
        have hginb2 : ∀ e ∈ aset st1.gScore (cur.1 + d.1, cur.2 + d.2) (gCur + 1),
            inBounds R C e.1 := by
          intro e hegm
          rcases aset_mem _ _ _ e hegm with rfl | h2
          · exact hinb
          · exact H.ginb e h2
        have hglen2 : (aset st1.gScore (cur.1 + d.1, cur.2 + d.2) (gCur + 1)).length
            ≤ R * C := inbounds_list_card R C _ hgnd2 hginb2
        refine ⟨?_, ?_, ?_, ?_, ?_, ?_, ?_⟩
        · refine ⟨H.grid_eq, aset_keys_nodup _ _ _ H.fnd, hgnd2,
            aset_keys_nodup _ _ _ H.pnd, hginb2, ?_, ?_, ?_, ?_, ?_, hglen2, ?_, ?_, ?_, ?_, ?_⟩
          · -- sound
            intro c g hg2
            by_cases hc : c = (cur.1 + d.1, cur.2 + d.2)
            · subst hc
              rw [aget_aset_self] at hg2
              cases hg2
              exact hwalk2
            · rw [aget_aset_ne _ _ _ _ hc] at hg2
              exact H.sound c g hg2
          · -- fval
            intro c f hf2
            by_cases hc : c = (cur.1 + d.1, cur.2 + d.2)
            · subst hc
              rw [aget_aset_self] at hf2
              cases hf2
              exact ⟨gCur + 1, aget_aset_self _ _ _, rfl⟩
            · rw [aget_aset_ne _ _ _ _ hc] at hf2
              obtain ⟨g, hg2, hfg⟩ := H.fval c f hf2
              exact ⟨g, by rw [aget_aset_ne _ _ _ _ hc]; exact hg2, hfg⟩
          · -- gstart
            rw [aget_aset_ne _ _ _ _ (fun h => hn2start h.symm)]
            exact H.gstart
          · -- relaxedP
            intro c g hg2 hfc2 hccur n3 hadj3 hinb3 hfree3
            by_cases hc : c = (cur.1 + d.1, cur.2 + d.2)
            · exfalso
              rw [hc, aget_aset_self] at hfc2
              cases hfc2
            · rw [aget_aset_ne _ _ _ _ hc] at hg2
              rw [aget_aset_ne _ _ _ _ hc] at hfc2
              obtain ⟨gn, hgn, hgnle⟩ := H.relaxedP c g hg2 hfc2 hccur n3 hadj3 hinb3 hfree3
              by_cases hn3 : n3 = (cur.1 + d.1, cur.2 + d.2)
              · subst hn3
                rw [hgn] at hbet
                simp only [decide_eq_true_eq] at hbet
                exact ⟨gCur + 1, aget_aset_self _ _ _, by omega⟩
              · exact ⟨gn, by rw [aget_aset_ne _ _ _ _ hn3]; exact hgn, hgnle⟩
          · -- gbound
            intro c g hg2
            dsimp only
            rcases hgold : aget st1.gScore (cur.1 + d.1, cur.2 + d.2) with _ | gold
            · have hlen2 := aset_length_fresh st1.gScore _ (gCur + 1) hgold
              by_cases hc : c = (cur.1 + d.1, cur.2 + d.2)
              · subst hc
                rw [aget_aset_self] at hg2
                cases hg2
                have := H.gbound cur gCur hcur
                omega
              · rw [aget_aset_ne _ _ _ _ hc] at hg2
                have := H.gbound c g hg2
                omega
            · have hlen2 := aset_length_stay st1.gScore _ (gCur + 1) gold hgold
              have hlt : gCur + 1 < gold := by
                rw [hgold] at hbet
                simpa using hbet
              by_cases hc : c = (cur.1 + d.1, cur.2 + d.2)
              · subst hc
                rw [aget_aset_self] at hg2
                cases hg2
                have := H.gbound _ gold hgold
                omega
              · rw [aget_aset_ne _ _ _ _ hc] at hg2
                have := H.gbound c g hg2
                omega
          · -- goalo
            by_cases hgl : goal = (cur.1 + d.1, cur.2 + d.2)
            · right
              rw [hgl, aget_aset_self]
              simp
            · rcases H.goalo with h1 | h1
              · left
                rw [aget_aset_ne _ _ _ _ hgl]
                exact h1
              · right
                rw [aget_aset_ne _ _ _ _ hgl]
                exact h1
          · -- pstart
            rw [aget_aset_ne _ _ _ _ (fun h => hn2start h.symm)]
            exact H.pstart
          · -- pnone
            intro c hc2
            by_cases hc : c = (cur.1 + d.1, cur.2 + d.2)
            · rw [hc, aget_aset_self] at hc2
              cases hc2
            · rw [aget_aset_ne _ _ _ _ hc] at hc2
              exact H.pnone c hc2
          · -- pchain
            intro c p hc2
            by_cases hc : c = (cur.1 + d.1, cur.2 + d.2)
            · subst hc
              rw [aget_aset_self] at hc2
              cases hc2
              refine ⟨gCur + 1, gCur, aget_aset_self _ _ _, ?_, by omega, hadj⟩
              rw [aget_aset_ne _ _ _ _ hnecur]
              exact hcur
            · rw [aget_aset_ne _ _ _ _ hc] at hc2
              obtain ⟨gc, gp, hgc, hgp, hlt, hadjpc⟩ := H.pchain c p hc2
              refine ⟨gc, ?_⟩
              rw [aget_aset_ne _ _ _ _ hc]
              by_cases hp : p = (cur.1 + d.1, cur.2 + d.2)
              · subst hp
                rw [hgp] at hbet
                simp only [decide_eq_true_eq] at hbet
                exact ⟨gCur + 1, hgc, aget_aset_self _ _ _, by omega, hadjpc⟩
              · exact ⟨gp, hgc, by rw [aget_aset_ne _ _ _ _ hp]; exact hgp, hlt, hadjpc⟩
          · -- pdom
            intro c g hg2 hcstart
            by_cases hc : c = (cur.1 + d.1, cur.2 + d.2)
            · subst hc
              exact ⟨cur, aget_aset_self _ _ _⟩
            · rw [aget_aset_ne _ _ _ _ hc] at hg2
              obtain ⟨p, hp⟩ := H.pdom c g hg2 hcstart
              exact ⟨p, by rw [aget_aset_ne _ _ _ _ hc]; exact hp⟩
        · -- measure
          unfold aMeasure
          dsimp only
          have hflen : (aset st1.frontier (cur.1 + d.1, cur.2 + d.2)
              (gCur + 1 + manhattan (cur.1 + d.1, cur.2 + d.2) goal)).length
              ≤ st1.frontier.length + 1 := by
            rcases hof : aget st1.frontier (cur.1 + d.1, cur.2 + d.2) with _ | f0
            · rw [aset_length_fresh _ _ _ hof]
            · rw [aset_length_stay _ _ _ _ hof]
              omega
          rcases hgold : aget st1.gScore (cur.1 + d.1, cur.2 + d.2) with _ | gold
          · have hsum := aset_sum_fresh st1.gScore _ (gCur + 1) hgold
            have hlen2 := aset_length_fresh st1.gScore _ (gCur + 1) hgold
            have hb1 : gCur + 1 + 1 ≤ st1.gScore.length + 1 := by
              have := H.gbound cur gCur hcur
              omega
            rw [hsum, hlen2]
            have hlen3 : st1.gScore.length + 1 ≤ R * C := by
              rw [← hlen2]
              exact hglen2
            have hsub : R * C - st1.gScore.length
                = (R * C - (st1.gScore.length + 1)) + 1 := by omega
            have hprod : (R * C + 1) * (R * C - st1.gScore.length)
                = (R * C + 1) * (R * C - (st1.gScore.length + 1)) + (R * C + 1) := by
              rw [hsub]
              ring
            omega
          · have hsum := aset_sum_overwrite st1.gScore _ (gCur + 1) gold hgold
            have hlen2 := aset_length_stay st1.gScore _ (gCur + 1) gold hgold
            have hlt : gCur + 1 < gold := by
              rw [hgold] at hbet
              simpa using hbet
            rw [hlen2]
            omega
        · rw [aget_aset_ne _ _ _ _ hnecur]
          exact hcur
        · rw [aget_aset_ne _ _ _ _ hnecur]
          exact hfcur
        · -- gmono
          intro c g0 hg0
          by_cases hc : c = (cur.1 + d.1, cur.2 + d.2)
          · subst hc
            rw [hg0] at hbet
            simp only [decide_eq_true_eq] at hbet
            exact ⟨gCur + 1, aget_aset_self _ _ _, by omega⟩
          · exact ⟨g0, by rw [aget_aset_ne _ _ _ _ hc]; exact hg0, le_refl _⟩
        · -- frontier mono
          intro c hc
          by_cases hc2 : c = (cur.1 + d.1, cur.2 + d.2)
          · rw [hc2, aget_aset_self]
            simp
          · rw [aget_aset_ne _ _ _ _ hc2]
            exact hc
        · intro _ _
          exact ⟨gCur + 1, aget_aset_self _ _ _, le_refl _⟩
      · rw [if_neg hbet]
        rcases hg : aget st1.gScore (cur.1 + d.1, cur.2 + d.2) with _ | gold
        · exfalso
          apply hbet
          rw [hg]
        · have hge : gold ≤ gCur + 1 := by
            have h2 : ¬ (gCur + 1 < gold) := by
              intro hlt
              apply hbet
              rw [hg]
              simp [hlt]
            omega
          refine ⟨H, le_refl _, hcur, hfcur, fun c g0 h => ⟨g0, h, le_refl _⟩,
            fun c h => h, ?_⟩
          intro _ _
          exact ⟨gold, rfl, hge⟩
  · rw [if_neg hin]
    refine ⟨H, le_refl _, hcur, hfcur, fun c g0 h => ⟨g0, h, le_refl _⟩, fun c h => h, ?_⟩
    intro hb _
    exact absurd hb hin

/-- One full loop iteration on a non-goal cell: pop `cur` from the open set
and expand its four neighbours.  The full invariant is re-established and the
measure strictly decreases. -/
theorem astar_iter_inv {grid : List (List ℕ)} {R C : ℕ} {start goal : Cell}
    (st : AState) (cur : Cell) (fcur : ℕ)
    (H : AInv grid R C start goal st)
    (hsel : (cur, fcur) ∈ st.frontier)
    (hcurgoal : cur ≠ goal) :
    AInv grid R C start goal
      (dirs.foldl
        (expandStep goal R C cur
          ((aget (AState.mk st.grid (adel st.frontier cur) st.gScore st.parent).gScore
            cur).getD 0))
        (AState.mk st.grid (adel st.frontier cur) st.gScore st.parent)) ∧
    aMeasure R C
      (dirs.foldl
        (expandStep goal R C cur
          ((aget (AState.mk st.grid (adel st.frontier cur) st.gScore st.parent).gScore
            cur).getD 0))
        (AState.mk st.grid (adel st.frontier cur) st.gScore st.parent)) + 1
      ≤ aMeasure R C st := by
  have hfget : aget st.frontier cur = some fcur := aget_of_mem _ _ H.fnd hsel
  obtain ⟨gCur, hg, hf⟩ := H.fval cur fcur hfget
  have hgetD : (aget st.gScore cur).getD 0 = gCur := by
    rw [hg]
    rfl
  rw [show aget (AState.mk st.grid (adel st.frontier cur) st.gScore st.parent).gScore cur
      = aget st.gScore cur from rfl, hgetD]
  have H1 : AInvP grid R C start goal cur
      (AState.mk st.grid (adel st.frontier cur) st.gScore st.parent) := by
    refine ⟨H.grid_eq, adel_keys_nodup _ _ H.fnd, H.gnd, H.pnd, H.ginb, H.sound,
      ?_, H.gstart, ?_, H.gbound, H.glen, ?_, H.pstart, H.pnone, H.pchain, H.pdom⟩
    · intro c f hf2
      by_cases hc : c = cur
      · rw [hc, aget_adel_self] at hf2
        cases hf2
      · rw [aget_adel_ne _ _ _ hc] at hf2
        exact H.fval c f hf2
    · intro c g hg2 hfc2 hccur n2 hadj2 hinb2 hfree2
      rw [aget_adel_ne _ _ _ hccur] at hfc2
      exact H.relaxed c g hg2 hfc2 n2 hadj2 hinb2 hfree2
    · rcases H.goalo with h1 | h1
      · exact Or.inl h1
      · right
        rw [aget_adel_ne _ _ _ (fun h => hcurgoal h.symm)]
        exact h1
  have hg1 : aget (AState.mk st.grid (adel st.frontier cur) st.gScore st.parent).gScore cur
      = some gCur := hg
  have hf1 : aget (AState.mk st.grid (adel st.frontier cur) st.gScore st.parent).frontier cur
      = none := aget_adel_self _ _
  obtain ⟨H2, hm2, hc2, hf2, hmono2, _, htar1⟩ :=
    expandStep_inv _ gCur (1, 0) (by simp [dirs]) H1 hg1 hf1
  obtain ⟨H3, hm3, hc3, hf3, hmono3, _, htar2⟩ :=
    expandStep_inv _ gCur (-1, 0) (by simp [dirs]) H2 hc2 hf2
  obtain ⟨H4, hm4, hc4, hf4, hmono4, _, htar3⟩ :=
    expandStep_inv _ gCur (0, 1) (by simp [dirs]) H3 hc3 hf3
  obtain ⟨H5, hm5, hc5, hf5, hmono5, _, htar4⟩ :=
    expandStep_inv _ gCur (0, -1) (by simp [dirs]) H4 hc4 hf4
  have hfold : dirs.foldl (expandStep goal R C cur gCur)
      (AState.mk st.grid (adel st.frontier cur) st.gScore st.parent)
      = expandStep goal R C cur gCur
          (expandStep goal R C cur gCur
            (expandStep goal R C cur gCur
              (expandStep goal R C cur gCur
                (AState.mk st.grid (adel st.frontier cur) st.gScore st.parent) (1, 0))
              (-1, 0))
            (0, 1))
          (0, -1) := rfl
  rw [hfold]
  constructor
  · -- full invariant: only `relaxed` needs work beyond H5
    refine ⟨H5.grid_eq, H5.fnd, H5.gnd, H5.pnd, H5.ginb, H5.sound, H5.fval, H5.gstart,
      ?_, H5.gbound, H5.glen, H5.goalo, H5.pstart, H5.pnone, H5.pchain, H5.pdom⟩
    intro c g hgc hfc n2 hadj2 hinb2 hfree2
    by_cases hccur : c = cur
    · subst hccur
      have hgeq : g = gCur := by
        rw [hc5] at hgc
        cases hgc
        rfl
      subst hgeq
      obtain ⟨dd, hdd, rfl⟩ := cellAdj_dirs c n2 hadj2
      fin_cases hdd
      · obtain ⟨gn1, hgn1, hle1⟩ := htar1 hinb2 hfree2
        obtain ⟨gn2, hgn2, hle2⟩ := hmono3 _ _ hgn1
        obtain ⟨gn3, hgn3, hle3⟩ := hmono4 _ _ hgn2
        obtain ⟨gn4, hgn4, hle4⟩ := hmono5 _ _ hgn3
        exact ⟨gn4, hgn4, by omega⟩
      · obtain ⟨gn1, hgn1, hle1⟩ := htar2 hinb2 hfree2
        obtain ⟨gn2, hgn2, hle2⟩ := hmono4 _ _ hgn1
        obtain ⟨gn3, hgn3, hle3⟩ := hmono5 _ _ hgn2
        exact ⟨gn3, hgn3, by omega⟩
      · obtain ⟨gn1, hgn1, hle1⟩ := htar3 hinb2 hfree2
        obtain ⟨gn2, hgn2, hle2⟩ := hmono5 _ _ hgn1
        exact ⟨gn2, hgn2, by omega⟩
      · exact htar4 hinb2 hfree2
    · exact H5.relaxedP c g hgc hfc hccur n2 hadj2 hinb2 hfree2
  · -- measure
    have hdel : aMeasure R C (AState.mk st.grid (adel st.frontier cur) st.gScore st.parent) + 1
        = aMeasure R C st := by
      unfold aMeasure
      dsimp only
      have := adel_length st.frontier cur H.fnd (by rw [hfget]; exact fun h => by cases h)
      omega
    omega

/-- Cover lemma: walking down a shortest path from a correctly-scored cell,
either the destination is already correctly scored, or some open cell sits on
the path with a correct score. -/
theorem astar_cover {grid : List (List ℕ)} {R C : ℕ} {start goal : Cell}
    (st : AState) (H : AInv grid R C start goal st) :
    ∀ (dd i : ℕ) (m z : Cell) (kz : ℕ),
      GWalk grid R C start m i →
      GWalk grid R C m z dd →
      i + dd = kz →
      (∀ k2, GWalk grid R C start z k2 → kz ≤ k2) →
      aget st.gScore m = some i →
      (∃ gz, aget st.gScore z = some gz ∧ gz = kz) ∨
      (∃ b ib fb db, aget st.frontier b = some fb ∧ aget st.gScore b = some ib ∧
        GWalk grid R C b z db ∧ ib + db = kz) := by
  intro dd
  induction dd with
  | zero =>
    intro i m z kz _ hmz hsum _ hgm
    have hzm : z = m := gwalk_zero hmz
    subst hzm
    exact Or.inl ⟨i, hgm, by omega⟩
  | succ dd ih =>
    intro i m z kz hw hmz hsum hzmin hgm
    rcases hfm : aget st.frontier m with _ | fm
    · obtain ⟨m1, hm1a, hm1b⟩ := gwalk_split hmz dd (by omega)
      have h1 : dd + 1 - dd = 1 := by omega
      rw [h1] at hm1a
      obtain ⟨hadj1, hinb1, hfree1⟩ := gwalk_one hm1a
      obtain ⟨gn, hgn, hgnle⟩ := H.relaxed m i hgm hfm m1 hadj1 hinb1 hfree1
      have hm1min : ∀ k2, GWalk grid R C start m1 k2 → i + 1 ≤ k2 := by
        intro k2 hk2
        have := hzmin (k2 + dd) (gwalk_append hk2 hm1b)
        omega
      have hw1 : GWalk grid R C start m1 (i + 1) := gwalk_append hw hm1a
      have hgneq : gn = i + 1 := le_antisymm hgnle (hm1min gn (H.sound m1 gn hgn))
      subst hgneq
      exact ih (i + 1) m1 z kz hw1 hm1b (by omega) hzmin hgn
    · exact Or.inr ⟨m, i, fm, dd + 1, hfm, hgm, hmz, by omega⟩

/-- When the goal is popped with the minimal `f`, its score is the shortest
walk length (Manhattan is admissible for unit-cost cardinal moves). -/
theorem astar_goal_pop {grid : List (List ℕ)} {R C : ℕ} {start goal : Cell}
    (st : AState) (H : AInv grid R C start goal st) (fcur : ℕ)
    (hsel : (goal, fcur) ∈ st.frontier)
    (hmin : ∀ q ∈ st.frontier, fcur ≤ q.2)
    (kz : ℕ) (hreach : GWalk grid R C start goal kz)
    (hkmin : ∀ k2, GWalk grid R C start goal k2 → kz ≤ k2) :
    aget st.gScore goal = some kz := by
  have hfget : aget st.frontier goal = some fcur := aget_of_mem _ _ H.fnd hsel
  obtain ⟨gg, hgg, hfeq⟩ := H.fval goal fcur hfget
  rcases astar_cover st H kz 0 start goal kz (H.sound start 0 H.gstart) hreach
      (by omega) hkmin H.gstart with ⟨gz, hgz, hgzeq⟩ | ⟨b, ib, fb, db, hfb, hgb, hwb, hsum⟩
  · exact hgzeq ▸ hgz
  · obtain ⟨gb2, hgb2, hfbeq⟩ := H.fval b fb hfb
    have hgbeq : gb2 = ib := by
      rw [hgb] at hgb2
      cases hgb2
      rfl
    have hman : manhattan b goal ≤ db := manhattan_le_walk hwb
    have hmg : manhattan goal goal = 0 := manhattan_self goal
    have hle := hmin (b, fb) (mem_of_aget _ _ _ hfb)
    have hggge := hkmin gg (H.sound goal gg hgg)
    rw [hgg]
    congr 1
    simp only [] at hle
    omega

/-- Path reconstruction walks the parent chain back to `start`, producing a
goal-to-start cell list of at most `g+1` cells that reverses to a valid grid
path. -/
theorem astar_recon {grid : List (List ℕ)} {R C : ℕ} {start goal : Cell}
    (st : AState) (H : AInv grid R C start goal st) :
    ∀ (N : ℕ) (c : Cell) (gc : ℕ), gc < N → aget st.gScore c = some gc →
      ∀ fuel, gc + 1 ≤ fuel →
      ∃ l, astarRecon fuel st.parent c = some l ∧
        l.head? = some c ∧ l.getLast? = some start ∧ l ≠ [] ∧
        l.length ≤ gc + 1 ∧
        GWalk grid R C start c (l.length - 1) ∧
        List.Chain' (fun a b => cellAdj b a) l ∧
        (∀ x ∈ l, inBounds R C x ∧ freeCell grid x) := by
  intro N
  induction N with
  | zero =>
    intro c gc h
    exact absurd h (Nat.not_lt_zero gc)
  | succ N ih =>
    intro c gc hlt hgc fuel hfuel
    by_cases hcs : c = start
    · have hg0 : gc = 0 := by
        rw [hcs, H.gstart] at hgc
        cases hgc
        rfl
      obtain ⟨f2, rfl⟩ : ∃ f2, fuel = f2 + 1 := ⟨fuel - 1, by omega⟩
      have hrec : astarRecon (f2 + 1) st.parent c = some [c] := by
        show (match aget st.parent c with
          | none => some [c]
          | some none => some [c]
          | some (some q) => (astarRecon f2 st.parent q).map (fun l => c :: l))
          = some [c]
        rw [hcs, H.pstart]
      have hw0 : GWalk grid R C start c 0 := by
        rw [hg0] at hgc
        exact H.sound c 0 hgc
      refine ⟨[c], hrec, rfl, by simp [hcs], by simp, by simp, hw0, by simp, ?_⟩
      intro x hx
      rw [List.mem_singleton] at hx
      subst hx
      exact gwalk_end hw0
    · obtain ⟨p, hp⟩ := H.pdom c gc hgc hcs
      obtain ⟨gc2, gp, hgc2, hgp, hplt, hadjpc⟩ := H.pchain c p hp
      have hgceq : gc2 = gc := by
        rw [hgc] at hgc2
        cases hgc2
        rfl
      subst hgceq
      obtain ⟨f2, rfl⟩ : ∃ f2, fuel = f2 + 1 := ⟨fuel - 1, by omega⟩
      obtain ⟨l, hl, hhead, hlast, hne, hlen, hwalk, hchain, hmem⟩ :=
        ih p gp (by omega) hgp f2 (by omega)
      have hcw : GWalk grid R C start c gc2 := H.sound c gc2 hgc
      obtain ⟨hcinb, hcfree⟩ := gwalk_end hcw
      have hlen1 : l.length - 1 + 1 = l.length := by
        rcases l with _ | ⟨x, xs⟩
        · cases hne rfl
        · simp
      refine ⟨c :: l, ?_, rfl, ?_, by simp, ?_, ?_, ?_, ?_⟩
      · show (match aget st.parent c with
          | none => some [c]
          | some none => some [c]
          | some (some q) => (astarRecon f2 st.parent q).map (fun l2 => c :: l2))
          = some (c :: l)
        rw [hp]
        dsimp only
        rw [hl]
        rfl
      · rcases l with _ | ⟨x, xs⟩
        · cases hne rfl
        · rw [List.getLast?_cons_cons]
          exact hlast
      · simp only [List.length_cons]
        omega
      · have hw2 : GWalk grid R C start c (l.length - 1 + 1) :=
          GWalk.cons hwalk hadjpc hcinb hcfree
        rw [hlen1] at hw2
        simpa using hw2
      · rw [List.chain'_cons']
        refine ⟨?_, hchain⟩
        intro b hb
        rw [hhead] at hb
        cases hb
        exact hadjpc
      · intro x hx
        rcases List.mem_cons.mp hx with rfl | hx2
        · exact ⟨hcinb, hcfree⟩
        · exact hmem x hx2

/-- The A* main loop, run with enough fuel from an invariant state, returns
either "no path" with an empty open set and the invariant intact, or a valid
start-to-goal grid path of shortest length. -/
theorem astarLoop_spec {grid : List (List ℕ)} {R C : ℕ} {start goal : Cell} :
    ∀ (fuel : ℕ) (st : AState), AInv grid R C start goal st →
      aMeasure R C st < fuel →
      (∃ st2, astarLoop goal R C fuel st = .ok none st2 ∧
        AInv grid R C start goal st2 ∧ st2.frontier = []) ∨
      (∃ p st2 k, astarLoop goal R C fuel st = .ok (some p) st2 ∧
        p.head? = some start ∧ p.getLast? = some goal ∧ p ≠ [] ∧
        (∀ x ∈ p, inBounds R C x ∧ freeCell grid x) ∧ List.Chain' cellAdj p ∧
        p.length = k + 1 ∧ GWalk grid R C start goal k ∧
        (∀ k2, GWalk grid R C start goal k2 → k ≤ k2)) := by
  intro fuel
  induction fuel with
  | zero =>
    intro st _ hmeas
    exact absurd hmeas (by omega)
  | succ fuel ih =>
    intro st H hmeas
    by_cases hemp : st.frontier = []
    · exact Or.inl ⟨st, astarLoop_nil _ _ _ _ _ hemp, H, hemp⟩
    · rw [astarLoop_succ _ _ _ _ _ hemp]
      obtain ⟨⟨cur, fcur⟩, hsel, hselmem, hselmin⟩ := selectMin_spec st.frontier hemp
      rw [hsel]
      dsimp only
      by_cases hcg : cur = goal
      · subst hcg
        rw [if_pos rfl]
        have hfget : aget st.frontier cur = some fcur := aget_of_mem _ _ H.fnd hselmem
        obtain ⟨gg, hgg, hfeq⟩ := H.fval cur fcur hfget
        obtain ⟨k, hk, hkmin⟩ :=
          nat_exists_least (fun k => GWalk grid R C start cur k) ⟨gg, H.sound _ _ hgg⟩
        have hopt : aget st.gScore cur = some k :=
          astar_goal_pop st H fcur hselmem hselmin k hk hkmin
        have hkb : k + 1 ≤ R * C := le_trans (H.gbound _ _ hopt) H.glen
        obtain ⟨l, hl, hhead, hlast, hlne, hllen, hlwalk, hlchain, hlmem⟩ :=
          astar_recon st H (k + 1) cur k (by omega) hopt (R * C + 1) (by omega)
        rw [hl]
        dsimp only
        right
        have hlpos : 0 < l.length := List.length_pos.mpr hlne
        have hge := hkmin _ hlwalk
        have hleq : l.length = k + 1 := by omega
        refine ⟨l.reverse, _, k, rfl, ?_, ?_, ?_, ?_, ?_, ?_, hk, hkmin⟩
        · rw [List.head?_reverse]
          exact hlast
        · rw [List.getLast?_reverse]
          exact hhead
        · simp [hlne]
        · intro x hx
          rw [List.mem_reverse] at hx
          exact hlmem x hx
        · exact (List.chain'_reverse.mpr hlchain)
        · rw [List.length_reverse]
          exact hleq
      · rw [if_neg hcg]
        obtain ⟨Hnext, hmnext⟩ := astar_iter_inv st cur fcur H hselmem hcg
        dsimp only at Hnext hmnext
        exact ih _ Hnext (by omega)

/-- **C2.** For every nonempty rectangular grid and free in-bounds start and
goal cells: if a path of cardinal unit steps through free cells exists,
`astarGrid` returns a valid start-to-goal grid path whose number of moves is
the true shortest walk length; if no path exists it returns the "no path"
result (`null`). -/
theorem astar_correct (grid : List (List ℕ)) (start goal : Cell)
    (hne : grid ≠ [])
    (hrect : ∀ row ∈ grid, row.length = (grid.getD 0 []).length)
    (hsb : inBounds grid.length (grid.getD 0 []).length start)
    (hsf : freeCell grid start)
    (hgb : inBounds grid.length (grid.getD 0 []).length goal)
    (hgf : freeCell grid goal) :
    ((∃ k, GWalk grid grid.length (grid.getD 0 []).length start goal k) →
      ∃ p st k, astarGrid start goal grid = .ok (some p) st ∧
        IsGridPath grid grid.length (grid.getD 0 []).length start goal p ∧
        p.length = k + 1 ∧
        GWalk grid grid.length (grid.getD 0 []).length start goal k ∧
        (∀ k2, GWalk grid grid.length (grid.getD 0 []).length start goal k2 → k ≤ k2)) ∧
    ((¬ ∃ k, GWalk grid grid.length (grid.getD 0 []).length start goal k) →
      ∃ st, astarGrid start goal grid = .ok none st) := by
  obtain ⟨g0, rest, rfl⟩ : ∃ g0 rest, grid = g0 :: rest := by
    rcases grid with _ | ⟨g0, rest⟩
    · cases hne rfl
    · exact ⟨g0, rest, rfl⟩
  have hgridEq : astarGrid start goal (g0 :: rest)
      = astarLoop goal (g0 :: rest).length (((g0 :: rest).getD 0 []).length)
          (astarFuel (g0 :: rest).length (((g0 :: rest).getD 0 []).length))
          (AState.mk (g0 :: rest) [(start, manhattan start goal)] [(start, 0)]
            [(start, none)]) := rfl
  have hR1 : 1 ≤ (g0 :: rest).length := by simp
  have hC1 : 1 ≤ ((g0 :: rest).getD 0 []).length := by
    obtain ⟨_, h2, _, h4⟩ := hsb
    omega
  have hRC1 : 1 ≤ (g0 :: rest).length * ((g0 :: rest).getD 0 []).length := by
    have := Nat.mul_le_mul hR1 hC1
    simpa using this
  have H0 : AInv (g0 :: rest) (g0 :: rest).length (((g0 :: rest).getD 0 []).length)
      start goal
      (AState.mk (g0 :: rest) [(start, manhattan start goal)] [(start, 0)]
        [(start, none)]) := by
    have hagetg : ∀ (c : Cell), aget [(start, (0 : ℕ))] c
        = if start = c then some 0 else none := by
      intro c
      rw [aget_cons]
      split <;> rfl
    refine ⟨rfl, by simp, by simp, by simp, ?_, ?_, ?_, ?_, ?_, ?_, ?_, ?_, ?_, ?_, ?_, ?_⟩
    · intro e hmem
      rw [List.mem_singleton] at hmem
      subst hmem
      exact hsb
    · intro c g hg
      rw [hagetg] at hg
      split at hg
      · cases hg
        rename_i hsc
        rw [← hsc]
        exact GWalk.nil hsb hsf
      · cases hg
    · intro c f hf
      rw [aget_cons] at hf
      split at hf
      · cases hf
        rename_i hsc
        refine ⟨0, ?_, by rw [← hsc]; omega⟩
        rw [hagetg, if_pos hsc]
      · cases hf
    · rw [hagetg, if_pos rfl]
    · intro c g hg hfc
      rw [hagetg] at hg
      split at hg
      · rename_i hsc
        rw [aget_cons, if_pos hsc] at hfc
        cases hfc
      · cases hg
    · intro c g hg
      rw [hagetg] at hg
      split at hg
      · cases hg
        simp
      · cases hg
    · simpa using hRC1
    · by_cases hgs : goal = start
      · right
        rw [aget_cons, if_pos hgs.symm]
        simp
      · left
        rw [hagetg, if_neg (fun h => hgs h.symm)]
    · rw [aget_cons, if_pos rfl]
    · intro c hc
      rw [aget_cons] at hc
      split at hc
      · rename_i hsc
        exact hsc.symm
      · cases hc
    · intro c p hc
      rw [aget_cons] at hc
      split at hc
      · cases hc
      · cases hc
    · intro c g hg hcs
      rw [hagetg] at hg
      split at hg
      · rename_i hsc
        exact absurd hsc.symm hcs
      · cases hg
  have hmeas : aMeasure (g0 :: rest).length (((g0 :: rest).getD 0 []).length)
      (AState.mk (g0 :: rest) [(start, manhattan start goal)] [(start, 0)]
        [(start, none)])
      < astarFuel (g0 :: rest).length (((g0 :: rest).getD 0 []).length) := by
    unfold aMeasure astarFuel
    dsimp only
    have h2 : (g0 :: rest).length * ((g0 :: rest).getD 0 []).length - 1
        ≤ ((g0 :: rest).length * ((g0 :: rest).getD 0 []).length + 1)
          * ((g0 :: rest).length * ((g0 :: rest).getD 0 []).length) := by
      have h2a := Nat.le_mul_of_pos_left
        ((g0 :: rest).length * ((g0 :: rest).getD 0 []).length)
        (show 0 < (g0 :: rest).length * ((g0 :: rest).getD 0 []).length + 1 by omega)
      omega
    have h3 := Nat.mul_le_mul_left
      ((g0 :: rest).length * ((g0 :: rest).getD 0 []).length + 1) h2
    have h4 : ((g0 :: rest).length * ((g0 :: rest).getD 0 []).length + 1)
          * (((g0 :: rest).length * ((g0 :: rest).getD 0 []).length + 1)
            * ((g0 :: rest).length * ((g0 :: rest).getD 0 []).length))
        = ((g0 :: rest).length * ((g0 :: rest).getD 0 []).length + 1)
          * ((g0 :: rest).length * ((g0 :: rest).getD 0 []).length + 1)
          * ((g0 :: rest).length * ((g0 :: rest).getD 0 []).length) := by
      ring
    have hsum : (List.map Prod.snd [(start, (0 : ℕ))]).sum = 0 := rfl
    have hflen : ([(start, manhattan start goal)] : List (Cell × ℕ)).length = 1 := rfl
    have hglen0 : ([(start, (0 : ℕ))] : List (Cell × ℕ)).length = 1 := rfl
    rw [hsum, hflen, hglen0]
    omega
  constructor
  · rintro ⟨k0, hk0⟩
    rcases astarLoop_spec _ _ H0 hmeas with ⟨st2, heq, H2, hf2⟩ |
      ⟨p, st2, k, heq, hhead, hlast, hpne, hmem, hchain, hlen, hwalk, hmin⟩
    · exfalso
      obtain ⟨k, hk, hkmin⟩ :=
        nat_exists_least (fun k => GWalk (g0 :: rest) (g0 :: rest).length
          (((g0 :: rest).getD 0 []).length) start goal k) ⟨k0, hk0⟩
      rcases astar_cover st2 H2 k 0 start goal k (H2.sound start 0 H2.gstart) hk
          (by omega) hkmin H2.gstart with ⟨gz, hgz, _⟩ | ⟨b, ib, fb, db, hfb, _, _, _⟩
      · rcases H2.goalo with h1 | h1
        · rw [h1] at hgz
          cases hgz
        · apply h1
          rw [hf2]
          rfl
      · rw [hf2] at hfb
        cases hfb
    · exact ⟨p, st2, k, by rw [hgridEq]; exact heq,
        ⟨hpne, hhead, hlast, hmem, hchain⟩, hlen, hwalk, hmin⟩
  · intro hnone
    rcases astarLoop_spec _ _ H0 hmeas with ⟨st2, heq, _, _⟩ |
      ⟨p, st2, k, heq, _, _, _, _, _, _, hwalk, _⟩
    · exact ⟨st2, by rw [hgridEq]; exact heq⟩
    · exact absurd ⟨k, hwalk⟩ hnone

/-- Witness for C2 on the free 1×2 grid: the shortest path from `(0,0)` to
`(0,1)` is found. -/
theorem astar_correct_witness :
    ∃ p st k, astarGrid ((0 : ℤ), (0 : ℤ)) (0, 1) [[0, 0]] = .ok (some p) st ∧
      IsGridPath [[0, 0]] ([[0, 0]] : List (List ℕ)).length
        (([[0, 0]] : List (List ℕ)).getD 0 []).length (0, 0) (0, 1) p ∧
      p.length = k + 1 ∧
      GWalk [[0, 0]] ([[0, 0]] : List (List ℕ)).length
        (([[0, 0]] : List (List ℕ)).getD 0 []).length (0, 0) (0, 1) k ∧
      (∀ k2, GWalk [[0, 0]] ([[0, 0]] : List (List ℕ)).length
        (([[0, 0]] : List (List ℕ)).getD 0 []).length (0, 0) (0, 1) k2 → k ≤ k2) :=
  (astar_correct [[0, 0]] (0, 0) (0, 1) (by decide) (by decide) (by decide) (by decide)
    (by decide) (by decide)).1
    ⟨1, GWalk.cons (GWalk.nil (by decide) (by decide)) (by decide) (by decide) (by decide)⟩
